import Mathlib

/-!
The in-memory write buffer of the tsdb engine (`src/tsdb/src/tsdbMemTable.c`).

A shallow embedding of the row-insertion path (`tsdbInsertRowToMem`), the slab
allocator (`tsdbAllocBytes`, `tsdbFreeBytes`), the generation objects
(`tsdbNewMemTable`, `tsdbNewTableData`, `tsdbUnRefMemTable`) and the repository-state
effect of the commit task (`tsdbCommitData`).

Conventions of the embedding.

* Heap objects are values; a `NULL` pointer is `none`.
* C integers are `Int`.  Timestamps (`TSKEY`, a signed 64-bit integer) are only ever
  compared and copied; the counters are only incremented by one.
* Every call into the operating system or into a part of the engine that lives in another
  translation unit (lock, unlock, thread creation and join, `calloc`, the skip-list put)
  can fail; whether it does is an input of the call, collected in the `…Env` records.
* `ASSERT(e)` does not change the state: the embedding follows the statements of the
  function, and the conditions of the assertions are stated where a theorem is about them.
* `tsdbAllocBytes` and `tsdbInsertRowToMem` also yield the list of the events they went
  through (`Ev`), so that a theorem can speak of the branch a call has taken.
-/

namespace Tsdb

/-! ## Data model -/

/-- Largest value of a signed 64-bit integer. -/
def INT64_MAX : Int := 9223372036854775807

/-- Smallest value of a signed 64-bit integer. -/
def INT64_MIN : Int := -9223372036854775808

/-- The values a `TSKEY` can take. -/
def isInt64 (k : Int) : Prop := INT64_MIN ≤ k ∧ k ≤ INT64_MAX

instance (k : Int) : Decidable (isInt64 k) := by
  unfold isInt64; infer_instance

/-- Largest value of a C `int` (32 bits). -/
def INT32_MAX : Int := 2147483647

/-- Smallest value of a C `int` (32 bits). -/
def INT32_MIN : Int := -2147483648

/-- The values a C `int` can take. -/
def isInt32 (x : Int) : Prop := INT32_MIN ≤ x ∧ x ≤ INT32_MAX

instance (x : Int) : Decidable (isInt32 x) := by
  unfold isInt32; infer_instance

/-- The value that a C `int` holds for an expression whose mathematical value is `x`: `x`
itself when it is a value of `int`, otherwise the value of `int` that differs from `x` by a
multiple of 2^32 (two's complement wrap-around). -/
def toInt32 (x : Int) : Int := (x + 2147483648) % 4294967296 - 2147483648

/-- A data row as the buffer sees it: `dataRowKey` (a `TSKEY`) and `dataRowLen`; `payload`
stands for the remaining bytes of the row. -/
structure SDataRow where
  key : Int
  len : Int
  payload : Nat
  deriving DecidableEq

/-- The table handle: `TABLE_TID`, `TALBE_UID` and the two schema metrics read at lines
94-96 (`schemaNCols`, `schemaTLen` of `tsdbGetTableSchema`). -/
structure STable where
  tid : Nat
  uid : Nat
  schemaNCols : Int
  schemaTLen : Int
  deriving DecidableEq

/-- The per-table index of one generation (`STableData`).  `pData` is the skip list, kept as
the list of its rows in iteration order. -/
structure STableData where
  uid : Nat
  keyFirst : Int
  keyLast : Int
  numOfRows : Int
  pData : List SDataRow
  deriving DecidableEq

/-- A buffer block (`STsdbBufBlock`); `blockId` stands for the identity of its byte
region `data`. -/
structure STsdbBufBlock where
  blockId : Nat
  offset : Int
  remain : Int
  deriving DecidableEq

/-- A generation (`SMemTable`).  `ref` is the counter behind `T_REF_INC` / `T_REF_DEC`. -/
structure SMemTable where
  ref : Int
  keyFirst : Int
  keyLast : Int
  numOfRows : Int
  maxCols : Int
  maxRowBytes : Int
  tData : List (Option STableData)
  bufBlockList : List STsdbBufBlock
  deriving DecidableEq

/-- The part of `STsdbCfg` the buffer and the commit task read.  `precision` is the index of
the time precision (0 milliseconds, 1 microseconds, 2 nanoseconds).  The last three fields
start with the values of a repository created with default options. -/
structure STsdbCfg where
  maxTables : Nat
  totalBlocks : Int
  maxRowsPerFileBlock : Int := 4096
  daysPerFile : Int := 10
  precision : Nat := 0
  deriving DecidableEq

/-- The repository (`STsdbRepo`): configuration, the free list of the buffer pool
(`pPool->bufBlockList`), the active generation `mem`, the immutable generation `imem`, the
`commit` flag, and `commitThread`: whether the task behind the thread handle is still running. -/
structure STsdbRepo where
  config : STsdbCfg
  pPool : List STsdbBufBlock
  mem : Option SMemTable
  imem : Option SMemTable
  commit : Int
  commitThread : Bool
  deriving DecidableEq

/-! ## Outcomes of the calls that leave this translation unit -/

/-- Outcomes inside `tsdbUnRefMemTable`: `tsdbLockRepo` (line 120), `pthread_cond_signal`
(line 124), `tsdbUnlockRepo` (line 131). -/
structure UnRefEnv where
  lockFails : Bool
  signalCode : Int
  unlockFails : Bool
  deriving DecidableEq

/-- How a run of the commit task went: `tsdbCreateTableIters` returned `NULL` (line 342),
`tsdbInitWriteHelper` failed (line 348), `tdNewDataCols` returned `NULL` (line 354), some
`tsdbCommitToFile` failed (line 366). -/
structure CommitEnv where
  itersNull : Bool
  helperFails : Bool
  dataColsNull : Bool
  fileFails : Bool
  deriving DecidableEq

/-- Outcomes inside `tsdbAllocBytes`: `pthread_join` (line 168) and the run of the joined
task, lock / `pthread_create` / unlock of the swap (lines 179, 183, 190), the release of the
previous immutable generation (line 192), lock / unlock around the block acquisition (lines
194, 197), `tsdbNewMemTable` (line 202), lock / unlock around the installation (lines 205,
214). -/
structure AllocEnv where
  joinCode : Int
  task : CommitEnv
  lockSwap : Bool
  createCode : Int
  unlockSwap : Bool
  unref : UnRefEnv
  lockAcquire : Bool
  unlockAcquire : Bool
  newMemTableNull : Bool
  lockInstall : Bool
  unlockInstall : Bool
  deriving DecidableEq

/-- Outcomes inside `tsdbInsertRowToMem`: the node shape chosen by `tSkipListNewNodeInfo`
(line 46), the allocation, `tsdbNewTableData` returning `NULL` (line 69), `tSkipListPut`
returning `NULL` (line 82). -/
structure InsertEnv where
  level : Int
  headSize : Int
  alloc : AllocEnv
  newTableDataNull : Bool
  putNull : Bool
  deriving DecidableEq

/-- No failure inside `tsdbUnRefMemTable`. -/
def UnRefEnv.ok : UnRefEnv := ⟨false, 0, false⟩

/-- A commit run without failure. -/
def CommitEnv.ok : CommitEnv := ⟨false, false, false, false⟩

/-- No failure inside `tsdbAllocBytes`. -/
def AllocEnv.ok : AllocEnv :=
  ⟨0, CommitEnv.ok, false, 0, false, UnRefEnv.ok, false, false, false, false, false⟩

/-- No failure inside `tsdbInsertRowToMem`; the node header takes `headSize` bytes. -/
def InsertEnv.ok (headSize : Int) : InsertEnv := ⟨1, headSize, AllocEnv.ok, false, false⟩

/-! ## The skip list and the pool -/

/-- The place of a new row among the rows of an index: behind every row whose key is not
larger. -/
def putOrdered (row : SDataRow) : List SDataRow → List SDataRow
  | [] => [row]
  | x :: xs => if row.key < x.key then row :: x :: xs else x :: putOrdered row xs

/-- Modelled from the spec: `tSkipListPut` is defined outside the sources at hand.  §4.4: the
index keeps the rows of one table in ascending timestamp order and the put reports whether
the key was newly inserted.  The key is the pair of the timestamp and a disambiguator, which
the rows here do not carry: a row whose timestamp is not in the index is always linked, and
for a row whose timestamp is in the index already the input `rejected` tells whether the put
found the same key (`NULL`) or linked the row as a distinct one. -/
def tSkipListPut (rejected : Bool) (l : List SDataRow) (row : SDataRow) :
    Option (List SDataRow) :=
  if rejected && l.any (fun x => decide (x.key = row.key)) then none
  else some (putOrdered row l)

/-- The element count of a skip list (`tSkipListGetSize`). -/
def tSkipListGetSize (l : List SDataRow) : Int := l.length

/-- The size of the byte region of a block: `offset + remain`, which the bump of lines
220-221 and `tsdbFreeBytes` keep. -/
def blockSize (b : STsdbBufBlock) : Int := b.offset + b.remain

/-- A block with nothing carved out of it: offset 0 and the whole region remaining. -/
def clearedBlock (b : STsdbBufBlock) : STsdbBufBlock :=
  { b with offset := 0, remain := blockSize b }

/-- Modelled from the spec: `tsdbAllocBufBlockFromPool` is defined outside the sources at
hand.  §4.1: `acquire()` removes and returns one block from the free list of the pool; with no
free block the caller waits on the not-empty condition (`none`).  A recycled block is cleared
(§4.1, and the glossary: the allocator is reset by whole-block recycling): the releases of
lines 121-123 and 381 move the list nodes as they are, so the block is cleared where it is
handed out, with offset 0 and its whole region remaining (`clearedBlock`). -/
def tsdbAllocBufBlockFromPool (pool : List STsdbBufBlock) :
    Option (STsdbBufBlock × List STsdbBufBlock) :=
  match pool with
  | [] => none
  | b :: rest => some (clearedBlock b, rest)

/-! ## Generations -/

/-- Lines 234-270: a new generation, or `NULL` when one of its allocations fails. -/
def tsdbNewMemTable (fails : Bool) (pCfg : STsdbCfg) : Option SMemTable :=
  if fails then none
  else some
    { ref := 1, keyFirst := INT64_MAX, keyLast := 0, numOfRows := 0, maxCols := 0,
      maxRowBytes := 0, tData := List.replicate pCfg.maxTables none, bufBlockList := [] }

/-- Lines 284-311: a new per-table index, or `NULL` when one of its allocations fails. -/
def tsdbNewTableData (fails : Bool) (pTable : STable) : Option STableData :=
  if fails then none
  else some { uid := pTable.uid, keyFirst := INT64_MAX, keyLast := 0, numOfRows := 0, pData := [] }

/-- Lines 121-123: pop the head of the block list and append it to the pool, until the
block list is empty. -/
def moveBlocks : List STsdbBufBlock → List STsdbBufBlock → List STsdbBufBlock
  | [], pool => pool
  | b :: rest, pool => moveBlocks rest (pool ++ [b])

/-- What `tsdbUnRefMemTable` leaves: the return code, the free list of the pool, the
generation object as the last statement that touched it left it, and whether it was freed. -/
structure UnRefOut where
  ret : Int
  pPool : List STsdbBufBlock
  mem : SMemTable
  freed : Bool
  deriving DecidableEq

/-- Lines 112-144. -/
def tsdbUnRefMemTable (env : UnRefEnv) (pool : List STsdbBufBlock) (pMemTable : SMemTable) :
    UnRefOut :=
  let m1 := { pMemTable with ref := pMemTable.ref - 1 }
  if m1.ref = 0 then
    if env.lockFails then ⟨-1, pool, m1, false⟩
    else
      let pool1 := moveBlocks m1.bufBlockList pool
      let m2 := { m1 with bufBlockList := [] }
      if env.signalCode ≠ 0 then ⟨-1, pool1, m2, false⟩
      else if env.unlockFails then ⟨-1, pool1, m2, false⟩
      else ⟨0, pool1, m2, true⟩
  else ⟨0, pool, m1, false⟩

/-- Lines 322-399, the effect of a finished commit task on the repository.  The return at line
345 leaves the repository as it is.  Every other path reaches the statements behind `_exit`
(lines 381-395); the function still names its objects through `pCache`, which is read here as
the repository: `pCache->imem` is `imem`, `pCache->pool.memPool` is the free list of the pool.
`tsdbAdjustCacheBlocks` is not in the sources at hand and is taken to leave the pool as is. -/
def tsdbCommitData (env : CommitEnv) (r : STsdbRepo) : STsdbRepo :=
  if env.itersNull then { r with commitThread := false }
  else
    match r.imem with
    | none => { r with commit := 0, commitThread := false }
    | some im =>
      { r with pPool := r.pPool ++ im.bufBlockList, imem := none, commit := 0,
               commitThread := false }

/-! ## The slab allocator -/

/-- Lines 147-158: the tail block of the active generation (`listTail(pRepo->mem)` is read
as the tail of the block list of `mem`). -/
def tsdbGetCurrBufBlock (r : STsdbRepo) : Option STsdbBufBlock :=
  match r.mem with
  | none => none
  | some m => m.bufBlockList.getLast?

/-- The events of one `tsdbAllocBytes` call, in the order of the statements:
the condition of line 166 held; `pthread_join` returned 0; the assignments of lines 180-182
ran, with the values that `imem != NULL` and `commit` had at line 176; `pthread_create`
returned 0; a block left the pool; a new generation was installed (line 212).  The events of
`tsdbInsertRowToMem` follow those of its allocation: the index found in the slot was destroyed
(lines 65-66); a new index was stored in the slot (line 77); `tSkipListPut` returned `NULL`
(line 83); the node was linked and the statistics were updated (lines 85-96). -/
inductive Ev where
  | needCommit
  | join
  | swap (hadImem : Bool) (commit : Int)
  | spawn
  | acquire (blockId : Nat)
  | newMem
  | dropIndex
  | newIndex
  | putNull
  | link
  deriving DecidableEq

/-- The result of `tsdbAllocBytes`: a region (block and offset in it), `NULL`, or no result
because the caller waits for a free block. -/
inductive AllocRet where
  | ptr (blockId : Nat) (offset : Int)
  | null
  | waiting
  deriving DecidableEq

/-- A finished `tsdbAllocBytes` call. -/
structure AllocOut where
  ret : AllocRet
  repo : STsdbRepo
  trace : List Ev
  deriving DecidableEq

/-- A stage of `tsdbAllocBytes` either returns or falls through to the next statement. -/
inductive Flow where
  | ret (o : AllocOut)
  | next (r : STsdbRepo) (t : List Ev)
  deriving DecidableEq

/-- Lines 167-192, the branch taken at line 166 (need to commit mem). -/
def tsdbAllocBytes_commitMem (r : STsdbRepo) (env : AllocEnv) : Flow :=
  let t0 := [Ev.needCommit]
  if r.imem.isSome ∧ env.joinCode ≠ 0 then .ret ⟨.null, r, t0⟩
  else
    let r1 := if r.imem.isSome ∧ r.commitThread then tsdbCommitData env.task r else r
    let t1 := if r.imem.isSome then t0 ++ [Ev.join] else t0
    let pImem := r1.imem
    if env.lockSwap then .ret ⟨.null, r1, t1⟩
    else
      let r2 := { r1 with imem := r1.mem, mem := none, commit := 1 }
      let t2 := t1 ++ [Ev.swap pImem.isSome r1.commit]
      if env.createCode ≠ 0 then .ret ⟨.null, r2, t2⟩
      else
        let r3 := { r2 with commitThread := true }
        let t3 := t2 ++ [Ev.spawn]
        if env.unlockSwap then .ret ⟨.null, r3, t3⟩
        else
          match pImem with
          | none => .next r3 t3
          | some old =>
            let u := tsdbUnRefMemTable env.unref r3.pPool old
            let r4 := { r3 with pPool := u.pPool }
            if u.ret < 0 then .ret ⟨.null, r4, t3⟩ else .next r4 t3

/-- Lines 194-197, the other branch of line 166: one more block for the active generation. -/
def tsdbAllocBytes_addBlock (r : STsdbRepo) (m : SMemTable) (env : AllocEnv) : Flow :=
  if env.lockAcquire then .ret ⟨.null, r, []⟩
  else
    match tsdbAllocBufBlockFromPool r.pPool with
    | none => .ret ⟨.waiting, r, []⟩
    | some (b, rest) =>
      let r1 := { r with pPool := rest,
                         mem := some { m with bufBlockList := m.bufBlockList ++ [b] } }
      if env.unlockAcquire then .ret ⟨.null, r1, [Ev.acquire b.blockId]⟩
      else .next r1 [Ev.acquire b.blockId]

/-- Lines 165-199.  `listNEles(pRepo->mem)` is read as the number of blocks of the active
generation; the division of line 166 is the truncating division of C. -/
def tsdbAllocBytes_ensure (r : STsdbRepo) (bytes : Int) (env : AllocEnv) : Flow :=
  match r.mem, tsdbGetCurrBufBlock r with
  | some m, some pBufBlock =>
    if pBufBlock.remain < bytes then
      if Int.tdiv r.config.totalBlocks 2 ≤ (m.bufBlockList.length : Int) then
        tsdbAllocBytes_commitMem r env
      else tsdbAllocBytes_addBlock r m env
    else .next r []
  | _, _ => .next r []

/-- Lines 201-215: with no active generation, create one around a block of the pool. -/
def tsdbAllocBytes_newMem (r : STsdbRepo) (t : List Ev) (env : AllocEnv) : Flow :=
  match r.mem with
  | some _ => .next r t
  | none =>
    match tsdbNewMemTable env.newMemTableNull r.config with
    | none => .ret ⟨.null, r, t⟩
    | some pMemTable =>
      if env.lockInstall then .ret ⟨.null, r, t⟩
      else
        match tsdbAllocBufBlockFromPool r.pPool with
        | none => .ret ⟨.waiting, r, t⟩
        | some (b, rest) =>
          let r1 := { r with pPool := rest,
                             mem := some { pMemTable with
                                           bufBlockList := pMemTable.bufBlockList ++ [b] } }
          let t1 := t ++ [Ev.acquire b.blockId, Ev.newMem]
          if env.unlockInstall then .ret ⟨.null, r1, t1⟩ else .next r1 t1

/-- Lines 217-223: carve `bytes` out of the tail block.  With no tail block the source
dereferences `NULL`; every generation is installed with a block, and the embedding answers
`NULL` there. -/
def tsdbAllocBytes_bump (r : STsdbRepo) (bytes : Int) (t : List Ev) : AllocOut :=
  match r.mem with
  | none => ⟨.null, r, t⟩
  | some m =>
    match m.bufBlockList.getLast? with
    | none => ⟨.null, r, t⟩
    | some b =>
      let b1 := { b with offset := b.offset + bytes, remain := b.remain - bytes }
      ⟨.ptr b.blockId b.offset,
       { r with mem := some { m with bufBlockList := m.bufBlockList.dropLast ++ [b1] } }, t⟩

/-- Lines 160-224. -/
def tsdbAllocBytes (r : STsdbRepo) (bytes : Int) (env : AllocEnv) : AllocOut :=
  match tsdbAllocBytes_ensure r bytes env with
  | .ret o => o
  | .next r1 t1 =>
    match tsdbAllocBytes_newMem r1 t1 env with
    | .ret o => o
    | .next r2 t2 => tsdbAllocBytes_bump r2 bytes t2

/-- Lines 226-232: give the last `bytes` of the tail block back. -/
def tsdbFreeBytes (r : STsdbRepo) (bytes : Int) : STsdbRepo :=
  match r.mem with
  | none => r
  | some m =>
    match m.bufBlockList.getLast? with
    | none => r
    | some b =>
      let b1 := { b with offset := b.offset - bytes, remain := b.remain + bytes }
      { r with mem := some { m with bufBlockList := m.bufBlockList.dropLast ++ [b1] } }

/-! ## Row insertion -/

/-- The result of `tsdbInsertRowToMem`: its return code, or no result because the
allocation waits for a free block. -/
inductive InsertRet where
  | code (c : Int)
  | waiting
  deriving DecidableEq

/-- A finished `tsdbInsertRowToMem` call. -/
structure InsertOut where
  ret : InsertRet
  repo : STsdbRepo
  trace : List Ev
  deriving DecidableEq

/-- Lines 82-102: put the node into the index `pTableData` of slot `TABLE_TID(pTable)` of
`pMemTable` and update the statistics of the generation and of the index.  `pTableData` points
into the table array, so the updated index is written back to its slot.  Line 95 assigns the
bare name `schemaNCols`; it is read as `schemaNCols(pSchema)`, like line 96. -/
def tsdbInsertRowToMem_put (r : STsdbRepo) (pMemTable : SMemTable) (pTableData : STableData)
    (row : SDataRow) (pTable : STable) (bytes : Int) (putNull : Bool) (t : List Ev) :
    InsertOut :=
  let key := row.key
  match tSkipListPut putNull pTableData.pData row with
  | none => ⟨.code 0, tsdbFreeBytes { r with mem := some pMemTable } bytes, t ++ [Ev.putNull]⟩
  | some pData =>
    let td : STableData :=
      { pTableData with
        pData := pData
        keyFirst := if pTableData.keyFirst > key then key else pTableData.keyFirst
        keyLast := if pTableData.keyLast < key then key else pTableData.keyLast
        numOfRows := pTableData.numOfRows + 1 }
    let m : SMemTable :=
      { pMemTable with
        keyFirst := if pMemTable.keyFirst > key then key else pMemTable.keyFirst
        keyLast := if pMemTable.keyLast < key then key else pMemTable.keyLast
        numOfRows := pMemTable.numOfRows + 1
        maxCols := if pTable.schemaNCols > pMemTable.maxCols then pTable.schemaNCols
                   else pMemTable.maxCols
        maxRowBytes := if pTable.schemaTLen > pMemTable.maxRowBytes then pTable.schemaTLen
                       else pMemTable.maxRowBytes
        tData := pMemTable.tData.set pTable.tid (some td) }
    ⟨.code 0, { r with mem := some m }, t ++ [Ev.link]⟩

/-- Lines 60-102, behind a successful allocation: `pMemTable` is the active generation as
re-read at line 60. -/
def tsdbInsertRowToMem_link (r : STsdbRepo) (pMemTable : SMemTable) (row : SDataRow)
    (pTable : STable) (bytes : Int) (env : InsertEnv) (t : List Ev) : InsertOut :=
  match pMemTable.tData.getD pTable.tid none with
  | some pTableData =>
    if pTableData.uid ≠ pTable.uid then
      -- lines 64-67: the index of a dropped table is destroyed
      let m1 := { pMemTable with tData := pMemTable.tData.set pTable.tid none }
      match tsdbNewTableData env.newTableDataNull pTable with
      | none => ⟨.code (-1), tsdbFreeBytes { r with mem := some m1 } bytes, t ++ [Ev.dropIndex]⟩
      | some td =>
        let m2 := { m1 with tData := m1.tData.set pTable.tid (some td) }
        tsdbInsertRowToMem_put r m2 td row pTable bytes env.putNull
          (t ++ [Ev.dropIndex, Ev.newIndex])
    else tsdbInsertRowToMem_put r pMemTable pTableData row pTable bytes env.putNull t
  | none =>
    match tsdbNewTableData env.newTableDataNull pTable with
    | none => ⟨.code (-1), tsdbFreeBytes { r with mem := some pMemTable } bytes, t⟩
    | some td =>
      let m2 := { pMemTable with tData := pMemTable.tData.set pTable.tid (some td) }
      tsdbInsertRowToMem_put r m2 td row pTable bytes env.putNull (t ++ [Ev.newIndex])

/-- Lines 32-103.  The index looked up at lines 41-44 only feeds `tSkipListNewNodeInfo`,
whose answer is `env.level` and `env.headSize`.  With `mem` absent behind a successful
allocation the source dereferences `NULL` (line 61); `tsdbAllocBytes` never leaves that, and
the embedding answers -1 there. -/
def tsdbInsertRowToMem (r : STsdbRepo) (row : SDataRow) (pTable : STable) (env : InsertEnv) :
    InsertOut :=
  let bytes := env.headSize + row.len
  let a := tsdbAllocBytes r bytes env.alloc
  match a.ret with
  | .waiting => ⟨.waiting, a.repo, a.trace⟩
  | .null => ⟨.code (-1), a.repo, a.trace⟩
  | .ptr _ _ =>
    match a.repo.mem with
    | none => ⟨.code (-1), a.repo, a.trace⟩
    | some pMemTable => tsdbInsertRowToMem_link a.repo pMemTable row pTable bytes env a.trace

/-! ## Reachable repository states -/

/-- A repository before its first write: no generation, no commit, all blocks in the pool. -/
def emptyRepo (cfg : STsdbCfg) (pool : List STsdbBufBlock) : STsdbRepo :=
  { config := cfg, pPool := pool, mem := none, imem := none, commit := 0, commitThread := false }

/-- The states a repository goes through: it starts empty; a writer calls
`tsdbInsertRowToMem` with a row whose key is a `TSKEY` and a table whose slot is below
`maxTables`; a running commit task comes to its end. -/
inductive Reachable (cfg : STsdbCfg) (pool : List STsdbBufBlock) : STsdbRepo → Prop where
  | init : Reachable cfg pool (emptyRepo cfg pool)
  | insert (r : STsdbRepo) (row : SDataRow) (pTable : STable) (env : InsertEnv) :
      Reachable cfg pool r → isInt64 row.key → pTable.tid < cfg.maxTables →
      Reachable cfg pool (tsdbInsertRowToMem r row pTable env).repo
  | commitDone (r : STsdbRepo) (env : CommitEnv) :
      Reachable cfg pool r → r.commitThread = true →
      Reachable cfg pool (tsdbCommitData env r)


/-! ## Notions used by the theorems -/

/-- The repository a stage leaves. -/
def Flow.repo : Flow → STsdbRepo
  | .ret o => o.repo
  | .next r _ => r

/-- The events a stage went through. -/
def Flow.trace : Flow → List Ev
  | .ret o => o.trace
  | .next _ t => t

/-- The event of the assignments of lines 180-182. -/
def Ev.isSwap : Ev → Bool
  | .swap _ _ => true
  | _ => false

/-- The call ran the assignments of lines 180-182. -/
def swapped (t : List Ev) : Bool := t.any Ev.isSwap

/-- The generation `tsdbNewMemTable` returns when no allocation fails. -/
def freshMem (cfg : STsdbCfg) : SMemTable :=
  { ref := 1, keyFirst := INT64_MAX, keyLast := 0, numOfRows := 0, maxCols := 0,
    maxRowBytes := 0, tData := List.replicate cfg.maxTables none, bufBlockList := [] }

/-- The second generation is the first one with another block list, or both are absent. -/
def BlocksOnly (a b : Option SMemTable) : Prop :=
  (a = none ∧ b = none) ∨ ∃ m bl, a = some m ∧ b = some { m with bufBlockList := bl }

/-- The generation `b` is absent, or `a` with another block list, or a new generation of
`tsdbNewMemTable` holding some blocks. -/
def MemKeep (cfg : STsdbCfg) (a b : Option SMemTable) : Prop :=
  b = none ∨ (∃ m bl, a = some m ∧ b = some { m with bufBlockList := bl }) ∨
    ∃ bl, b = some { freshMem cfg with bufBlockList := bl }

/-- The key range of every index of the generation lies within the key range of the
generation, whose `keyLast` is not negative and whose `keyFirst` is a `TSKEY`. -/
def KeyRangeInv (m : SMemTable) : Prop :=
  0 ≤ m.keyLast ∧ m.keyFirst ≤ INT64_MAX ∧
    ∀ td, some td ∈ m.tData → m.keyFirst ≤ td.keyFirst ∧ td.keyLast ≤ m.keyLast

/-- The row count of every index of the generation is the element count of its skip list
(the assertion of line 93). -/
def RowCountInv (m : SMemTable) : Prop :=
  ∀ td, some td ∈ m.tData → td.numOfRows = tSkipListGetSize td.pData

/-- The row count of the index in a slot, 0 for an empty slot. -/
def slotRows : Option STableData → Int
  | none => 0
  | some td => td.numOfRows

/-- The sum of the row counts of the indexes of a generation. -/
def tableRowsSum (m : SMemTable) : Int := (m.tData.map slotRows).sum

/-- The row count of the index of `pTable` in a generation: 0 when its slot is empty or
holds the index of another table. -/
def indexRows (m : SMemTable) (pTable : STable) : Int :=
  match m.tData.getD pTable.tid none with
  | none => 0
  | some td => if td.uid = pTable.uid then td.numOfRows else 0

/-- The row count of the index of `pTable` in the active generation, 0 without one. -/
def tableNumOfRows (r : STsdbRepo) (pTable : STable) : Int :=
  match r.mem with
  | none => 0
  | some m => indexRows m pTable

/-- The events of `tsdbAllocBytes`. -/
def Ev.isAlloc : Ev → Bool
  | .dropIndex | .newIndex | .putNull | .link => false
  | _ => true

/-- Consecutive `tsdbInsertRowToMem` calls for one table: the repository behind the last call
and the results in call order. -/
def insertRows (pTable : STable) :
    STsdbRepo → List (SDataRow × InsertEnv) → STsdbRepo × List InsertOut
  | r, [] => (r, [])
  | r, (row, env) :: rest =>
    let o := tsdbInsertRowToMem r row pTable env
    let res := insertRows pTable o.repo rest
    (res.1, o :: res.2)

/-- The block ids of the three places a block can be in: the free list of the pool, the
active generation, the immutable generation. -/
def ownedBlockIds (r : STsdbRepo) : List Nat :=
  r.pPool.map STsdbBufBlock.blockId ++
    (match r.mem with
      | none => []
      | some m => m.bufBlockList.map STsdbBufBlock.blockId) ++
    (match r.imem with
      | none => []
      | some m => m.bufBlockList.map STsdbBufBlock.blockId)

/-! ### Concrete repositories -/

/-- Four table slots and a budget of two blocks. -/
def cfgHalf : STsdbCfg := { maxTables := 4, totalBlocks := 2 }

/-- Three free blocks of 100 bytes. -/
def pool3 : List STsdbBufBlock := [⟨0, 0, 100⟩, ⟨1, 0, 100⟩, ⟨2, 0, 100⟩]

/-- A table in slot 0. -/
def tableT : STable := { tid := 0, uid := 1, schemaNCols := 2, schemaTLen := 16 }

/-- The table created in slot 0 after `tableT` was dropped. -/
def tableT2 : STable := { tid := 0, uid := 2, schemaNCols := 2, schemaTLen := 16 }

/-- A row of 16 bytes with timestamp `k`. -/
def rowAt (k : Int) : SDataRow := { key := k, len := 16, payload := 0 }

/-- A row of 52 bytes with timestamp `k`; with its node header of 8 bytes it takes 60 bytes,
so a block of 100 bytes holds one such row. -/
def bigRowAt (k : Int) : SDataRow := { key := k, len := 52, payload := 0 }

/-- One row for `tableT`, then one row for `tableT2`, which finds the index of `tableT` in
its slot. -/
def staleSlotRun : STsdbRepo :=
  (tsdbInsertRowToMem
    (tsdbInsertRowToMem (emptyRepo cfgHalf pool3) (rowAt 3) tableT (InsertEnv.ok 8)).repo
    (rowAt 1) tableT2 (InsertEnv.ok 8)).repo

/-- The index of `tableT2` that `staleSlotRun` leaves in slot 0. -/
def staleSlotIndex : STableData :=
  { uid := 2, keyFirst := 1, keyLast := 1, numOfRows := 1, pData := [rowAt 1] }

/-- The active generation of `staleSlotRun`. -/
def staleSlotGen : SMemTable :=
  { ref := 1, keyFirst := 1, keyLast := 3, numOfRows := 2, maxCols := 2, maxRowBytes := 16,
    tData := [some staleSlotIndex, none, none, none], bufBlockList := [⟨0, 48, 52⟩] }

/-- The rows with timestamps 3, 1, 4, 1, 5, each put without failure, with node headers of 4
bytes: the five nodes take the 100 bytes of one block. -/
def fiveRows : List (SDataRow × InsertEnv) :=
  [(rowAt 3, InsertEnv.ok 4), (rowAt 1, InsertEnv.ok 4), (rowAt 4, InsertEnv.ok 4),
   (rowAt 1, InsertEnv.ok 4), (rowAt 5, InsertEnv.ok 4)]

/-- Two calls with the same timestamp, the put of the second rejected. -/
def rejectedPutCalls : List (SDataRow × InsertEnv) :=
  [(rowAt 1, InsertEnv.ok 4), (rowAt 1, { InsertEnv.ok 4 with putNull := true })]

/-- One row with timestamp -5 put into an empty repository. -/
def negativeKeyOut : InsertOut :=
  tsdbInsertRowToMem (emptyRepo cfgHalf pool3) (rowAt (-5)) tableT (InsertEnv.ok 8)

/-- One big row in an empty repository: the active generation holds block 0, of which 40
bytes remain. -/
def oneBlockRun : STsdbRepo :=
  (tsdbInsertRowToMem (emptyRepo cfgHalf pool3) (bigRowAt 1) tableT (InsertEnv.ok 8)).repo

/-- The second big row does not fit; the active generation holds one block, which is half of
the budget of two: the call swaps, spawns the commit task and puts the row into a new
generation around block 1. -/
def swapOut : InsertOut := tsdbInsertRowToMem oneBlockRun (bigRowAt 2) tableT (InsertEnv.ok 8)

/-- A commit task that leaves at line 345: `tsdbCreateTableIters` returned `NULL`. -/
def itersNullEnv : CommitEnv := { CommitEnv.ok with itersNull := true }

/-- The repository of `swapOut` after its commit task has ended at line 345. -/
def failedCommitRun : STsdbRepo := tsdbCommitData itersNullEnv swapOut.repo

/-- The third big row, behind the commit task that ended at line 345. -/
def secondSwapOut : InsertOut :=
  tsdbInsertRowToMem failedCommitRun (bigRowAt 3) tableT (InsertEnv.ok 8)

/-- A call in which `pthread_create` fails with `EAGAIN` (11). -/
def spawnFailsEnv : InsertEnv :=
  { InsertEnv.ok 8 with alloc := { AllocEnv.ok with createCode := 11 } }

/-- The third big row, behind the commit task that ended at line 345, in a call whose
`pthread_create` fails. -/
def lostBlockOut : InsertOut :=
  tsdbInsertRowToMem failedCommitRun (bigRowAt 3) tableT spawnFailsEnv

/-- The active generation of `oneBlockRun`. -/
def oneBlockGen : SMemTable :=
  { ref := 1, keyFirst := 1, keyLast := 1, numOfRows := 1, maxCols := 2, maxRowBytes := 16,
    tData := [some ⟨1, 1, 1, 1, [bigRowAt 1]⟩, none, none, none],
    bufBlockList := [⟨0, 60, 40⟩] }

/-- A call in which `tsdbNewMemTable` returns `NULL`. -/
def newMemFailsEnv : AllocEnv := { AllocEnv.ok with newMemTableNull := true }

/-- A call in which `tsdbUnlockRepo` fails at line 214. -/
def unlockInstallFailsEnv : AllocEnv := { AllocEnv.ok with unlockInstall := true }

/-- Four table slots and an odd budget of three blocks. -/
def cfgOdd : STsdbCfg := { maxTables := 4, totalBlocks := 3 }

/-- One big row in an empty repository with a budget of three blocks: the active generation
holds one block, of which 40 bytes remain. -/
def oddBudgetRun : STsdbRepo :=
  (tsdbInsertRowToMem (emptyRepo cfgOdd pool3) (bigRowAt 1) tableT (InsertEnv.ok 8)).repo

/-- Four table slots and a budget of four blocks. -/
def cfgFour : STsdbCfg := { maxTables := 4, totalBlocks := 4 }

/-- Four free blocks of 100 bytes. -/
def pool4 : List STsdbBufBlock := [⟨0, 0, 100⟩, ⟨1, 0, 100⟩, ⟨2, 0, 100⟩, ⟨3, 0, 100⟩]

/-- Two big rows in an empty repository with a budget of four blocks: the active generation
holds two blocks, half of the budget, and 40 bytes remain in its tail block. -/
def twoBlocksRun : STsdbRepo :=
  (tsdbInsertRowToMem
    (tsdbInsertRowToMem (emptyRepo cfgFour pool4) (bigRowAt 1) tableT (InsertEnv.ok 8)).repo
    (bigRowAt 2) tableT (InsertEnv.ok 8)).repo

/-- The active generation of `twoBlocksRun`. -/
def twoBlocksGen : SMemTable :=
  { ref := 1, keyFirst := 1, keyLast := 2, numOfRows := 2, maxCols := 2, maxRowBytes := 16,
    tData := [some ⟨1, 1, 2, 2, [bigRowAt 1, bigRowAt 2]⟩, none, none, none],
    bufBlockList := [⟨0, 60, 40⟩, ⟨1, 60, 40⟩] }

/-- The `keyFirst` of the active generation; without one, the value a new generation starts
with. -/
def genKeyFirst (r : STsdbRepo) : Int :=
  match r.mem with
  | none => INT64_MAX
  | some m => m.keyFirst

/-- The `keyLast` of the active generation; without one, the value a new generation starts
with. -/
def genKeyLast (r : STsdbRepo) : Int :=
  match r.mem with
  | none => 0
  | some m => m.keyLast

/-- The timestamps of the rows that consecutive calls for one table linked, in call order. -/
def linkedKeys (pTable : STable) : STsdbRepo → List (SDataRow × InsertEnv) → List Int
  | _, [] => []
  | r, (row, env) :: rest =>
    let o := tsdbInsertRowToMem r row pTable env
    if Ev.link ∈ o.trace then row.key :: linkedKeys pTable o.repo rest
    else linkedKeys pTable o.repo rest

/-- The repository between two commits or during one: no immutable generation, the flag 0
and no task running, or an immutable generation, the flag 1 and its task running. -/
def CommitState (r : STsdbRepo) : Prop :=
  (r.imem = none ∧ r.commit = 0 ∧ r.commitThread = false) ∨
  (r.imem.isSome = true ∧ r.commit = 1 ∧ r.commitThread = true)

/-- The outcomes of a call behind which the swap loses nothing: `pthread_create` succeeds,
and a commit task that the call joins has not left at line 345. -/
def AllocEnv.swapClean (env : AllocEnv) : Prop :=
  env.createCode = 0 ∧ env.task.itersNull = false

/-- The states of a repository whose swaps are clean (`AllocEnv.swapClean`) and whose commit
tasks all reach the statements behind `_exit`. -/
inductive ReachableClean (cfg : STsdbCfg) (pool : List STsdbBufBlock) : STsdbRepo → Prop where
  | init : ReachableClean cfg pool (emptyRepo cfg pool)
  | insert (r : STsdbRepo) (row : SDataRow) (pTable : STable) (env : InsertEnv) :
      ReachableClean cfg pool r → env.alloc.swapClean →
      ReachableClean cfg pool (tsdbInsertRowToMem r row pTable env).repo
  | commitDone (r : STsdbRepo) (env : CommitEnv) :
      ReachableClean cfg pool r → r.commitThread = true → env.itersNull = false →
      ReachableClean cfg pool (tsdbCommitData env r)

/-! ## The release of a generation and the bump allocator: notions and runs -/

/-- A call in which `tsdbLockRepo` fails at line 120. -/
def lockFailsEnv : UnRefEnv := { UnRefEnv.ok with lockFails := true }

/-- Two free blocks that no generation holds. -/
def pool23 : List STsdbBufBlock := [⟨2, 0, 100⟩, ⟨3, 0, 100⟩]

/-- The last reference to `twoBlocksGen` is dropped, every call succeeding. -/
def tornDownOut : UnRefOut := tsdbUnRefMemTable UnRefEnv.ok pool23 twoBlocksGen

/-- The last reference to `twoBlocksGen` is dropped in a call whose `tsdbLockRepo` fails. -/
def lockFailsOut : UnRefOut := tsdbUnRefMemTable lockFailsEnv pool23 twoBlocksGen

/-- What a pointer to a generation finds: the object, or memory that `tsdbFreeMemTable` has
released (line 141, `free` at line 280). -/
inductive MemRef where
  | live (g : SMemTable)
  | released
  deriving DecidableEq

/-- What the pointer of the caller finds behind a call of `tsdbUnRefMemTable`. -/
def UnRefOut.ref (o : UnRefOut) : MemRef := if o.freed then .released else .live o.mem

/-- A call `tsdbUnRefMemTable(pRepo, pMemTable)` through the pointer.  Line 115 reads and
writes the counter of the object; on released memory this access has no defined outcome
(`none`). -/
def tsdbUnRefMemTable_at (env : UnRefEnv) (pool : List STsdbBufBlock) (pMemTable : MemRef) :
    Option UnRefOut :=
  match pMemTable with
  | .released => none
  | .live g => some (tsdbUnRefMemTable env pool g)

/-- Lines 165-215 of `tsdbAllocBytes`: the steps in front of line 217.  A call that goes on
is at line 217 with the repository and the events of `.next`. -/
def tsdbAllocBytes_space (r : STsdbRepo) (bytes : Int) (env : AllocEnv) : Flow :=
  match tsdbAllocBytes_ensure r bytes env with
  | .ret o => .ret o
  | .next r1 t1 => tsdbAllocBytes_newMem r1 t1 env

/-- The assertion of line 218, `pBufBlock->remain >= bytes`, in the repository that reaches
line 217. -/
def tsdbAllocBytes_assert (r : STsdbRepo) (bytes : Int) : Prop :=
  match tsdbGetCurrBufBlock r with
  | none => False
  | some pBufBlock => pBufBlock.remain ≥ bytes

instance (r : STsdbRepo) (bytes : Int) : Decidable (tsdbAllocBytes_assert r bytes) := by
  unfold tsdbAllocBytes_assert
  split <;> infer_instance

/-- The assertion of line 231, `ptr == POINTER_SHIFT(pBufBlock->data, pBufBlock->offset)`, in
the repository that `tsdbFreeBytes` leaves: the region handed back starts where the tail
block now ends. -/
def tsdbFreeBytes_assert (r : STsdbRepo) (ptr : AllocRet) : Prop :=
  match tsdbGetCurrBufBlock r with
  | none => False
  | some pBufBlock => ptr = .ptr pBufBlock.blockId pBufBlock.offset

instance (r : STsdbRepo) (ptr : AllocRet) : Decidable (tsdbFreeBytes_assert r ptr) := by
  unfold tsdbFreeBytes_assert
  split <;> infer_instance

/-- The sum `offset + remain` of the tail block of the active generation. -/
def tailCapacity (r : STsdbRepo) : Option Int :=
  (tsdbGetCurrBufBlock r).map (fun b => b.offset + b.remain)

/-- Every block of the repository, in the pool and in the two generations, has a byte region
of `S` bytes. -/
def BlockSizeInv (S : Int) (r : STsdbRepo) : Prop :=
  (∀ b ∈ r.pPool, blockSize b = S) ∧
  (∀ m, r.mem = some m → ∀ b ∈ m.bufBlockList, blockSize b = S) ∧
  (∀ m, r.imem = some m → ∀ b ∈ m.bufBlockList, blockSize b = S)

/-- The repository of `swapOut` after its commit task has ended, a third big row, which swaps
again and takes block 2, and the end of the second commit task: the pool holds the recycled
blocks 0 and 1, each with 60 bytes carved out. -/
def recycleRun : STsdbRepo :=
  tsdbCommitData CommitEnv.ok
    (tsdbInsertRowToMem (tsdbCommitData CommitEnv.ok swapOut.repo) (bigRowAt 3) tableT
      (InsertEnv.ok 8)).repo

/-- A request of 200 bytes in an empty repository whose blocks have 100 bytes, every call
succeeding. -/
def oversizeOut : AllocOut := tsdbAllocBytes (emptyRepo cfgHalf pool3) 200 AllocEnv.ok

/-- A request of 30 bytes in `twoBlocksRun`, whose tail block has 40 bytes left. -/
def fitsTailOut : AllocOut := tsdbAllocBytes twoBlocksRun 30 AllocEnv.ok

/-- The repository in which the request of `oversizeOut` reaches line 217: a new generation
around block 0, which has 100 bytes. -/
def oversizeSpace : STsdbRepo :=
  { emptyRepo cfgHalf pool3 with
    pPool := [⟨1, 0, 100⟩, ⟨2, 0, 100⟩]
    mem := some { freshMem cfgHalf with bufBlockList := [⟨0, 0, 100⟩] } }

/-! ## The commit task: iterators, batches and files -/

/-- The catalog (`STsdbMeta`): the table array `tables`, one entry for each slot. -/
structure STsdbMeta where
  tables : List (Option STable)
  deriving DecidableEq

/-- An iterator over the rows of an index.  `rest` holds the row the iterator stands on and
the rows behind it; a new iterator is not `started`: it stands in front of the first row. -/
structure SSkipListIterator where
  started : Bool
  rest : List SDataRow
  deriving DecidableEq

/-- Modelled from the spec: `tSkipListCreateIter` is defined outside the sources at hand.
§4.4: `iterate()` gives the rows of the index as a forward-only sequence in ascending key
order.  The new iterator stands in front of the first row (lines 508-511 step it once and
take it as an error when that step finds no row); `fails` is the allocation failing. -/
def tSkipListCreateIter (fails : Bool) (l : List SDataRow) : Option SSkipListIterator :=
  if fails then none else some ⟨false, l⟩

/-- Modelled from the spec: `tSkipListIterNext` is defined outside the sources at hand.
§4.4: the iterator is forward-only.  One step forward: onto the first row for a new
iterator, onto the next row otherwise; the answer tells whether the iterator then stands on a
row. -/
def tSkipListIterNext (it : SSkipListIterator) : Bool × SSkipListIterator :=
  if it.started then (decide (it.rest.tail ≠ []), ⟨true, it.rest.tail⟩)
  else (decide (it.rest ≠ []), ⟨true, it.rest⟩)

/-- Modelled from the spec: `tSkipListIterGet` is defined outside the sources at hand.  The row
the iterator stands on, `NULL` in front of the first row and behind the last one. -/
def tSkipListIterGet (it : SSkipListIterator) : Option SDataRow :=
  if it.started then it.rest.head? else none

/-- Outcomes inside `tsdbCreateTableIters`: the `calloc` of line 498 and, for each slot,
`tSkipListCreateIter` (line 508). -/
structure ItersEnv where
  callocNull : Bool
  createIterNull : Nat → Bool

/-- Every allocation of `tsdbCreateTableIters` succeeds. -/
def ItersEnv.ok : ItersEnv := ⟨false, fun _ => false⟩

/-- The loop of lines 504-512 over the slots `tids`.  `pTable->imem` is read as the index of
the slot in the immutable generation `imem`, as the insertion path stores it
(`pMemTable->tData[TABLE_TID(pTable)]`, line 62). -/
def tsdbCreateTableIters_loop (env : ItersEnv) (pMeta : STsdbMeta) (imem : SMemTable) :
    List Nat → List (Option SSkipListIterator) → Option (List (Option SSkipListIterator))
  | [], iters => some iters
  | tid :: tids, iters =>
    match pMeta.tables.getD tid none, imem.tData.getD tid none with
    | some _, some pImem =>
      if pImem.numOfRows = 0 then tsdbCreateTableIters_loop env pMeta imem tids iters
      else
        match tSkipListCreateIter (env.createIterNull tid) pImem.pData with
        | none => none
        | some it =>
          if (tSkipListIterNext it).1 then
            tsdbCreateTableIters_loop env pMeta imem tids
              (iters.set tid (some (tSkipListIterNext it).2))
          else none
    | _, _ => tsdbCreateTableIters_loop env pMeta imem tids iters

/-- Lines 495-519: an array of `maxTables` iterators, all `NULL` at first (`calloc`), filled
for the slots 1 to `maxTables - 1`; `NULL` when an allocation fails or a first step finds no
row. -/
def tsdbCreateTableIters (env : ItersEnv) (pCfg : STsdbCfg) (pMeta : STsdbMeta)
    (imem : SMemTable) : Option (List (Option SSkipListIterator)) :=
  if env.callocNull then none
  else
    tsdbCreateTableIters_loop env pMeta imem (List.range' 1 (pCfg.maxTables - 1))
      (List.replicate pCfg.maxTables none)

/-- The result of `tsdbReadRowsFromCache`: the row count it returns, the iterator and the
batch (`pCols`) as it leaves them. -/
structure ReadOut where
  numOfRows : Int
  pIter : Option SSkipListIterator
  pCols : List SDataRow
  deriving DecidableEq

/-- The loop of lines 539-558 for an iterator that stands on the first row of its argument
(`tSkipListIterGet` gives that row, and `NULL` when there is none; `tSkipListIterNext` moves
to the rows behind it and answers whether there is one).  `tdAppendDataRowToDataCol` puts the
row at the end of the batch.  The schema lookup of lines 548-554 is taken to succeed. -/
def tsdbReadRowsFromCache_loop (maxKey : Int) (maxRowsToRead : Int) :
    List SDataRow → Int → List SDataRow → ReadOut
  | [], numOfRows, pCols => ⟨numOfRows, some ⟨true, []⟩, pCols⟩
  | row :: rest, numOfRows, pCols =>
    if numOfRows ≥ maxRowsToRead then ⟨numOfRows, some ⟨true, row :: rest⟩, pCols⟩
    else if row.key > maxKey then ⟨numOfRows, some ⟨true, row :: rest⟩, pCols⟩
    else
      match rest with
      | [] => ⟨numOfRows + 1, some ⟨true, []⟩, pCols ++ [row]⟩
      | _ :: _ => tsdbReadRowsFromCache_loop maxKey maxRowsToRead rest (numOfRows + 1)
                    (pCols ++ [row])

/-- Lines 532-561.  An iterator that was not stepped yet stands on no row: the first
`tSkipListIterGet` is `NULL` and the call returns 0. -/
def tsdbReadRowsFromCache (pIter : Option SSkipListIterator) (maxKey : Int)
    (maxRowsToRead : Int) (pCols : List SDataRow) : ReadOut :=
  match pIter with
  | none => ⟨0, none, pCols⟩
  | some it =>
    if it.started then tsdbReadRowsFromCache_loop maxKey maxRowsToRead it.rest 0 pCols
    else ⟨0, some it, pCols⟩

/-- Modelled from the spec: the table `tsMsPerDay` is defined outside the sources at hand.
The length of a day in units of the time precision (§4.5 step 2). -/
def tsMsPerDay (precision : Nat) : Int := 86400000 * 1000 ^ precision

/-- Modelled from the spec: `tsdbGetKeyFileId` is defined outside the sources at hand.  §4.5
step 2: `fileId = floor(timestamp / (daysPerFile * dayLengthInPrecisionUnits))`. -/
def tsdbGetKeyFileId (key : Int) (daysPerFile : Int) (precision : Nat) : Int :=
  Int.fdiv key (daysPerFile * tsMsPerDay precision)

/-- Modelled from the spec: `tsdbGetKeyRangeOfFileId` is defined outside the sources at hand.
The interval of a file id (§4.5 step 3a) holds the timestamps with that file id: `minKey` and
`maxKey`, both inclusive. -/
def tsdbGetKeyRangeOfFileId (daysPerFile : Int) (precision : Nat) (fid : Int) : Int × Int :=
  (fid * (daysPerFile * tsMsPerDay precision),
   (fid + 1) * (daysPerFile * tsMsPerDay precision) - 1)

/-- Modelled from the spec: `tsdbHasDataToCommit` is defined outside the sources at hand.
§4.5 step 3a: whether the iterator of some table has a row whose key falls in the interval of
the file. -/
def tsdbHasDataToCommit (iters : List (Option SSkipListIterator)) (nIters : Nat)
    (minKey maxKey : Int) : Bool :=
  (iters.take nIters).any fun pIter =>
    match pIter with
    | none => false
    | some it => it.rest.any fun row => decide (minKey ≤ row.key ∧ row.key ≤ maxKey)

/-- Modelled from the spec: `tdPopDataColsPoints` is defined outside the sources at hand.
§4.5 step 3c appends each batch to the file group: the rows that were written leave the
batch, the rows behind them stay in their order. -/
def tdPopDataColsPoints (pCols : List SDataRow) (pointsToPop : Int) : List SDataRow :=
  pCols.drop pointsToPop.toNat

/-- Outcomes of the calls into the file layer, by file id, slot and, for
`tsdbWriteDataBlock`, the count `nLoop` of the drain loop and the batch: `tsdbCreateFGroup`
returns `NULL` (line 418), `tsdbSetAndOpenHelperFile` fails (line 424), the row count
`tsdbWriteDataBlock` returns (line 452), `tsdbMoveLastBlockIfNeccessary` fails (line 464),
`tsdbWriteCompInfo` fails (line 470), `tsdbWriteCompIdx` fails (line 476). -/
structure FileEnv where
  createFGroupNull : Int → Bool
  openHelperFails : Int → Bool
  writeDataBlock : Int → Nat → Nat → List SDataRow → Int
  moveLastFails : Int → Nat → Bool
  writeCompInfoFails : Int → Nat → Bool
  writeCompIdxFails : Int → Bool

/-- No call into the file layer fails, and every block write takes the whole batch. -/
def FileEnv.ok : FileEnv :=
  ⟨fun _ => false, fun _ => false, fun _ _ _ pCols => pCols.length, fun _ _ => false,
   fun _ _ => false, fun _ => false⟩

/-- What the commit task did, in order: the calls into the file layer with their results, and
the calls of `tsdbReadRowsFromCache` with the bound they were given and their result. -/
inductive CommitEv where
  | createFGroup (fid : Int) (created : Bool)
  | openHelperFile (fid : Int) (opened : Bool)
  | readRows (fid : Int) (tid : Nat) (maxRowsToRead : Int) (rowsRead : Int)
  | writeDataBlock (fid : Int) (tid : Nat) (pDataCols : List SDataRow) (rowsWritten : Int)
  | moveLastBlock (fid : Int) (tid : Nat) (moved : Bool)
  | writeCompInfo (fid : Int) (tid : Nat) (written : Bool)
  | writeCompIdx (fid : Int) (written : Bool)
  | closeHelperFile (fid : Int) (hasError : Bool)
  | fitRetention
  | notifyCommitOver
  deriving DecidableEq

/-- How a part of the commit task ended: it went on (`ok`), it took the error path (`err`),
or the model ran out of steps in the drain loop (`spin`). -/
inductive CommitRet where
  | ok
  | err
  | spin
  deriving DecidableEq

/-- The state behind the drain loop of one table. -/
structure DrainOut where
  ret : CommitRet
  pIter : Option SSkipListIterator
  pDataCols : List SDataRow
  log : List CommitEv

/-- The state at the head of the drain loop (line 443): the iterator of the table, the batch,
the bound for the next read, the count `nLoop`, and what the commit task did so far. -/
structure DrainState where
  pIter : Option SSkipListIterator
  pDataCols : List SDataRow
  maxRowsToRead : Int
  nLoop : Nat
  log : List CommitEv

/-- One round of the drain loop either leaves the loop or comes back to its head. -/
inductive Round where
  | exit (d : DrainOut)
  | next (s : DrainState)

/-- The number of rows in a batch, `maxRowsPerFileBlock * 4 / 5` as lines 441 and 458 compute
it: the product is a C `int`, the division is the truncating division of C. -/
def batchRows (pCfg : STsdbCfg) : Int :=
  Int.tdiv (toInt32 (pCfg.maxRowsPerFileBlock * 4)) 5

/-- Lines 444-458, one round of the loop for the table in slot `tid`: read rows into the
batch; leave with an empty batch (line 446); hand the batch to the block writer; leave on its
failure (line 454); drop the rows that were written and set the bound of the next read.  The
assertions are not evaluated. -/
def tsdbCommitToFile_round (env : FileEnv) (pCfg : STsdbCfg) (fid : Int) (tid : Nat)
    (maxKey : Int) (s : DrainState) : Round :=
  let rd := tsdbReadRowsFromCache s.pIter maxKey s.maxRowsToRead s.pDataCols
  let log1 := s.log ++ [CommitEv.readRows fid tid s.maxRowsToRead rd.numOfRows]
  if rd.pCols.length = 0 then .exit ⟨.ok, rd.pIter, rd.pCols, log1⟩
  else
    let rowsWritten := env.writeDataBlock fid tid (s.nLoop + 1) rd.pCols
    let log2 := log1 ++ [CommitEv.writeDataBlock fid tid rd.pCols rowsWritten]
    if rowsWritten < 0 then .exit ⟨.err, rd.pIter, rd.pCols, log2⟩
    else
      let pCols := tdPopDataColsPoints rd.pCols rowsWritten
      .next ⟨rd.pIter, pCols, batchRows pCfg - pCols.length, s.nLoop + 1, log2⟩

/-- The loop of lines 443-459 for the table in slot `tid`, for at most `fuel` rounds; `spin`
when the loop is still running behind them. -/
def tsdbCommitToFile_drain (env : FileEnv) (pCfg : STsdbCfg) (fid : Int) (tid : Nat)
    (maxKey : Int) : Nat → DrainState → DrainOut
  | 0, s => ⟨.spin, s.pIter, s.pDataCols, s.log⟩
  | fuel + 1, s =>
    match tsdbCommitToFile_round env pCfg fid tid maxKey s with
    | .exit d => d
    | .next s1 => tsdbCommitToFile_drain env pCfg fid tid maxKey fuel s1

/-- The state behind the loop over the tables of one file. -/
structure TablesOut where
  ret : CommitRet
  iters : List (Option SSkipListIterator)
  log : List CommitEv

/-- The loop of lines 430-474 over the slots `tids`.  `tdInitDataCols` empties the batch;
the drain loop of each table runs for at most `fuel` rounds. -/
def tsdbCommitToFile_tables (env : FileEnv) (fuel : Nat) (pCfg : STsdbCfg) (pMeta : STsdbMeta)
    (fid : Int) (maxKey : Int) :
    List Nat → List (Option SSkipListIterator) → List CommitEv → TablesOut
  | [], iters, log => ⟨.ok, iters, log⟩
  | tid :: tids, iters, log =>
    match pMeta.tables.getD tid none with
    | none => tsdbCommitToFile_tables env fuel pCfg pMeta fid maxKey tids iters log
    | some _ =>
      let d := tsdbCommitToFile_drain env pCfg fid tid maxKey fuel
        ⟨iters.getD tid none, [], batchRows pCfg, 0, log⟩
      let iters1 := iters.set tid d.pIter
      match d.ret with
      | .spin => ⟨.spin, iters1, d.log⟩
      | .err => ⟨.err, iters1, d.log⟩
      | .ok =>
        if env.moveLastFails fid tid then
          ⟨.err, iters1, d.log ++ [CommitEv.moveLastBlock fid tid false]⟩
        else if env.writeCompInfoFails fid tid then
          ⟨.err, iters1, d.log ++ [CommitEv.moveLastBlock fid tid true,
            CommitEv.writeCompInfo fid tid false]⟩
        else
          tsdbCommitToFile_tables env fuel pCfg pMeta fid maxKey tids iters1
            (d.log ++ [CommitEv.moveLastBlock fid tid true, CommitEv.writeCompInfo fid tid true])

/-- Lines 401-493.  Every way to `_err` closes the helper file with the error flag (line
491). -/
def tsdbCommitToFile (env : FileEnv) (fuel : Nat) (pCfg : STsdbCfg) (pMeta : STsdbMeta)
    (fid : Int) (iters : List (Option SSkipListIterator)) : TablesOut :=
  let minKey := (tsdbGetKeyRangeOfFileId pCfg.daysPerFile pCfg.precision fid).1
  let maxKey := (tsdbGetKeyRangeOfFileId pCfg.daysPerFile pCfg.precision fid).2
  if tsdbHasDataToCommit iters pCfg.maxTables minKey maxKey = false then ⟨.ok, iters, []⟩
  else if env.createFGroupNull fid then
    ⟨.err, iters, [CommitEv.createFGroup fid false, CommitEv.closeHelperFile fid true]⟩
  else if env.openHelperFails fid then
    ⟨.err, iters, [CommitEv.createFGroup fid true, CommitEv.openHelperFile fid false,
      CommitEv.closeHelperFile fid true]⟩
  else
    let t := tsdbCommitToFile_tables env fuel pCfg pMeta fid maxKey
      (List.range' 1 (pCfg.maxTables - 1)) iters
      [CommitEv.createFGroup fid true, CommitEv.openHelperFile fid true]
    match t.ret with
    | .spin => ⟨.spin, t.iters, t.log⟩
    | .err => ⟨.err, t.iters, t.log ++ [CommitEv.closeHelperFile fid true]⟩
    | .ok =>
      if env.writeCompIdxFails fid then
        ⟨.err, t.iters, t.log ++ [CommitEv.writeCompIdx fid false,
          CommitEv.closeHelperFile fid true]⟩
      else
        ⟨.ok, t.iters, t.log ++ [CommitEv.writeCompIdx fid true,
          CommitEv.closeHelperFile fid false]⟩

/-- The loop of lines 365-370 over `n` file ids from `fid` on. -/
def tsdbCommitData_files (env : FileEnv) (fuel : Nat) (pCfg : STsdbCfg) (pMeta : STsdbMeta) :
    Nat → Int → List (Option SSkipListIterator) → List CommitEv → TablesOut
  | 0, _, iters, log => ⟨.ok, iters, log⟩
  | n + 1, fid, iters, log =>
    let o := tsdbCommitToFile env fuel pCfg pMeta fid iters
    match o.ret with
    | .ok => tsdbCommitData_files env fuel pCfg pMeta n (fid + 1) o.iters (log ++ o.log)
    | .err => ⟨.err, o.iters, log ++ o.log⟩
    | .spin => ⟨.spin, o.iters, log ++ o.log⟩

/-- Outcomes inside a run of the commit task: those of `tsdbCreateTableIters`,
`tsdbInitWriteHelper` failing (line 348), `tdNewDataCols` returning `NULL` (line 354), and
those of the file layer. -/
structure CommitRunEnv where
  iters : ItersEnv
  helperFails : Bool
  dataColsNull : Bool
  files : FileEnv

/-- No call of the commit task fails. -/
def CommitRunEnv.ok : CommitRunEnv := ⟨ItersEnv.ok, false, false, FileEnv.ok⟩

/-- A run of the commit task: whether it returned, the repository it leaves, and what it
did. -/
structure CommitOut where
  returned : Bool
  repo : STsdbRepo
  log : List CommitEv

/-- Lines 322-399 with the work on the files.  The run computes how the task went and leaves
the repository as `tsdbCommitData` says for that; a run whose drain loop does not end never
returns and leaves the repository as it is.  `pCfg` is read as the configuration of the
repository and `pCache->imem` as `imem`.  Lines 361-365 hold the file ids in C `int`s: `sfid`
and `efid` are the values of `tsdbGetKeyFileId` as `int`s, and with `efid = INT_MAX` the test
`fid <= efid` of line 365 holds for every `int`, so behind the last file the increment wraps
around and the loop does not end.  Without an immutable generation the source fails its
assertion of line 325 and reads through `NULL`; nothing is done on the files there. -/
def tsdbCommitData_run (env : CommitRunEnv) (fuel : Nat) (pMeta : STsdbMeta) (r : STsdbRepo) :
    CommitOut :=
  match r.imem with
  | none => ⟨true, tsdbCommitData CommitEnv.ok r, []⟩
  | some imem =>
    match tsdbCreateTableIters env.iters r.config pMeta imem with
    | none => ⟨true, tsdbCommitData { CommitEnv.ok with itersNull := true } r, []⟩
    | some iters =>
      if env.helperFails then
        ⟨true, tsdbCommitData { CommitEnv.ok with helperFails := true } r, []⟩
      else if env.dataColsNull then
        ⟨true, tsdbCommitData { CommitEnv.ok with dataColsNull := true } r, []⟩
      else
        let sfid :=
          toInt32 (tsdbGetKeyFileId imem.keyFirst r.config.daysPerFile r.config.precision)
        let efid :=
          toInt32 (tsdbGetKeyFileId imem.keyLast r.config.daysPerFile r.config.precision)
        let f := tsdbCommitData_files env.files fuel r.config pMeta (efid + 1 - sfid).toNat sfid
          iters []
        match f.ret with
        | .spin => ⟨false, r, f.log⟩
        | .err => ⟨true, tsdbCommitData { CommitEnv.ok with fileFails := true } r, f.log⟩
        | .ok =>
          if efid = INT32_MAX then ⟨false, r, f.log⟩
          else
            ⟨true, tsdbCommitData CommitEnv.ok r,
             f.log ++ [CommitEv.fitRetention, CommitEv.notifyCommitOver]⟩

/-- The rows that the block writer took for the table in slot `tid`, in the order of the
writes: of each batch handed to `tsdbWriteDataBlock` the first `rowsWritten` rows. -/
def writtenRows (tid : Nat) : List CommitEv → List SDataRow
  | [] => []
  | CommitEv.writeDataBlock _ t pDataCols rowsWritten :: log =>
    if t = tid then pDataCols.take rowsWritten.toNat ++ writtenRows tid log
    else writtenRows tid log
  | _ :: log => writtenRows tid log

/-- The rows of an iterator, from the row it stands on. -/
def iterRows : Option SSkipListIterator → List SDataRow
  | none => []
  | some it => it.rest

/-- The rows from the start of `l` up to, not including, the first one with a key above
`maxKey`. -/
def rowsUpTo (maxKey : Int) (l : List SDataRow) : List SDataRow :=
  l.takeWhile fun row => decide (row.key ≤ maxKey)

/-- The rows of `l` from the first one with a key above `maxKey` on. -/
def rowsAbove (maxKey : Int) (l : List SDataRow) : List SDataRow :=
  l.dropWhile fun row => decide (row.key ≤ maxKey)

/-! ### Concrete commits -/

/-- The catalog with `tableT` in slot 0. -/
def metaT : STsdbMeta := ⟨[some tableT, none, none, none]⟩

/-- A table in slot 1. -/
def tableA : STable := { tid := 1, uid := 7, schemaNCols := 2, schemaTLen := 16 }

/-- The catalog with `tableA` in slot 1. -/
def metaA : STsdbMeta := ⟨[none, some tableA, none, none]⟩

/-- Four table slots and file blocks of at most three rows: batches hold two rows. -/
def cfgSmallBlock : STsdbCfg := { maxTables := 4, totalBlocks := 2, maxRowsPerFileBlock := 3 }

/-- A timestamp of the second day file of a repository with default options (ten days of
86400000 milliseconds for each file). -/
def secondFileKey : Int := 864000002

/-- The index of `tableA` in the immutable generation of `repoA`. -/
def indexA : STableData :=
  ⟨7, 1, secondFileKey, 4, [rowAt 1, rowAt 3, rowAt 5, rowAt secondFileKey]⟩

/-- The immutable generation of `repoA`. -/
def genA : SMemTable :=
  { ref := 1, keyFirst := 1, keyLast := secondFileKey, numOfRows := 4, maxCols := 2,
    maxRowBytes := 16,
    tData := [none, some indexA, none, none],
    bufBlockList := [⟨0, 96, 4⟩] }

/-- The iterator that `tsdbCreateTableIters` has to give for the slot `tid`: one on the rows
of the index, when the slot holds a table and its index counts rows. -/
def slotIter (pMeta : STsdbMeta) (imem : SMemTable) (tid : Nat) : Option SSkipListIterator :=
  match pMeta.tables.getD tid none, imem.tData.getD tid none with
  | some _, some pImem => if pImem.numOfRows = 0 then none else some ⟨true, pImem.pData⟩
  | _, _ => none

/-! ### Notions for the drain loop -/

/-- Every block write takes at least one row and at most the rows of the batch it is handed
(`1 <= rowsWritten <= numOfRows`); it never fails. -/
def FileEnv.writesRows (env : FileEnv) : Prop :=
  ∀ (fid : Int) (tid nLoop : Nat) (pCols : List SDataRow), pCols ≠ [] →
    1 ≤ env.writeDataBlock fid tid nLoop pCols ∧
    env.writeDataBlock fid tid nLoop pCols ≤ pCols.length

/-- No call into the file layer fails. -/
def FileEnv.noFailure (env : FileEnv) : Prop :=
  env.writesRows ∧ (∀ fid, env.createFGroupNull fid = false) ∧
  (∀ fid, env.openHelperFails fid = false) ∧ (∀ fid tid, env.moveLastFails fid tid = false) ∧
  (∀ fid tid, env.writeCompInfoFails fid tid = false) ∧
  (∀ fid, env.writeCompIdxFails fid = false)

/-- The number of rows a call of `tsdbReadRowsFromCache` reads: the rows up to `maxKey` the
iterator stands in front of, capped at `maxRowsToRead`; none for an iterator that was not
stepped yet. -/
def readCount (maxKey maxRowsToRead : Int) : Option SSkipListIterator → Nat
  | none => 0
  | some it =>
    if it.started then min maxRowsToRead.toNat (rowsUpTo maxKey it.rest).length else 0

/-- The iterator `n` rows further on. -/
def iterDrop (n : Nat) : Option SSkipListIterator → Option SSkipListIterator
  | none => none
  | some it => some ⟨it.started, it.rest.drop n⟩

/-- The rows still to be drained at the head of the drain loop: the rows of the iterator
with a key up to `maxKey`, and the rows held in the batch. -/
def drainMeasure (maxKey : Int) (s : DrainState) : Nat :=
  (rowsUpTo maxKey (iterRows s.pIter)).length + s.pDataCols.length

/-- The batches handed to `tsdbWriteDataBlock`, in order. -/
def writtenBatches : List CommitEv → List (List SDataRow)
  | [] => []
  | CommitEv.writeDataBlock _ _ pDataCols _ :: log => pDataCols :: writtenBatches log
  | _ :: log => writtenBatches log

/-- The bounds `maxRowsToRead` given to `tsdbReadRowsFromCache`, in order. -/
def readBounds : List CommitEv → List Int
  | [] => []
  | CommitEv.readRows _ _ maxRowsToRead _ :: log => maxRowsToRead :: readBounds log
  | _ :: log => readBounds log

/-- The calls of `tsdbCreateFGroup`. -/
def CommitEv.isCreateFGroup : CommitEv → Bool
  | .createFGroup _ _ => true
  | _ => false

/-- The calls of `tsdbWriteDataBlock`. -/
def CommitEv.isWriteDataBlock : CommitEv → Bool
  | .writeDataBlock _ _ _ _ => true
  | _ => false

/-- The calls of `tsdbWriteCompIdx`. -/
def CommitEv.isWriteCompIdx : CommitEv → Bool
  | .writeCompIdx _ _ => true
  | _ => false

/-- The calls of `tsdbCloseHelperFile`. -/
def CommitEv.isCloseHelperFile : CommitEv → Bool
  | .closeHelperFile _ _ => true
  | _ => false

/-- The batch behind the read of a round that starts in `s`: the rows held over from the
round before, then the rows that the read appends. -/
def roundBatch (maxKey : Int) (s : DrainState) : List SDataRow :=
  s.pDataCols ++ (iterRows s.pIter).take (readCount maxKey s.maxRowsToRead s.pIter)

/-- The calls of `tsdbReadRowsFromCache`. -/
def CommitEv.isReadRows : CommitEv → Bool
  | .readRows _ _ _ _ => true
  | _ => false

/-- A block writer that takes one row of every batch. -/
def oneRowWriter : FileEnv := { FileEnv.ok with writeDataBlock := fun _ _ _ _ => 1 }

/-- Four table slots and file blocks of at most one row: `maxRowsPerFileBlock * 4 / 5` is 0. -/
def cfgOneRow : STsdbCfg := { maxTables := 4, totalBlocks := 2, maxRowsPerFileBlock := 1 }

/-- Four table slots and file blocks of at most 2^29 rows: the product
`maxRowsPerFileBlock * 4` is 2^31, which a C `int` does not hold. -/
def cfgWrap : STsdbCfg :=
  { maxTables := 4, totalBlocks := 2, maxRowsPerFileBlock := 536870912 }

/-- The iterators that `tsdbCreateTableIters` gives for `genA`. -/
def itersA : List (Option SSkipListIterator) :=
  [none, some ⟨true, [rowAt 1, rowAt 3, rowAt 5, rowAt secondFileKey]⟩, none, none]

/-- The head of the drain loop for the table in slot 1 of `genA`, with batches of two rows. -/
def drainA : DrainState := ⟨itersA.getD 1 none, [], batchRows cfgSmallBlock, 0, []⟩

/-- A run of the commit task in which the `calloc` of line 498 fails. -/
def callocFailsEnv : CommitRunEnv := { CommitRunEnv.ok with iters := ⟨true, fun _ => false⟩ }

/-- The calls of the table loop outside the drain loop: `tsdbMoveLastBlockIfNeccessary` and
`tsdbWriteCompInfo`. -/
def CommitEv.isTableEv : CommitEv → Bool
  | .moveLastBlock _ _ _ => true
  | .writeCompInfo _ _ _ => true
  | _ => false

/-- The calls on the file group: `tsdbCreateFGroup`, `tsdbSetAndOpenHelperFile`,
`tsdbWriteCompIdx` and `tsdbCloseHelperFile`. -/
def CommitEv.isGroupEv : CommitEv → Bool
  | .createFGroup _ _ => true
  | .openHelperFile _ _ => true
  | .writeCompIdx _ _ => true
  | .closeHelperFile _ _ => true
  | _ => false

/-- The iterator stands on a row or behind the last one: it was stepped at least once. -/
def iterStarted : Option SSkipListIterator → Prop
  | none => True
  | some it => it.started = true

/-- The iterator behind its rows with a key up to `maxKey`. -/
def iterAbove (maxKey : Int) (pIter : Option SSkipListIterator) : Option SSkipListIterator :=
  iterDrop (rowsUpTo maxKey (iterRows pIter)).length pIter

/-- A timestamp of the day file 101 of a repository with default options. -/
def key101 : Int := 87264000005

/-- Iterators with one row, of day file 101, for the table in slot 1. -/
def iters101 : List (Option SSkipListIterator) := [none, some ⟨true, [rowAt key101]⟩, none, none]

/-- A put either is rejected or links the row at its place. -/
theorem tSkipListPut_cases (rejected : Bool) (l : List SDataRow) (row : SDataRow) :
    tSkipListPut rejected l row = none ∨
      tSkipListPut rejected l row = some (putOrdered row l) := by
  unfold tSkipListPut
  split
  · exact Or.inl rfl
  · exact Or.inr rfl

/-- A put into an empty index links the row. -/
theorem tSkipListPut_nil (rejected : Bool) (row : SDataRow) :
    tSkipListPut rejected [] row = some [row] := by
  simp [tSkipListPut, putOrdered]


/-! ## The stages of `tsdbAllocBytes` -/

theorem tsdbNewMemTable_eq (fails : Bool) (cfg : STsdbCfg) :
    tsdbNewMemTable fails cfg = if fails then none else some (freshMem cfg) := rfl

theorem BlocksOnly.refl (a : Option SMemTable) : BlocksOnly a a := by
  cases a with
  | none => exact Or.inl ⟨rfl, rfl⟩
  | some m => exact Or.inr ⟨m, m.bufBlockList, rfl, rfl⟩

theorem BlocksOnly.trans {a b c : Option SMemTable} (h1 : BlocksOnly a b)
    (h2 : BlocksOnly b c) : BlocksOnly a c := by
  rcases h1 with ⟨ha, hb⟩ | ⟨m, bl, ha, hb⟩
  · subst ha; subst hb; exact h2
  · rcases h2 with ⟨hb2, _⟩ | ⟨m2, bl2, hb2, hc⟩
    · rw [hb] at hb2; cases hb2
    · rw [hb] at hb2; cases hb2
      exact Or.inr ⟨m, bl2, ha, hc⟩

theorem BlocksOnly.memKeep {cfg : STsdbCfg} {a b : Option SMemTable} (h : BlocksOnly a b) :
    MemKeep cfg a b := by
  rcases h with ⟨_, hb⟩ | h
  · exact Or.inl hb
  · exact Or.inr (Or.inl h)

theorem MemKeep.trans_blocks {cfg : STsdbCfg} {a b c : Option SMemTable}
    (h1 : MemKeep cfg a b) (h2 : BlocksOnly b c) : MemKeep cfg a c := by
  rcases h2 with ⟨_, hc⟩ | ⟨m2, bl2, hb2, hc⟩
  · exact Or.inl hc
  · rcases h1 with hb | ⟨m, bl, ha, hb⟩ | ⟨bl, hb⟩
    · rw [hb] at hb2; cases hb2
    · rw [hb] at hb2; cases hb2
      exact Or.inr (Or.inl ⟨m, bl2, ha, hc⟩)
    · rw [hb] at hb2; cases hb2
      exact Or.inr (Or.inr ⟨bl2, hc⟩)

theorem tsdbCommitData_config (env : CommitEnv) (r : STsdbRepo) :
    (tsdbCommitData env r).config = r.config := by
  unfold tsdbCommitData
  split
  · rfl
  · split <;> rfl

theorem tsdbCommitData_mem (env : CommitEnv) (r : STsdbRepo) :
    (tsdbCommitData env r).mem = r.mem := by
  unfold tsdbCommitData
  split
  · rfl
  · split <;> rfl

theorem commitMem_config (r : STsdbRepo) (env : AllocEnv) :
    (tsdbAllocBytes_commitMem r env).repo.config = r.config := by
  unfold tsdbAllocBytes_commitMem
  simp only
  repeat' split
  all_goals simp [Flow.repo, tsdbCommitData_config]

/-- The branch of line 166: once the assignments of lines 180-182 ran, the active slot is
empty, the immutable slot holds the generation that was active, and the flag is 1; before
them the active generation is untouched and the stage returns `NULL`. -/
theorem commitMem_spec (r : STsdbRepo) (env : AllocEnv) :
    let f := tsdbAllocBytes_commitMem r env
    Ev.needCommit ∈ f.trace ∧
    (swapped f.trace = true → f.repo.mem = none ∧ f.repo.imem = r.mem ∧ f.repo.commit = 1) ∧
    (swapped f.trace = false → f.repo.mem = r.mem ∧ ∃ r1 t1, f = .ret ⟨.null, r1, t1⟩) := by
  unfold tsdbAllocBytes_commitMem
  simp only
  repeat' split
  all_goals simp [Flow.repo, Flow.trace, swapped, Ev.isSwap, tsdbCommitData_mem]

theorem addBlock_spec (r : STsdbRepo) (m : SMemTable) (env : AllocEnv) (hm : r.mem = some m) :
    let f := tsdbAllocBytes_addBlock r m env
    f.repo.config = r.config ∧ f.repo.imem = r.imem ∧ f.repo.commit = r.commit ∧
    swapped f.trace = false ∧ Ev.needCommit ∉ f.trace ∧ BlocksOnly r.mem f.repo.mem := by
  unfold tsdbAllocBytes_addBlock tsdbAllocBufBlockFromPool
  simp only
  repeat' split
  all_goals simp [Flow.repo, Flow.trace, swapped, Ev.isSwap, BlocksOnly.refl]
  all_goals exact Or.inr ⟨m, _, hm, rfl⟩

theorem ensure_config (r : STsdbRepo) (bytes : Int) (env : AllocEnv) :
    (tsdbAllocBytes_ensure r bytes env).repo.config = r.config := by
  unfold tsdbAllocBytes_ensure
  split
  · next m b hm _ =>
    split
    · split
      · exact commitMem_config r env
      · exact (addBlock_spec r m env hm).1
    · rfl
  · rfl

/-- Lines 165-199: what the stage leaves in the two generation slots. -/
theorem ensure_spec (r : STsdbRepo) (bytes : Int) (env : AllocEnv) :
    let f := tsdbAllocBytes_ensure r bytes env
    (swapped f.trace = true → f.repo.mem = none ∧ f.repo.imem = r.mem ∧ f.repo.commit = 1) ∧
    (swapped f.trace = false → BlocksOnly r.mem f.repo.mem) ∧
    (Ev.needCommit ∉ f.trace → f.repo.imem = r.imem ∧ f.repo.commit = r.commit) ∧
    (Ev.needCommit ∈ f.trace → swapped f.trace = false → ∃ r1 t1, f = .ret ⟨.null, r1, t1⟩) := by
  unfold tsdbAllocBytes_ensure
  split
  · next m b hm _ =>
    split
    · split
      · have h := commitMem_spec r env
        simp only at h
        refine ⟨h.2.1, ?_, ?_, ?_⟩
        · intro hs
          rw [(h.2.2 hs).1]
          exact BlocksOnly.refl _
        · intro hn
          exact absurd h.1 hn
        · intro _ hs
          exact (h.2.2 hs).2
      · have h := addBlock_spec r m env hm
        simp only at h
        obtain ⟨_, h2, h3, h4, h5, h6⟩ := h
        refine ⟨?_, ?_, ?_, ?_⟩
        · intro hs; rw [h4] at hs; cases hs
        · intro _; exact h6
        · intro _; exact ⟨h2, h3⟩
        · intro hn; exact absurd hn h5
    · simp [Flow.repo, Flow.trace, swapped, BlocksOnly.refl]
  · simp [Flow.repo, Flow.trace, swapped, BlocksOnly.refl]

/-- Lines 201-215: the stage keeps the immutable slot, the flag and the configuration; it
leaves a present active generation alone and fills an empty slot with a new generation. -/
theorem newMem_spec (r : STsdbRepo) (t : List Ev) (env : AllocEnv) :
    let f := tsdbAllocBytes_newMem r t env
    f.repo.config = r.config ∧ f.repo.imem = r.imem ∧ f.repo.commit = r.commit ∧
    swapped f.trace = swapped t ∧ (Ev.needCommit ∈ f.trace ↔ Ev.needCommit ∈ t) ∧
    (∀ m, r.mem = some m → f = .next r t) ∧
    (r.mem = none → f.repo.mem = none ∨
      ∃ bl, f.repo.mem = some { freshMem r.config with bufBlockList := bl }) := by
  unfold tsdbAllocBytes_newMem tsdbAllocBufBlockFromPool
  rw [tsdbNewMemTable_eq]
  simp only
  repeat' split
  all_goals simp_all [Flow.repo, Flow.trace, swapped, Ev.isSwap]

/-- Lines 217-223: the bump changes the block list of the active generation only. -/
theorem bump_spec (r : STsdbRepo) (bytes : Int) (t : List Ev) :
    let o := tsdbAllocBytes_bump r bytes t
    o.repo.config = r.config ∧ o.repo.imem = r.imem ∧ o.repo.commit = r.commit ∧
    o.trace = t ∧ BlocksOnly r.mem o.repo.mem := by
  unfold tsdbAllocBytes_bump
  simp only
  repeat' split
  all_goals simp_all [BlocksOnly.refl]
  all_goals first | exact Or.inl rfl | exact Or.inr ⟨_, _, rfl, rfl⟩

/-! ## `tsdbAllocBytes` as a whole -/

/-- A property of every way through the three stages is a property of the call. -/
theorem tsdbAllocBytes_cases (r : STsdbRepo) (bytes : Int) (env : AllocEnv)
    (P : AllocOut → Prop)
    (h1 : ∀ o, tsdbAllocBytes_ensure r bytes env = .ret o → P o)
    (h2 : ∀ r1 t1 o, tsdbAllocBytes_ensure r bytes env = .next r1 t1 →
      tsdbAllocBytes_newMem r1 t1 env = .ret o → P o)
    (h3 : ∀ r1 t1 r2 t2, tsdbAllocBytes_ensure r bytes env = .next r1 t1 →
      tsdbAllocBytes_newMem r1 t1 env = .next r2 t2 → P (tsdbAllocBytes_bump r2 bytes t2)) :
    P (tsdbAllocBytes r bytes env) := by
  unfold tsdbAllocBytes
  cases he : tsdbAllocBytes_ensure r bytes env with
  | ret o => exact h1 o he
  | next r1 t1 =>
    simp only
    cases hn : tsdbAllocBytes_newMem r1 t1 env with
    | ret o => exact h2 r1 t1 o he hn
    | next r2 t2 => exact h3 r1 t1 r2 t2 he hn

theorem tsdbAllocBytes_config (r : STsdbRepo) (bytes : Int) (env : AllocEnv) :
    (tsdbAllocBytes r bytes env).repo.config = r.config := by
  apply tsdbAllocBytes_cases r bytes env (fun o => o.repo.config = r.config)
  · intro o he
    have h := ensure_config r bytes env
    rw [he] at h; exact h
  · intro r1 t1 o he hn
    have h := ensure_config r bytes env
    have h' := (newMem_spec r1 t1 env).1
    rw [he] at h; rw [hn] at h'
    exact h'.trans h
  · intro r1 t1 r2 t2 he hn
    have h := ensure_config r bytes env
    have h' := (newMem_spec r1 t1 env).1
    rw [he] at h; rw [hn] at h'
    exact ((bump_spec r2 bytes t2).1.trans h').trans h

/-- The two generation slots after a `tsdbAllocBytes` call.  If the call swapped, the
immutable slot holds the generation that was active and the flag is 1.  If it did not,
the active generation is the former one up to its block list, or, with none before, absent
or new.  If it did not enter the branch of line 166, the immutable slot and the flag are
untouched.  A call that entered the branch and did not swap returned `NULL`. -/
theorem tsdbAllocBytes_spec (r : STsdbRepo) (bytes : Int) (env : AllocEnv) :
    let o := tsdbAllocBytes r bytes env
    MemKeep r.config r.mem o.repo.mem ∧
    (swapped o.trace = true → o.repo.imem = r.mem ∧ o.repo.commit = 1) ∧
    (swapped o.trace = false → ∀ m, r.mem = some m →
      ∃ bl, o.repo.mem = some { m with bufBlockList := bl }) ∧
    (Ev.needCommit ∉ o.trace → o.repo.imem = r.imem ∧ o.repo.commit = r.commit) ∧
    (Ev.needCommit ∈ o.trace → swapped o.trace = false → o.ret = .null) := by
  apply tsdbAllocBytes_cases r bytes env (fun o =>
    MemKeep r.config r.mem o.repo.mem ∧
    (swapped o.trace = true → o.repo.imem = r.mem ∧ o.repo.commit = 1) ∧
    (swapped o.trace = false → ∀ m, r.mem = some m →
      ∃ bl, o.repo.mem = some { m with bufBlockList := bl }) ∧
    (Ev.needCommit ∉ o.trace → o.repo.imem = r.imem ∧ o.repo.commit = r.commit) ∧
    (Ev.needCommit ∈ o.trace → swapped o.trace = false → o.ret = .null))
  · intro o he
    have h := ensure_spec r bytes env
    simp only [he, Flow.repo, Flow.trace] at h
    obtain ⟨hs, hb, hn, hr⟩ := h
    refine ⟨?_, fun h => (hs h).2, ?_, hn, ?_⟩
    · cases hsw : swapped o.trace
      · exact (hb hsw).memKeep
      · exact Or.inl (hs hsw).1
    · intro hsw m hm
      rcases hb hsw with ⟨ha, _⟩ | ⟨m1, bl, ha, hb1⟩
      · rw [hm] at ha; cases ha
      · rw [hm] at ha; cases ha
        exact ⟨bl, hb1⟩
    · intro h1 h2
      obtain ⟨r1, t1, h3⟩ := hr h1 h2
      cases h3; rfl
  · intro r1 t1 o he hn
    have h := ensure_spec r bytes env
    simp only [he, Flow.repo, Flow.trace] at h
    obtain ⟨hs, hb, hnc, hr⟩ := h
    have h' := newMem_spec r1 t1 env
    simp only [hn, Flow.repo, Flow.trace] at h'
    obtain ⟨hc, hi, hcm, hsw', hnc', hsome, hnone⟩ := h'
    have hcfg : r1.config = r.config := by
      have := ensure_config r bytes env
      rw [he] at this; exact this
    have hr1 : r1.mem = none := by
      cases hm1 : r1.mem with
      | none => rfl
      | some m1 => cases hsome m1 hm1
    refine ⟨?_, ?_, ?_, ?_, ?_⟩
    · rcases hnone hr1 with h0 | ⟨bl, h0⟩
      · exact Or.inl h0
      · rw [hcfg] at h0
        exact Or.inr (Or.inr ⟨bl, h0⟩)
    · intro hsw
      rw [hsw'] at hsw
      rw [hi, hcm]
      exact (hs hsw).2
    · intro hsw m hm
      rw [hsw'] at hsw
      rcases hb hsw with ⟨ha, _⟩ | ⟨m1, bl, _, hb1⟩
      · rw [hm] at ha; cases ha
      · rw [hr1] at hb1; cases hb1
    · intro hno
      rw [hnc'] at hno
      rw [hi, hcm]
      exact hnc hno
    · intro h1 h2
      rw [hnc'] at h1
      rw [hsw'] at h2
      obtain ⟨_, _, h3⟩ := hr h1 h2
      cases h3
  · intro r1 t1 r2 t2 he hn
    have h := ensure_spec r bytes env
    simp only [he, Flow.repo, Flow.trace] at h
    obtain ⟨hs, hb, hnc, hr⟩ := h
    have h' := newMem_spec r1 t1 env
    simp only [hn, Flow.repo, Flow.trace] at h'
    obtain ⟨hc, hi, hcm, hsw', hnc', hsome, hnone⟩ := h'
    have hcfg : r1.config = r.config := by
      have := ensure_config r bytes env
      rw [he] at this; exact this
    have hbump := bump_spec r2 bytes t2
    simp only at hbump
    obtain ⟨_, bi, bc, bt, bb⟩ := hbump
    -- the active generation behind the second stage
    have hmid : MemKeep r.config r.mem r2.mem ∧
        (swapped t1 = false → ∀ m, r.mem = some m →
          ∃ bl, r2.mem = some { m with bufBlockList := bl }) := by
      cases hm1 : r1.mem with
      | some m1 =>
        have h2 := hsome m1 hm1
        have e1 : r2 = r1 := (Flow.next.inj h2).1
        rw [e1]
        constructor
        · cases hsw : swapped t1
          · exact (hb hsw).memKeep
          · have := (hs hsw).1
            rw [hm1] at this; cases this
        · intro hsw m hm
          rcases hb hsw with ⟨ha, _⟩ | ⟨m0, bl, ha, hb1⟩
          · rw [hm] at ha; cases ha
          · rw [hm] at ha; cases ha
            exact ⟨bl, hb1⟩
      | none =>
        constructor
        · rcases hnone hm1 with h0 | ⟨bl, h0⟩
          · exact Or.inl h0
          · rw [hcfg] at h0
            exact Or.inr (Or.inr ⟨bl, h0⟩)
        · intro hsw m hm
          rcases hb hsw with ⟨ha, _⟩ | ⟨m0, bl, _, hb1⟩
          · rw [hm] at ha; cases ha
          · rw [hm1] at hb1; cases hb1
    refine ⟨hmid.1.trans_blocks bb, ?_, ?_, ?_, ?_⟩
    · intro hsw
      rw [bt, hsw'] at hsw
      rw [bi, bc, hi, hcm]
      exact (hs hsw).2
    · intro hsw m hm
      rw [bt, hsw'] at hsw
      obtain ⟨bl, h2⟩ := hmid.2 hsw m hm
      rcases bb with ⟨ha, _⟩ | ⟨m0, bl0, ha, hb0⟩
      · rw [h2] at ha; cases ha
      · rw [h2] at ha; cases ha
        exact ⟨bl0, hb0⟩
    · intro hno
      rw [bt, hnc'] at hno
      rw [bi, bc, hi, hcm]
      exact hnc hno
    · intro h1 h2
      rw [bt, hnc'] at h1
      rw [bt, hsw'] at h2
      obtain ⟨_, _, h3⟩ := hr h1 h2
      cases h3

/-! ## Invariants of the active generation -/

theorem tsdbFreeBytes_mem (r : STsdbRepo) (bytes : Int) :
    BlocksOnly r.mem (tsdbFreeBytes r bytes).mem := by
  unfold tsdbFreeBytes
  split
  · exact BlocksOnly.refl _
  · next m hm =>
    split
    · exact BlocksOnly.refl _
    · exact Or.inr ⟨m, _, hm, rfl⟩

/-- The rollback touches the active generation only. -/
theorem tsdbFreeBytes_frame (r : STsdbRepo) (bytes : Int) :
    (tsdbFreeBytes r bytes).config = r.config ∧ (tsdbFreeBytes r bytes).pPool = r.pPool ∧
    (tsdbFreeBytes r bytes).imem = r.imem ∧ (tsdbFreeBytes r bytes).commit = r.commit ∧
    (tsdbFreeBytes r bytes).commitThread = r.commitThread := by
  unfold tsdbFreeBytes
  split
  · simp
  · split <;> simp

/-- Lines 82-102 touch the active generation only. -/
theorem tsdbInsertRowToMem_put_frame (r : STsdbRepo) (m : SMemTable) (td : STableData)
    (row : SDataRow) (pTable : STable) (bytes : Int) (putNull : Bool) (t : List Ev) :
    let o := tsdbInsertRowToMem_put r m td row pTable bytes putNull t
    o.repo.config = r.config ∧ o.repo.pPool = r.pPool ∧ o.repo.imem = r.imem ∧
    o.repo.commit = r.commit ∧ o.repo.commitThread = r.commitThread := by
  unfold tsdbInsertRowToMem_put
  simp only
  split
  · exact tsdbFreeBytes_frame _ bytes
  · simp

/-- Lines 60-102 touch the active generation only. -/
theorem tsdbInsertRowToMem_link_frame (r : STsdbRepo) (m : SMemTable) (row : SDataRow)
    (pTable : STable) (bytes : Int) (env : InsertEnv) (t : List Ev) :
    let o := tsdbInsertRowToMem_link r m row pTable bytes env t
    o.repo.config = r.config ∧ o.repo.pPool = r.pPool ∧ o.repo.imem = r.imem ∧
    o.repo.commit = r.commit ∧ o.repo.commitThread = r.commitThread := by
  unfold tsdbInsertRowToMem_link
  simp only
  split
  · split
    · split
      · exact tsdbFreeBytes_frame _ bytes
      · exact tsdbInsertRowToMem_put_frame r _ _ row pTable bytes env.putNull _
    · exact tsdbInsertRowToMem_put_frame r _ _ row pTable bytes env.putNull _
  · split
    · exact tsdbFreeBytes_frame _ bytes
    · exact tsdbInsertRowToMem_put_frame r _ _ row pTable bytes env.putNull _

/-- The three ways through `tsdbInsertRowToMem`: the allocation waits, the call returns -1
behind a failed allocation, or lines 60-102 run on the active generation that the allocation
left. -/
theorem tsdbInsertRowToMem_eq (r : STsdbRepo) (row : SDataRow) (pTable : STable)
    (env : InsertEnv) :
    (tsdbInsertRowToMem r row pTable env =
        ⟨.waiting, (tsdbAllocBytes r (env.headSize + row.len) env.alloc).repo,
          (tsdbAllocBytes r (env.headSize + row.len) env.alloc).trace⟩ ∧
      (tsdbAllocBytes r (env.headSize + row.len) env.alloc).ret = .waiting) ∨
    (tsdbInsertRowToMem r row pTable env =
        ⟨.code (-1), (tsdbAllocBytes r (env.headSize + row.len) env.alloc).repo,
          (tsdbAllocBytes r (env.headSize + row.len) env.alloc).trace⟩ ∧
      ((tsdbAllocBytes r (env.headSize + row.len) env.alloc).ret = .null ∨
        (tsdbAllocBytes r (env.headSize + row.len) env.alloc).repo.mem = none)) ∨
    ∃ pm i off, (tsdbAllocBytes r (env.headSize + row.len) env.alloc).repo.mem = some pm ∧
      (tsdbAllocBytes r (env.headSize + row.len) env.alloc).ret = .ptr i off ∧
      tsdbInsertRowToMem r row pTable env =
        tsdbInsertRowToMem_link (tsdbAllocBytes r (env.headSize + row.len) env.alloc).repo pm
          row pTable (env.headSize + row.len) env
          (tsdbAllocBytes r (env.headSize + row.len) env.alloc).trace := by
  unfold tsdbInsertRowToMem
  simp only
  cases hret : (tsdbAllocBytes r (env.headSize + row.len) env.alloc).ret with
  | waiting => exact Or.inl ⟨rfl, rfl⟩
  | null => exact Or.inr (Or.inl ⟨rfl, Or.inl rfl⟩)
  | ptr i off =>
    simp only
    cases hm : (tsdbAllocBytes r (env.headSize + row.len) env.alloc).repo.mem with
    | none => exact Or.inr (Or.inl ⟨rfl, Or.inr rfl⟩)
    | some pm => exact Or.inr (Or.inr ⟨pm, i, off, rfl, rfl, rfl⟩)

/-- A property of generations that holds of a new one, that does not depend on the block
list, and that lines 60-102 of this call keep, holds of the active generation after the call
of `tsdbInsertRowToMem` if it held before. -/
theorem tsdbInsertRowToMem_keeps (P : SMemTable → Prop) (r : STsdbRepo) (row : SDataRow)
    (pTable : STable) (env : InsertEnv)
    (hfresh : P (freshMem r.config))
    (hblocks : ∀ m bl, P m → P { m with bufBlockList := bl })
    (hlink : ∀ pm, P pm →
      (tsdbInsertRowToMem r row pTable env) =
        tsdbInsertRowToMem_link (tsdbAllocBytes r (env.headSize + row.len) env.alloc).repo pm
          row pTable (env.headSize + row.len) env
          (tsdbAllocBytes r (env.headSize + row.len) env.alloc).trace →
      ∀ m', (tsdbInsertRowToMem r row pTable env).repo.mem = some m' → P m')
    (hr : ∀ m, r.mem = some m → P m) :
    ∀ m', (tsdbInsertRowToMem r row pTable env).repo.mem = some m' → P m' := by
  have hkeep := (tsdbAllocBytes_spec r (env.headSize + row.len) env.alloc).1
  have ha : ∀ m', (tsdbAllocBytes r (env.headSize + row.len) env.alloc).repo.mem = some m' →
      P m' := by
    intro m' hm'
    rcases hkeep with h | ⟨m, bl, h1, h2⟩ | ⟨bl, h2⟩
    · rw [h] at hm'; cases hm'
    · rw [h2] at hm'; cases hm'
      exact hblocks m bl (hr m h1)
    · rw [h2] at hm'; cases hm'
      exact hblocks _ bl hfresh
  intro m' hm'
  rcases tsdbInsertRowToMem_eq r row pTable env with ⟨he, _⟩ | ⟨he, _⟩ | ⟨pm, i, off, hm, _, he⟩
  · rw [he] at hm'; exact ha m' hm'
  · rw [he] at hm'; exact ha m' hm'
  · exact hlink pm (ha pm hm) he m' hm'

theorem tsdbInsertRowToMem_config (r : STsdbRepo) (row : SDataRow) (pTable : STable)
    (env : InsertEnv) : (tsdbInsertRowToMem r row pTable env).repo.config = r.config := by
  have hc := tsdbAllocBytes_config r (env.headSize + row.len) env.alloc
  unfold tsdbInsertRowToMem
  simp only
  split
  · exact hc
  · exact hc
  · split
    · exact hc
    · exact (tsdbInsertRowToMem_link_frame _ _ row pTable _ env _).1.trans hc

/-- A property as in `tsdbInsertRowToMem_keeps` holds of the active generation of every
reachable repository. -/
theorem Reachable.mem_inv (P : SMemTable → Prop) (cfg : STsdbCfg) (pool : List STsdbBufBlock)
    (hfresh : P (freshMem cfg))
    (hblocks : ∀ m bl, P m → P { m with bufBlockList := bl })
    (hlink : ∀ r1 m row pTable bytes env t, P m →
      ∀ m', (tsdbInsertRowToMem_link r1 m row pTable bytes env t).repo.mem = some m' → P m')
    (r : STsdbRepo) (h : Reachable cfg pool r) :
    r.config = cfg ∧ ∀ m, r.mem = some m → P m := by
  induction h with
  | init => exact ⟨rfl, fun m hm => by cases hm⟩
  | insert r0 row pTable env _ _ _ ih =>
    refine ⟨(tsdbInsertRowToMem_config r0 row pTable env).trans ih.1, ?_⟩
    apply tsdbInsertRowToMem_keeps P r0 row pTable env
    · rw [ih.1]; exact hfresh
    · exact hblocks
    · intro pm hpm he m' hm'
      rw [he] at hm'
      exact hlink _ pm row pTable _ env _ hpm m' hm'
    · exact ih.2
  | commitDone r0 env _ _ ih =>
    refine ⟨(tsdbCommitData_config env r0).trans ih.1, ?_⟩
    rw [tsdbCommitData_mem]
    exact ih.2

theorem keyRange_fresh (cfg : STsdbCfg) : KeyRangeInv (freshMem cfg) := by
  refine ⟨le_refl _, le_refl _, ?_⟩
  intro td h
  simp [freshMem] at h

theorem keyRange_blocks (m : SMemTable) (bl : List STsdbBufBlock) (h : KeyRangeInv m) :
    KeyRangeInv { m with bufBlockList := bl } := h

/-- Lines 82-102 keep the key ranges nested, for an index whose range lies within the range
of the generation. -/
theorem keyRange_put (r : STsdbRepo) (m : SMemTable) (td : STableData) (row : SDataRow)
    (pTable : STable) (bytes : Int) (putNull : Bool) (t : List Ev) (h : KeyRangeInv m)
    (htd : m.keyFirst ≤ td.keyFirst ∧ td.keyLast ≤ m.keyLast) :
    ∀ m', (tsdbInsertRowToMem_put r m td row pTable bytes putNull t).repo.mem = some m' →
      KeyRangeInv m' := by
  intro m' hm'
  unfold tsdbInsertRowToMem_put at hm'
  simp only at hm'
  split at hm'
  · rcases tsdbFreeBytes_mem { r with mem := some m } bytes with ⟨h1, _⟩ | ⟨m0, bl, h1, h2⟩
    · cases h1
    · simp only at hm' h1 h2
      cases h1
      rw [h2] at hm'; cases hm'
      exact h
  · simp only at hm'
    cases hm'
    obtain ⟨h1, h2, h3⟩ := h
    refine ⟨?_, ?_, ?_⟩
    · simp only; split <;> omega
    · simp only; split <;> omega
    · intro x hx
      simp only at hx ⊢
      rcases List.mem_or_eq_of_mem_set hx with hx | hx
      · have := h3 x hx
        constructor
        · split <;> omega
        · split <;> omega
      · cases hx
        simp only
        constructor
        · split <;> split <;> omega
        · split <;> split <;> omega

theorem keyRange_set_none {m : SMemTable} (i : Nat) (h : KeyRangeInv m) :
    KeyRangeInv { m with tData := m.tData.set i none } := by
  refine ⟨h.1, h.2.1, ?_⟩
  intro td htd
  rcases List.mem_or_eq_of_mem_set htd with h1 | h1
  · exact h.2.2 td h1
  · cases h1

theorem keyRange_set_some {m : SMemTable} (i : Nat) (td : STableData) (h : KeyRangeInv m)
    (htd : m.keyFirst ≤ td.keyFirst ∧ td.keyLast ≤ m.keyLast) :
    KeyRangeInv { m with tData := m.tData.set i (some td) } := by
  refine ⟨h.1, h.2.1, ?_⟩
  intro x hx
  rcases List.mem_or_eq_of_mem_set hx with h1 | h1
  · exact h.2.2 x h1
  · cases h1; exact htd

theorem getD_some_mem {α : Type} (l : List (Option α)) (i : Nat) (a : α)
    (h : l.getD i none = some a) : some a ∈ l := by
  rw [List.getD_eq_getElem?_getD] at h
  cases hi : l[i]? with
  | none => rw [hi] at h; cases h
  | some x =>
    rw [hi] at h
    simp only [Option.getD_some] at h
    subst h
    exact List.getElem?_mem hi

theorem keyRange_link (r : STsdbRepo) (m : SMemTable) (row : SDataRow) (pTable : STable)
    (bytes : Int) (env : InsertEnv) (t : List Ev) (h : KeyRangeInv m) :
    ∀ m', (tsdbInsertRowToMem_link r m row pTable bytes env t).repo.mem = some m' →
      KeyRangeInv m' := by
  intro m' hm'
  have hnew : ∀ td, tsdbNewTableData env.newTableDataNull pTable = some td →
      td.keyFirst = INT64_MAX ∧ td.keyLast = 0 := by
    intro td htd
    unfold tsdbNewTableData at htd
    split at htd
    · cases htd
    · cases htd; exact ⟨rfl, rfl⟩
  have hfree : ∀ m1 : SMemTable, KeyRangeInv m1 →
      (tsdbFreeBytes { r with mem := some m1 } bytes).mem = some m' → KeyRangeInv m' := by
    intro m1 h1 hm1
    rcases tsdbFreeBytes_mem { r with mem := some m1 } bytes with ⟨h2, _⟩ | ⟨m0, bl, h2, h3⟩
    · cases h2
    · simp only at h2 h3
      cases h2
      rw [h3] at hm1; cases hm1
      exact h1
  unfold tsdbInsertRowToMem_link at hm'
  split at hm'
  · next td0 hget =>
    split at hm'
    · simp only at hm'
      split at hm'
      · exact hfree _ (keyRange_set_none pTable.tid h) hm'
      · next td htd =>
        have hb := hnew td htd
        have h1 := keyRange_set_none pTable.tid h
        have hrange : m.keyFirst ≤ td.keyFirst ∧ td.keyLast ≤ m.keyLast := by
          rw [hb.1, hb.2]; exact ⟨h.2.1, h.1⟩
        exact keyRange_put r _ td row pTable bytes env.putNull _
          (keyRange_set_some pTable.tid td h1 hrange) hrange m' hm'
    · exact keyRange_put r m td0 row pTable bytes env.putNull t h
        (h.2.2 td0 (getD_some_mem _ _ _ hget)) m' hm'
  · split at hm'
    · exact hfree m h hm'
    · next td htd =>
      have hb := hnew td htd
      have hrange : m.keyFirst ≤ td.keyFirst ∧ td.keyLast ≤ m.keyLast := by
        rw [hb.1, hb.2]; exact ⟨h.2.1, h.1⟩
      exact keyRange_put r _ td row pTable bytes env.putNull _
        (keyRange_set_some pTable.tid td h hrange) hrange m' hm'

/-! ## Key ranges (C4) -/

theorem staleSlotRun_reachable : Reachable cfgHalf pool3 staleSlotRun :=
  Reachable.insert _ (rowAt 1) tableT2 (InsertEnv.ok 8)
    (Reachable.insert _ (rowAt 3) tableT (InsertEnv.ok 8) Reachable.init (by decide) (by decide))
    (by decide) (by decide)

/-- C4: in every repository state reachable by `tsdbInsertRowToMem` calls (and ends of commit
tasks), every per-table index of the active generation has its key range within the key range
of the generation: `generation.keyFirst <= table.keyFirst` and
`table.keyLast <= generation.keyLast`.  This covers new, empty indexes and the index created
after the index of a dropped table was destroyed. -/
theorem C4_table_key_range_within_generation (cfg : STsdbCfg) (pool : List STsdbBufBlock)
    (r : STsdbRepo) (h : Reachable cfg pool r) (m : SMemTable) (hm : r.mem = some m)
    (td : STableData) (htd : some td ∈ m.tData) :
    m.keyFirst ≤ td.keyFirst ∧ td.keyLast ≤ m.keyLast :=
  ((Reachable.mem_inv KeyRangeInv cfg pool (keyRange_fresh cfg) keyRange_blocks
    (fun r1 m1 row pTable bytes env t => keyRange_link r1 m1 row pTable bytes env t)
    r h).2 m hm).2.2 td htd

/-- C4 at the repository in which a new index replaced the index of a dropped table: the
generation spans [1, 3], the new index [1, 1]. -/
theorem C4_table_key_range_within_generation_witness :
    staleSlotRun.mem = some staleSlotGen ∧ some staleSlotIndex ∈ staleSlotGen.tData ∧
      staleSlotGen.keyFirst ≤ staleSlotIndex.keyFirst ∧
      staleSlotIndex.keyLast ≤ staleSlotGen.keyLast :=
  ⟨by decide, by decide,
   C4_table_key_range_within_generation cfgHalf pool3 staleSlotRun staleSlotRun_reachable
     staleSlotGen (by decide) staleSlotIndex (by decide)⟩

/-! ## Row counts (C1) -/

theorem putOrdered_length (row : SDataRow) (l : List SDataRow) :
    (putOrdered row l).length = l.length + 1 := by
  induction l with
  | nil => rfl
  | cons x xs ih =>
    unfold putOrdered
    split
    · rfl
    · simp [ih]

theorem rowCount_fresh (cfg : STsdbCfg) : RowCountInv (freshMem cfg) := by
  intro td h
  simp [freshMem] at h

theorem rowCount_blocks (m : SMemTable) (bl : List STsdbBufBlock) (h : RowCountInv m) :
    RowCountInv { m with bufBlockList := bl } := h

theorem rowCount_set_none {m : SMemTable} (i : Nat) (h : RowCountInv m) :
    RowCountInv { m with tData := m.tData.set i none } := by
  intro td htd
  rcases List.mem_or_eq_of_mem_set htd with h1 | h1
  · exact h td h1
  · cases h1

theorem rowCount_set_some {m : SMemTable} (i : Nat) (td : STableData) (h : RowCountInv m)
    (htd : td.numOfRows = tSkipListGetSize td.pData) :
    RowCountInv { m with tData := m.tData.set i (some td) } := by
  intro x hx
  rcases List.mem_or_eq_of_mem_set hx with h1 | h1
  · exact h x h1
  · cases h1; exact htd

/-- Lines 82-102 keep the row count of each index equal to the size of its skip list. -/
theorem rowCount_put (r : STsdbRepo) (m : SMemTable) (td : STableData) (row : SDataRow)
    (pTable : STable) (bytes : Int) (putNull : Bool) (t : List Ev) (h : RowCountInv m)
    (htd : td.numOfRows = tSkipListGetSize td.pData) :
    ∀ m', (tsdbInsertRowToMem_put r m td row pTable bytes putNull t).repo.mem = some m' →
      RowCountInv m' := by
  intro m' hm'
  unfold tsdbInsertRowToMem_put at hm'
  simp only at hm'
  split at hm'
  · rcases tsdbFreeBytes_mem { r with mem := some m } bytes with ⟨h1, _⟩ | ⟨m0, bl, h1, h2⟩
    · cases h1
    · simp only at hm' h1 h2
      cases h1
      rw [h2] at hm'; cases hm'
      exact h
  · next pData hput =>
    simp only at hm'
    cases hm'
    intro x hx
    simp only at hx
    rcases List.mem_or_eq_of_mem_set hx with hx | hx
    · exact h x hx
    · cases hx
      unfold tSkipListPut at hput
      split at hput
      · cases hput
      · cases hput
        simp only [tSkipListGetSize, putOrdered_length] at htd ⊢
        rw [htd]; push_cast; rfl

theorem rowCount_link (r : STsdbRepo) (m : SMemTable) (row : SDataRow) (pTable : STable)
    (bytes : Int) (env : InsertEnv) (t : List Ev) (h : RowCountInv m) :
    ∀ m', (tsdbInsertRowToMem_link r m row pTable bytes env t).repo.mem = some m' →
      RowCountInv m' := by
  intro m' hm'
  have hnew : ∀ td, tsdbNewTableData env.newTableDataNull pTable = some td →
      td.numOfRows = tSkipListGetSize td.pData := by
    intro td htd
    unfold tsdbNewTableData at htd
    split at htd
    · cases htd
    · cases htd; rfl
  have hfree : ∀ m1 : SMemTable, RowCountInv m1 →
      (tsdbFreeBytes { r with mem := some m1 } bytes).mem = some m' → RowCountInv m' := by
    intro m1 h1 hm1
    rcases tsdbFreeBytes_mem { r with mem := some m1 } bytes with ⟨h2, _⟩ | ⟨m0, bl, h2, h3⟩
    · cases h2
    · simp only at h2 h3
      cases h2
      rw [h3] at hm1; cases hm1
      exact h1
  unfold tsdbInsertRowToMem_link at hm'
  split at hm'
  · next td0 hget =>
    split at hm'
    · simp only at hm'
      split at hm'
      · exact hfree _ (rowCount_set_none pTable.tid h) hm'
      · next td htd =>
        exact rowCount_put r _ td row pTable bytes env.putNull _
          (rowCount_set_some pTable.tid td (rowCount_set_none pTable.tid h) (hnew td htd))
          (hnew td htd) m' hm'
    · exact rowCount_put r m td0 row pTable bytes env.putNull t h
        (h td0 (getD_some_mem _ _ _ hget)) m' hm'
  · split at hm'
    · exact hfree m h hm'
    · next td htd =>
      exact rowCount_put r _ td row pTable bytes env.putNull _
        (rowCount_set_some pTable.tid td h (hnew td htd)) (hnew td htd) m' hm'

/-- The part of C1 that the code keeps: in every reachable repository the row count of each
per-table index of the active generation is the element count of its skip list (the
assertion of line 93). -/
theorem index_rows_eq_skiplist_size (cfg : STsdbCfg) (pool : List STsdbBufBlock)
    (r : STsdbRepo) (h : Reachable cfg pool r) (m : SMemTable) (hm : r.mem = some m)
    (td : STableData) (htd : some td ∈ m.tData) :
    td.numOfRows = tSkipListGetSize td.pData :=
  (Reachable.mem_inv RowCountInv cfg pool (rowCount_fresh cfg) rowCount_blocks
    (fun r1 m1 row pTable bytes env t => rowCount_link r1 m1 row pTable bytes env t)
    r h).2 m hm td htd

/-- C1, at a reused table slot: after one row for the table of slot 0 and one row for the
table that took over the slot, the repository is reachable, the generation counts 2 rows, and
its only index counts 1 row: lines 64-67 destroy the index of the dropped table and leave
`pMemTable->numOfRows` as it was. -/
theorem C1_stale_slot_breaks_row_sum :
    Reachable cfgHalf pool3 staleSlotRun ∧
    staleSlotRun.mem.map SMemTable.numOfRows = some 2 ∧
    staleSlotRun.mem.map tableRowsSum = some 1 ∧
    staleSlotRun.mem.map SMemTable.tData =
      some [some ⟨2, 1, 1, 1, [rowAt 1]⟩, none, none, none] :=
  ⟨staleSlotRun_reachable, by decide, by decide, by decide⟩

/-! ## Rows of one table within one generation (C2) -/

theorem commitMem_events (r : STsdbRepo) (env : AllocEnv) :
    ∀ e ∈ (tsdbAllocBytes_commitMem r env).trace, e.isAlloc = true := by
  unfold tsdbAllocBytes_commitMem
  simp only
  repeat' split
  all_goals simp [Flow.trace, Ev.isAlloc]

theorem addBlock_events (r : STsdbRepo) (m : SMemTable) (env : AllocEnv) :
    ∀ e ∈ (tsdbAllocBytes_addBlock r m env).trace, e.isAlloc = true := by
  unfold tsdbAllocBytes_addBlock tsdbAllocBufBlockFromPool
  simp only
  repeat' split
  all_goals simp [Flow.trace, Ev.isAlloc]

theorem ensure_events (r : STsdbRepo) (bytes : Int) (env : AllocEnv) :
    ∀ e ∈ (tsdbAllocBytes_ensure r bytes env).trace, e.isAlloc = true := by
  unfold tsdbAllocBytes_ensure
  split
  · split
    · split
      · exact commitMem_events r env
      · exact addBlock_events r _ env
    · simp [Flow.trace]
  · simp [Flow.trace]

theorem newMem_events (r : STsdbRepo) (t : List Ev) (env : AllocEnv)
    (ht : ∀ e ∈ t, e.isAlloc = true) :
    ∀ e ∈ (tsdbAllocBytes_newMem r t env).trace, e.isAlloc = true := by
  unfold tsdbAllocBytes_newMem tsdbAllocBufBlockFromPool
  simp only
  repeat' split
  all_goals simp only [Flow.trace]
  all_goals first
    | exact ht
    | (intro e he
       rcases List.mem_append.mp he with h | h
       · exact ht e h
       · simp at h
         rcases h with h | h <;> subst h <;> rfl)

/-- A `tsdbAllocBytes` call goes through events of the allocator only. -/
theorem tsdbAllocBytes_events (r : STsdbRepo) (bytes : Int) (env : AllocEnv) :
    ∀ e ∈ (tsdbAllocBytes r bytes env).trace, e.isAlloc = true := by
  apply tsdbAllocBytes_cases r bytes env (fun o => ∀ e ∈ o.trace, e.isAlloc = true)
  · intro o he
    have h := ensure_events r bytes env
    rw [he] at h; exact h
  · intro r1 t1 o he hn
    have h := ensure_events r bytes env
    rw [he] at h
    have h' := newMem_events r1 t1 env h
    rw [hn] at h'; exact h'
  · intro r1 t1 r2 t2 he hn
    have h := ensure_events r bytes env
    rw [he] at h
    have h' := newMem_events r1 t1 env h
    rw [hn] at h'
    rw [(bump_spec r2 bytes t2).2.2.2.1]
    exact h'

theorem indexRows_blocks (m : SMemTable) (bl : List STsdbBufBlock) (pTable : STable) :
    indexRows { m with bufBlockList := bl } pTable = indexRows m pTable := rfl

theorem indexRows_fresh (cfg : STsdbCfg) (bl : List STsdbBufBlock) (pTable : STable) :
    indexRows { freshMem cfg with bufBlockList := bl } pTable = 0 := by
  unfold indexRows freshMem
  simp only [List.getD_eq_getElem?_getD]
  cases h : (List.replicate cfg.maxTables (none : Option STableData))[pTable.tid]? with
  | none => rfl
  | some x =>
    have := List.getElem?_mem h
    rw [List.mem_replicate] at this
    rw [this.2]; rfl

/-- A call that does not swap leaves the row count of the table where it was, as far as the
allocation goes. -/
theorem tsdbAllocBytes_tableNumOfRows (r : STsdbRepo) (bytes : Int) (env : AllocEnv)
    (pTable : STable) (hs : swapped (tsdbAllocBytes r bytes env).trace = false) :
    tableNumOfRows (tsdbAllocBytes r bytes env).repo pTable = tableNumOfRows r pTable := by
  have h := tsdbAllocBytes_spec r bytes env
  simp only at h
  obtain ⟨hkeep, _, hno, _, _⟩ := h
  unfold tableNumOfRows
  cases hm : r.mem with
  | some m =>
    obtain ⟨bl, h1⟩ := hno hs m hm
    rw [h1]
    rfl
  | none =>
    rcases hkeep with h1 | ⟨m, bl, h1, _⟩ | ⟨bl, h1⟩
    · rw [h1]
    · rw [hm] at h1; cases h1
    · rw [h1]
      exact indexRows_fresh _ _ _

/-- The table array of the active generation keeps the length `maxTables` through the
allocation. -/
theorem tsdbAllocBytes_tData_length (r : STsdbRepo) (bytes : Int) (env : AllocEnv)
    (hwf : ∀ m, r.mem = some m → m.tData.length = r.config.maxTables) :
    ∀ m, (tsdbAllocBytes r bytes env).repo.mem = some m →
      m.tData.length = r.config.maxTables := by
  intro m' hm'
  rcases (tsdbAllocBytes_spec r bytes env).1 with h1 | ⟨m, bl, h1, h2⟩ | ⟨bl, h2⟩
  · rw [h1] at hm'; cases hm'
  · rw [h2] at hm'; cases hm'
    exact hwf m h1
  · rw [h2] at hm'; cases hm'
    simp [freshMem]

theorem indexRows_set (m : SMemTable) (pTable : STable) (td : STableData)
    (h : pTable.tid < m.tData.length) (hu : td.uid = pTable.uid) :
    indexRows { m with tData := m.tData.set pTable.tid (some td) } pTable = td.numOfRows := by
  unfold indexRows
  simp [List.getD_eq_getElem?_getD, List.getElem?_set_self, h, hu]

/-- Lines 82-102 for the index of the table itself: the count grows by one exactly when the
node is linked, and then the call returns 0. -/
theorem tsdbInsertRowToMem_put_rows (r : STsdbRepo) (m : SMemTable) (td : STableData)
    (row : SDataRow) (pTable : STable) (bytes : Int) (putNull : Bool) (t : List Ev)
    (hlen : pTable.tid < m.tData.length) (hu : td.uid = pTable.uid)
    (hcur : indexRows m pTable = td.numOfRows) (ht : Ev.link ∉ t) :
    let o := tsdbInsertRowToMem_put r m td row pTable bytes putNull t
    o.ret = .code 0 ∧ swapped o.trace = swapped t ∧
    ∃ m', o.repo.mem = some m' ∧ m'.tData.length = m.tData.length ∧
      indexRows m' pTable = td.numOfRows + (if Ev.link ∈ o.trace then 1 else 0) := by
  unfold tsdbInsertRowToMem_put
  rcases tSkipListPut_cases putNull td.pData row with hp | hp
  · rw [hp]
    simp only []
    refine ⟨trivial, by simp [swapped, Ev.isSwap], ?_⟩
    rcases tsdbFreeBytes_mem { r with mem := some m } bytes with ⟨h1, _⟩ | ⟨m0, bl, h1, h2⟩
    · cases h1
    · simp only at h1 h2
      cases h1
      refine ⟨_, h2, rfl, ?_⟩
      rw [indexRows_blocks, hcur]
      have : Ev.link ∉ t ++ [Ev.putNull] := by simp [ht]
      simp [this]
  · rw [hp]
    simp only []
    refine ⟨trivial, by simp [swapped, Ev.isSwap], _, rfl, by simp, ?_⟩
    have h := indexRows_set
      { m with
        keyFirst := if m.keyFirst > row.key then row.key else m.keyFirst
        keyLast := if m.keyLast < row.key then row.key else m.keyLast
        numOfRows := m.numOfRows + 1
        maxCols := if pTable.schemaNCols > m.maxCols then pTable.schemaNCols else m.maxCols
        maxRowBytes := if pTable.schemaTLen > m.maxRowBytes then pTable.schemaTLen
                       else m.maxRowBytes } pTable
      { td with
        pData := putOrdered row td.pData
        keyFirst := if td.keyFirst > row.key then row.key else td.keyFirst
        keyLast := if td.keyLast < row.key then row.key else td.keyLast
        numOfRows := td.numOfRows + 1 } hlen hu
    simp only at h
    rw [h]
    simp

theorem indexRows_set_none (m : SMemTable) (pTable : STable)
    (h : pTable.tid < m.tData.length) :
    indexRows { m with tData := m.tData.set pTable.tid none } pTable = 0 := by
  unfold indexRows
  simp [List.getD_eq_getElem?_getD, List.getElem?_set_self, h]

/-- Lines 60-102 for the table itself: the row count of its index grows by one exactly
when the node is linked, and then the call returns 0. -/
theorem tsdbInsertRowToMem_link_rows (r : STsdbRepo) (m : SMemTable) (row : SDataRow)
    (pTable : STable) (bytes : Int) (env : InsertEnv) (t : List Ev)
    (hlen : pTable.tid < m.tData.length) (ht : Ev.link ∉ t) :
    let o := tsdbInsertRowToMem_link r m row pTable bytes env t
    (Ev.link ∈ o.trace → o.ret = .code 0) ∧ swapped o.trace = swapped t ∧
    ∃ m', o.repo.mem = some m' ∧ m'.tData.length = m.tData.length ∧
      indexRows m' pTable = indexRows m pTable + (if Ev.link ∈ o.trace then 1 else 0) := by
  have hnew : ∀ td, tsdbNewTableData env.newTableDataNull pTable = some td →
      td.uid = pTable.uid ∧ td.numOfRows = 0 := by
    intro td htd
    unfold tsdbNewTableData at htd
    split at htd
    · cases htd
    · cases htd; exact ⟨rfl, rfl⟩
  have hfree : ∀ (m1 : SMemTable) (t1 : List Ev), Ev.link ∉ t1 → swapped t1 = swapped t →
      m1.tData.length = m.tData.length → indexRows m1 pTable = indexRows m pTable →
      let o : InsertOut := ⟨.code (-1), tsdbFreeBytes { r with mem := some m1 } bytes, t1⟩
      (Ev.link ∈ o.trace → o.ret = .code 0) ∧ swapped o.trace = swapped t ∧
      ∃ m', o.repo.mem = some m' ∧ m'.tData.length = m.tData.length ∧
        indexRows m' pTable = indexRows m pTable + (if Ev.link ∈ o.trace then 1 else 0) := by
    intro m1 t1 h1 h2 h3 h4
    simp only
    refine ⟨fun h => absurd h h1, h2, ?_⟩
    rcases tsdbFreeBytes_mem { r with mem := some m1 } bytes with ⟨h5, _⟩ | ⟨m0, bl, h5, h6⟩
    · cases h5
    · simp only at h5 h6
      cases h5
      refine ⟨_, h6, h3, ?_⟩
      rw [indexRows_blocks, h4]
      simp [h1]
  unfold tsdbInsertRowToMem_link
  simp only
  split
  · next td0 hget =>
    have hcur : indexRows m pTable = if td0.uid = pTable.uid then td0.numOfRows else 0 := by
      unfold indexRows; rw [hget]
    split
    · next hne =>
      have hne' : ¬ td0.uid = pTable.uid := hne
      rw [if_neg hne'] at hcur
      split
      · apply hfree
        · simp [ht]
        · simp [swapped, Ev.isSwap]
        · simp
        · rw [hcur]; exact indexRows_set_none m pTable hlen
      · next td htd =>
        obtain ⟨hu, h0⟩ := hnew td htd
        have hlen1 : pTable.tid < (m.tData.set pTable.tid none).length := by simpa using hlen
        have hp := tsdbInsertRowToMem_put_rows r
          { m with tData := (m.tData.set pTable.tid none).set pTable.tid (some td) } td row
          pTable bytes env.putNull (t ++ [Ev.dropIndex, Ev.newIndex]) (by simpa using hlen) hu
          (indexRows_set { m with tData := m.tData.set pTable.tid none } pTable td hlen1 hu)
          (by simp [ht])
        simp only at hp
        obtain ⟨h1, h2, m', h3, h4, h5⟩ := hp
        refine ⟨fun _ => h1, ?_, m', h3, ?_, ?_⟩
        · rw [h2]; simp [swapped, Ev.isSwap]
        · rw [h4]; simp
        · rw [h5, hcur, h0]
    · next heq =>
      have heq' : td0.uid = pTable.uid := by
        by_contra hc; exact heq hc
      rw [if_pos heq'] at hcur
      have hp := tsdbInsertRowToMem_put_rows r m td0 row pTable bytes env.putNull t hlen heq'
        hcur ht
      simp only at hp
      obtain ⟨h1, h2, m', h3, h4, h5⟩ := hp
      exact ⟨fun _ => h1, h2, m', h3, h4, by rw [h5, hcur]⟩
  · next hget =>
    have hcur : indexRows m pTable = 0 := by
      unfold indexRows; rw [hget]
    split
    · exact hfree m t ht rfl rfl rfl
    · next td htd =>
      obtain ⟨hu, h0⟩ := hnew td htd
      have hp := tsdbInsertRowToMem_put_rows r
        { m with tData := m.tData.set pTable.tid (some td) } td row
        pTable bytes env.putNull (t ++ [Ev.newIndex]) (by simpa using hlen) hu
        (indexRows_set m pTable td hlen hu) (by simp [ht])
      simp only at hp
      obtain ⟨h1, h2, m', h3, h4, h5⟩ := hp
      refine ⟨fun _ => h1, ?_, m', h3, ?_, ?_⟩
      · rw [h2]; simp [swapped, Ev.isSwap]
      · rw [h4]; simp
      · rw [h5, hcur, h0]

/-- One call that does not swap: the row count of the table grows by one exactly when the
node is linked, and a call that linked its node returned 0. -/
theorem tsdbInsertRowToMem_rows (r : STsdbRepo) (row : SDataRow) (pTable : STable)
    (env : InsertEnv) (hslot : pTable.tid < r.config.maxTables)
    (hwf : ∀ m, r.mem = some m → m.tData.length = r.config.maxTables)
    (hs : swapped (tsdbInsertRowToMem r row pTable env).trace = false) :
    tableNumOfRows (tsdbInsertRowToMem r row pTable env).repo pTable =
      tableNumOfRows r pTable +
        (if Ev.link ∈ (tsdbInsertRowToMem r row pTable env).trace then 1 else 0) ∧
    (Ev.link ∈ (tsdbInsertRowToMem r row pTable env).trace →
      (tsdbInsertRowToMem r row pTable env).ret = .code 0) ∧
    (∀ m, (tsdbInsertRowToMem r row pTable env).repo.mem = some m →
      m.tData.length = r.config.maxTables) := by
  have hev := tsdbAllocBytes_events r (env.headSize + row.len) env.alloc
  have hnolink : Ev.link ∉ (tsdbAllocBytes r (env.headSize + row.len) env.alloc).trace := by
    intro h
    have := hev _ h
    simp [Ev.isAlloc] at this
  have hlen := tsdbAllocBytes_tData_length r (env.headSize + row.len) env.alloc hwf
  have hrows := tsdbAllocBytes_tableNumOfRows r (env.headSize + row.len) env.alloc pTable
  rcases tsdbInsertRowToMem_eq r row pTable env with ⟨he, _⟩ | ⟨he, _⟩ | ⟨pm, i, off, hm, _, he⟩
  · rw [he] at hs ⊢
    simp only at hs ⊢
    exact ⟨by rw [hrows hs]; simp [hnolink], fun h => absurd h hnolink, hlen⟩
  · rw [he] at hs ⊢
    simp only at hs ⊢
    exact ⟨by rw [hrows hs]; simp [hnolink], fun h => absurd h hnolink, hlen⟩
  · rw [he] at hs ⊢
    have hl := tsdbInsertRowToMem_link_rows
      (tsdbAllocBytes r (env.headSize + row.len) env.alloc).repo pm row pTable
      (env.headSize + row.len) env
      (tsdbAllocBytes r (env.headSize + row.len) env.alloc).trace
      (by rw [hlen pm hm]; exact hslot) hnolink
    simp only at hl
    obtain ⟨h1, h2, m', h3, h4, h5⟩ := hl
    rw [h2] at hs
    refine ⟨?_, h1, ?_⟩
    · have := hrows hs
      unfold tableNumOfRows at this ⊢
      rw [hm] at this
      simp only at this
      rw [h3]
      simp only
      rw [h5, this]
    · intro m hm2
      rw [h3] at hm2; cases hm2
      rw [h4]; exact hlen pm hm

/-- The amended C2.  For every sequence of `tsdbInsertRowToMem` calls for one table within one
generation (no call of the sequence swaps), the row count of the index of the table grows by
the number of calls that linked their node into the index; each of these calls returned 0.  (A
call whose `tSkipListPut` returned `NULL` returns 0 as well and is not counted.) -/
theorem C2_row_count_counts_linked_nodes (pTable : STable) (r : STsdbRepo)
    (calls : List (SDataRow × InsertEnv)) (hslot : pTable.tid < r.config.maxTables)
    (hwf : ∀ m, r.mem = some m → m.tData.length = r.config.maxTables)
    (hgen : ∀ o ∈ (insertRows pTable r calls).2, swapped o.trace = false) :
    tableNumOfRows (insertRows pTable r calls).1 pTable =
      tableNumOfRows r pTable +
        ((insertRows pTable r calls).2.countP (fun o => decide (Ev.link ∈ o.trace)) : Nat) ∧
    ∀ o ∈ (insertRows pTable r calls).2, Ev.link ∈ o.trace → o.ret = .code 0 := by
  induction calls generalizing r with
  | nil => simp [insertRows]
  | cons c rest ih =>
    obtain ⟨row, env⟩ := c
    simp only [insertRows, List.mem_cons, forall_eq_or_imp] at hgen ⊢
    obtain ⟨h0, hrest⟩ := hgen
    have hone := tsdbInsertRowToMem_rows r row pTable env hslot hwf h0
    simp only at hone
    obtain ⟨h1, h2, h3⟩ := hone
    have hcfg := tsdbInsertRowToMem_config r row pTable env
    have ih' := ih (tsdbInsertRowToMem r row pTable env).repo (by rw [hcfg]; exact hslot)
      (by rw [hcfg]; exact h3) hrest
    obtain ⟨i1, i2⟩ := ih'
    refine ⟨?_, h2, i2⟩
    rw [i1, h1, List.countP_cons]
    by_cases hl : Ev.link ∈ (tsdbInsertRowToMem r row pTable env).trace
    · simp [hl]; ring
    · simp [hl]

/-- The amended C2 at the rows with timestamps 3, 1, 4, 1, 5 put into an empty repository:
the index of the table counts 5 rows. -/
theorem C2_row_count_counts_linked_nodes_witness :
    tableNumOfRows (insertRows tableT (emptyRepo cfgHalf pool3) fiveRows).1 tableT = 0 + 5 ∧
    ∀ o ∈ (insertRows tableT (emptyRepo cfgHalf pool3) fiveRows).2,
      Ev.link ∈ o.trace → o.ret = .code 0 :=
  C2_row_count_counts_linked_nodes tableT (emptyRepo cfgHalf pool3) fiveRows (by decide)
    (by intro m hm; cases hm) (by decide)

/-- C2 as stated fails: of two calls for one table within one generation, with the same
timestamp, both return 0, and the index counts one row, because the put of the second call
was rejected (lines 82-83). -/
theorem C2_rejected_put_returns_success :
    (∀ o ∈ (insertRows tableT (emptyRepo cfgHalf pool3) rejectedPutCalls).2,
      swapped o.trace = false) ∧
    (insertRows tableT (emptyRepo cfgHalf pool3) rejectedPutCalls).2.map InsertOut.ret =
      [.code 0, .code 0] ∧
    tableNumOfRows (insertRows tableT (emptyRepo cfgHalf pool3) rejectedPutCalls).1 tableT = 1 :=
  ⟨by decide, by decide, by decide⟩

/-! ## Key range of the generation (C3) -/

/-- C3, at a negative timestamp: one row with timestamp -5 is put into an empty repository;
the call returns 0 and links the node; the generation then has `keyFirst = -5` and
`keyLast = 0`, which is not the largest inserted timestamp: `tsdbNewMemTable` starts `keyLast`
at 0 (line 242) and line 86 only ever raises it. -/
theorem C3_negative_timestamp_keyLast_is_zero :
    isInt64 (rowAt (-5)).key ∧
    negativeKeyOut.ret = .code 0 ∧ Ev.link ∈ negativeKeyOut.trace ∧
    negativeKeyOut.repo.mem.map SMemTable.keyFirst = some (-5) ∧
    negativeKeyOut.repo.mem.map SMemTable.keyLast = some 0 :=
  ⟨by decide, by decide, by decide, by decide, by decide⟩

/-- The scenario of C3 with timestamps 3, 1, 4, 1, 5: the generation has `keyFirst = 1` and
`keyLast = 5`. -/
theorem fiveRows_key_range :
    (insertRows tableT (emptyRepo cfgHalf pool3) fiveRows).1.mem.map SMemTable.keyFirst =
      some 1 ∧
    (insertRows tableT (emptyRepo cfgHalf pool3) fiveRows).1.mem.map SMemTable.keyLast =
      some 5 :=
  ⟨by decide, by decide⟩

/-! ## Ownership of the blocks (C5) -/

theorem oneBlockRun_reachable : Reachable cfgHalf pool3 oneBlockRun :=
  Reachable.insert _ (bigRowAt 1) tableT (InsertEnv.ok 8) Reachable.init (by decide) (by decide)

theorem swapOut_reachable : Reachable cfgHalf pool3 swapOut.repo :=
  Reachable.insert _ (bigRowAt 2) tableT (InsertEnv.ok 8) oneBlockRun_reachable (by decide)
    (by decide)

theorem failedCommitRun_reachable : Reachable cfgHalf pool3 failedCommitRun :=
  Reachable.commitDone _ itersNullEnv swapOut_reachable (by decide)

/-- C5, at a swap whose `pthread_create` fails while the immutable slot is still taken: before
the call the three blocks are in the pool (2), the active generation (1) and the immutable
generation (0); the call takes the branch of line 166, overwrites the immutable slot at line
180 and returns `NULL` at line 188; block 0 is then in none of the three lists. -/
theorem C5_failed_spawn_orphans_block :
    Reachable cfgHalf pool3 failedCommitRun ∧
    ownedBlockIds failedCommitRun = [2, 1, 0] ∧
    lostBlockOut.ret = .code (-1) ∧
    lostBlockOut.trace = [Ev.needCommit, Ev.join, Ev.swap true 1] ∧
    ownedBlockIds lostBlockOut.repo = [2, 1] ∧
    0 ∉ ownedBlockIds lostBlockOut.repo :=
  ⟨failedCommitRun_reachable, by decide, by decide, by decide, by decide, by decide⟩

/-! ## The swap and the commit task (C9) -/

/-- C9, behind a commit task that ended at line 345: the repository is reachable, its commit
task has ended, and the next call that takes the branch of line 166 runs the assignments of
lines 180-182 with the immutable slot still taken and `commit` still 1. -/
theorem C9_swap_with_immutable_present :
    Reachable cfgHalf pool3 failedCommitRun ∧
    failedCommitRun.commitThread = false ∧
    failedCommitRun.imem.isSome = true ∧ failedCommitRun.commit = 1 ∧
    Ev.swap true 1 ∈ secondSwapOut.trace ∧
    swapOut.trace = [Ev.needCommit, Ev.swap false 0, Ev.spawn, Ev.acquire 1, Ev.newMem,
      Ev.newIndex, Ev.link] :=
  ⟨failedCommitRun_reachable, by decide, by decide, by decide, by decide, by decide⟩

/-! ## The swap branch (C6, C7, C8) -/

/-- With the tail block too small and the active generation at half the budget, the first
stage is the branch of line 166. -/
theorem ensure_eq_commitMem (r : STsdbRepo) (bytes : Int) (env : AllocEnv) (m : SMemTable)
    (b : STsdbBufBlock) (hm : r.mem = some m) (hb : tsdbGetCurrBufBlock r = some b)
    (hlt : b.remain < bytes)
    (hhalf : Int.tdiv r.config.totalBlocks 2 ≤ (m.bufBlockList.length : Int)) :
    tsdbAllocBytes_ensure r bytes env = tsdbAllocBytes_commitMem r env := by
  unfold tsdbAllocBytes_ensure
  rw [hm, hb]
  simp only [hlt, hhalf, if_true]

/-- With the tail block too small and the active generation below half the budget, the first
stage is the acquisition of one more block. -/
theorem ensure_eq_addBlock (r : STsdbRepo) (bytes : Int) (env : AllocEnv) (m : SMemTable)
    (b : STsdbBufBlock) (hm : r.mem = some m) (hb : tsdbGetCurrBufBlock r = some b)
    (hlt : b.remain < bytes)
    (hhalf : ¬ Int.tdiv r.config.totalBlocks 2 ≤ (m.bufBlockList.length : Int)) :
    tsdbAllocBytes_ensure r bytes env = tsdbAllocBytes_addBlock r m env := by
  unfold tsdbAllocBytes_ensure
  rw [hm, hb]
  simp only [hlt, hhalf, if_true, if_false]

/-- C8, what the code does: for every call of `tsdbAllocBytes` that takes the swap branch
(tail block too small, active generation at half the budget or more, join and lock succeed)
and whose `pthread_create` fails, the call returns `NULL`, the active slot is empty, the
immutable slot holds the generation that was active, and the `commit` flag is 1: line 182
sets it and the error path of lines 184-189 does not clear it. -/
theorem C8_failed_spawn_leaves_commit_flag_set (r : STsdbRepo) (bytes : Int) (env : AllocEnv)
    (m : SMemTable) (b : STsdbBufBlock) (hm : r.mem = some m)
    (hb : tsdbGetCurrBufBlock r = some b) (hlt : b.remain < bytes)
    (hhalf : Int.tdiv r.config.totalBlocks 2 ≤ (m.bufBlockList.length : Int))
    (hjoin : r.imem.isSome = true → env.joinCode = 0) (hlock : env.lockSwap = false)
    (hcreate : env.createCode ≠ 0) :
    (tsdbAllocBytes r bytes env).ret = .null ∧ (tsdbAllocBytes r bytes env).repo.commit = 1 ∧
    (tsdbAllocBytes r bytes env).repo.mem = none ∧
    (tsdbAllocBytes r bytes env).repo.imem = some m := by
  unfold tsdbAllocBytes
  rw [ensure_eq_commitMem r bytes env m b hm hb hlt hhalf]
  unfold tsdbAllocBytes_commitMem
  have hj : ¬ (r.imem.isSome = true ∧ env.joinCode ≠ 0) := fun h => h.2 (hjoin h.1)
  simp only [hj, hlock, hcreate, if_false, if_true, ne_eq, not_false_eq_true,
    Bool.false_eq_true]
  refine ⟨trivial, trivial, trivial, ?_⟩
  split
  · rw [tsdbCommitData_mem, hm]
  · exact hm

/-- C8 at `oneBlockRun` with a request of 60 bytes and `pthread_create` failing with 11: the
call returns `NULL` and leaves `commit = 1`. -/
theorem C8_failed_spawn_leaves_commit_flag_set_witness :
    (tsdbAllocBytes oneBlockRun 60 spawnFailsEnv.alloc).ret = .null ∧
    (tsdbAllocBytes oneBlockRun 60 spawnFailsEnv.alloc).repo.commit = 1 ∧
    (tsdbAllocBytes oneBlockRun 60 spawnFailsEnv.alloc).repo.mem = none ∧
    (tsdbAllocBytes oneBlockRun 60 spawnFailsEnv.alloc).repo.imem = some oneBlockGen :=
  C8_failed_spawn_leaves_commit_flag_set oneBlockRun 60 spawnFailsEnv.alloc oneBlockGen
    ⟨0, 60, 40⟩ (by decide) (by decide) (by decide) (by decide) (by decide) (by decide)
    (by decide)

/-- The branch of line 166 either returns `NULL` or falls through behind a swap and a
successful `pthread_create`. -/
theorem commitMem_flow (r : STsdbRepo) (env : AllocEnv) :
    (∃ r1 t1, tsdbAllocBytes_commitMem r env = .ret ⟨.null, r1, t1⟩) ∨
    ∃ r1 t1, tsdbAllocBytes_commitMem r env = .next r1 t1 ∧ r1.mem = none ∧
      r1.imem = r.mem ∧ r1.commit = 1 ∧ r1.config = r.config ∧ r1.commitThread = true ∧
      Ev.spawn ∈ t1 := by
  unfold tsdbAllocBytes_commitMem
  simp only
  repeat' split
  all_goals simp [tsdbCommitData_mem, tsdbCommitData_config]
  all_goals exact ⟨_, _, ⟨rfl, rfl⟩, rfl, rfl, rfl, rfl, rfl, by simp⟩

/-- Lines 201-215 with an empty active slot: the stage returns `NULL` or waits with the
repository untouched, or it installs a new generation around the head block of the pool and
then falls through, or returns `NULL` when the unlock fails. -/
theorem newMem_flow (r : STsdbRepo) (t : List Ev) (env : AllocEnv) (hm : r.mem = none) :
    tsdbAllocBytes_newMem r t env = .ret ⟨.null, r, t⟩ ∨
    tsdbAllocBytes_newMem r t env = .ret ⟨.waiting, r, t⟩ ∨
    ∃ nb rest, r.pPool = nb :: rest ∧
      (tsdbAllocBytes_newMem r t env =
          .next { r with pPool := rest,
                         mem := some { freshMem r.config with
                                      bufBlockList := [clearedBlock nb] } }
                (t ++ [Ev.acquire nb.blockId, Ev.newMem]) ∨
        tsdbAllocBytes_newMem r t env =
          .ret ⟨.null, { r with pPool := rest,
                                mem := some { freshMem r.config with
                                      bufBlockList := [clearedBlock nb] } },
                t ++ [Ev.acquire nb.blockId, Ev.newMem]⟩) := by
  unfold tsdbAllocBytes_newMem tsdbAllocBufBlockFromPool
  rw [hm, tsdbNewMemTable_eq]
  simp only
  cases env.newMemTableNull with
  | true => simp
  | false =>
    simp only [Bool.false_eq_true, if_false]
    cases env.lockInstall with
    | true => simp
    | false =>
      simp only [Bool.false_eq_true, if_false]
      cases hp : r.pPool with
      | nil => simp
      | cons nb rest =>
        simp only
        cases env.unlockInstall with
        | true => exact Or.inr (Or.inr ⟨nb, rest, rfl, Or.inr rfl⟩)
        | false => exact Or.inr (Or.inr ⟨nb, rest, rfl, Or.inl rfl⟩)

/-- The branch of line 166 behind a successful `pthread_create`: the active slot is empty,
the immutable slot holds the generation that was active, the flag is 1, and the stage
returns `NULL` or falls through. -/
theorem commitMem_spawn (r : STsdbRepo) (env : AllocEnv)
    (h : Ev.spawn ∈ (tsdbAllocBytes_commitMem r env).trace) :
    (tsdbAllocBytes_commitMem r env).repo.mem = none ∧
    (tsdbAllocBytes_commitMem r env).repo.imem = r.mem ∧
    (tsdbAllocBytes_commitMem r env).repo.commit = 1 ∧
    (tsdbAllocBytes_commitMem r env).repo.commitThread = true := by
  revert h
  unfold tsdbAllocBytes_commitMem
  simp only
  repeat' split
  all_goals simp [Flow.trace, Flow.repo, tsdbCommitData_mem]

/-- The amended C6.  For every call of `tsdbAllocBytes` that takes the swap branch (tail block
too small, active generation at half the budget or more).  A call that returns a region has
spawned the commit task, and its active slot holds a new generation (no rows, no index) with
exactly one block, taken from the pool and cleared, at whose start the returned region lies.
Every call in which `pthread_create` succeeds leaves the generation that was active in the
immutable slot and the `commit` flag at 1; when it returns no region it returns `NULL` or
waits for a block, and the active slot is empty, except when the failing step is the unlock
of line 214: then the new generation is installed already, around a cleared block. -/
theorem C6_swap_installs_new_generation (r : STsdbRepo) (bytes : Int) (env : AllocEnv)
    (m : SMemTable) (b : STsdbBufBlock) (hm : r.mem = some m)
    (hb : tsdbGetCurrBufBlock r = some b) (hlt : b.remain < bytes)
    (hhalf : Int.tdiv r.config.totalBlocks 2 ≤ (m.bufBlockList.length : Int)) :
    (∀ i off, (tsdbAllocBytes r bytes env).ret = .ptr i off →
      Ev.spawn ∈ (tsdbAllocBytes r bytes env).trace ∧
      ∃ nb : STsdbBufBlock, Ev.acquire nb.blockId ∈ (tsdbAllocBytes r bytes env).trace ∧
        (tsdbAllocBytes r bytes env).repo.mem =
          some { freshMem r.config with
                 bufBlockList := [{ nb with offset := nb.offset + bytes,
                                            remain := nb.remain - bytes }] } ∧
        i = nb.blockId ∧ off = nb.offset ∧ nb.offset = 0) ∧
    (Ev.spawn ∈ (tsdbAllocBytes r bytes env).trace →
      (tsdbAllocBytes r bytes env).repo.imem = some m ∧
      (tsdbAllocBytes r bytes env).repo.commit = 1 ∧
      (tsdbAllocBytes r bytes env).repo.commitThread = true ∧
      ((∀ i off, (tsdbAllocBytes r bytes env).ret ≠ .ptr i off) →
        ((tsdbAllocBytes r bytes env).ret = .null ∨
          (tsdbAllocBytes r bytes env).ret = .waiting) ∧
        ((tsdbAllocBytes r bytes env).repo.mem = none ∨
          (env.unlockInstall = true ∧ (tsdbAllocBytes r bytes env).ret = .null ∧
            ∃ nb : STsdbBufBlock, Ev.acquire nb.blockId ∈ (tsdbAllocBytes r bytes env).trace ∧
              nb.offset = 0 ∧
              (tsdbAllocBytes r bytes env).repo.mem =
                some { freshMem r.config with bufBlockList := [nb] })))) := by
  unfold tsdbAllocBytes
  rw [ensure_eq_commitMem r bytes env m b hm hb hlt hhalf]
  rcases commitMem_flow r env with ⟨r1, t1, h1⟩ | ⟨r1, t1, h1, hmem, himem, hc, hcfg, hth, hsp⟩
  · have hs := commitMem_spawn r env
    rw [h1] at hs ⊢
    simp only [Flow.trace, Flow.repo] at hs ⊢
    refine ⟨(fun i off h => by cases h), fun hspawn => ?_⟩
    obtain ⟨a1, a2, a3, a4⟩ := hs hspawn
    exact ⟨by rw [a2, hm], a3, a4, fun _ => ⟨Or.inl trivial, Or.inl a1⟩⟩
  · rw [h1]
    simp only
    rcases newMem_flow r1 t1 env hmem with h2 | h2 | ⟨nb, rest, hp, h2 | h2⟩
    · rw [h2]
      simp only
      exact ⟨(fun i off h => by cases h), fun _ =>
        ⟨by rw [himem, hm], hc, hth, fun _ => ⟨Or.inl trivial, Or.inl hmem⟩⟩⟩
    · rw [h2]
      simp only
      exact ⟨(fun i off h => by cases h), fun _ =>
        ⟨by rw [himem, hm], hc, hth, fun _ => ⟨Or.inr trivial, Or.inl hmem⟩⟩⟩
    · rw [h2]
      simp only [tsdbAllocBytes_bump, List.getLast?_singleton, List.dropLast_single,
        List.nil_append]
      refine ⟨fun i off h => ?_, fun _ => ⟨by rw [himem, hm], hc, hth, fun hno => ?_⟩⟩
      · cases h
        refine ⟨by simp [hsp], clearedBlock nb, by simp [clearedBlock], ?_, rfl, rfl, rfl⟩
        rw [hcfg]
      · exact absurd rfl (hno _ _)
    · rw [h2]
      simp only
      refine ⟨(fun i off h => by cases h), fun _ =>
        ⟨by rw [himem, hm], hc, hth, fun _ => ⟨Or.inl trivial, Or.inr ?_⟩⟩⟩
      unfold tsdbAllocBytes_newMem tsdbAllocBufBlockFromPool at h2
      rw [hmem, tsdbNewMemTable_eq, hp] at h2
      have hu : env.unlockInstall = true := by
        revert h2
        cases env.newMemTableNull <;> cases env.lockInstall <;> cases env.unlockInstall <;>
          simp
      exact ⟨hu, trivial, clearedBlock nb, by simp [clearedBlock], rfl, by rw [hcfg]⟩

/-- The amended C6 at `oneBlockRun` with a request of 60 bytes: the region is the start of
block 1, the immutable slot holds the generation that was active, the flag is 1; with the
unlock of line 214 failing the call returns `NULL` and the new generation around block 1 is
installed. -/
theorem C6_swap_installs_new_generation_witness :
    (tsdbAllocBytes oneBlockRun 60 AllocEnv.ok).ret = .ptr 1 0 ∧
    Ev.spawn ∈ (tsdbAllocBytes oneBlockRun 60 AllocEnv.ok).trace ∧
    (tsdbAllocBytes oneBlockRun 60 AllocEnv.ok).repo.mem =
      some { freshMem cfgHalf with bufBlockList := [⟨1, 60, 40⟩] } ∧
    (tsdbAllocBytes oneBlockRun 60 AllocEnv.ok).repo.imem = some oneBlockGen ∧
    (tsdbAllocBytes oneBlockRun 60 AllocEnv.ok).repo.commit = 1 ∧
    (tsdbAllocBytes oneBlockRun 60 AllocEnv.ok).repo.commitThread = true ∧
    (tsdbAllocBytes oneBlockRun 60 unlockInstallFailsEnv).ret = .null ∧
    (tsdbAllocBytes oneBlockRun 60 unlockInstallFailsEnv).repo.mem =
      some { freshMem cfgHalf with bufBlockList := [⟨1, 0, 100⟩] } ∧
    (tsdbAllocBytes oneBlockRun 60 unlockInstallFailsEnv).repo.imem = some oneBlockGen :=
  have h := C6_swap_installs_new_generation oneBlockRun 60 AllocEnv.ok oneBlockGen ⟨0, 60, 40⟩
    (by decide) (by decide) (by decide) (by decide)
  have h2 := C6_swap_installs_new_generation oneBlockRun 60 unlockInstallFailsEnv oneBlockGen
    ⟨0, 60, 40⟩ (by decide) (by decide) (by decide) (by decide)
  ⟨by decide, (h.1 1 0 (by decide)).1, by decide, (h.2 (h.1 1 0 (by decide)).1).1,
    (h.2 (h.1 1 0 (by decide)).1).2.1, (h.2 (h.1 1 0 (by decide)).1).2.2.1, by decide,
    by decide, (h2.2 (by decide)).1⟩

/-- C6 as stated fails: the call takes the swap branch and `pthread_create` succeeds, then
`tsdbNewMemTable` returns `NULL` (lines 202-203); the call returns `NULL` and the active slot
is empty. -/
theorem C6_swap_without_new_generation :
    (tsdbAllocBytes oneBlockRun 60 newMemFailsEnv).trace =
      [Ev.needCommit, Ev.swap false 0, Ev.spawn] ∧
    (tsdbAllocBytes oneBlockRun 60 newMemFailsEnv).ret = .null ∧
    (tsdbAllocBytes oneBlockRun 60 newMemFailsEnv).repo.mem = none ∧
    (tsdbAllocBytes oneBlockRun 60 newMemFailsEnv).repo.imem = some oneBlockGen :=
  ⟨by decide, by decide, by decide, by decide⟩
/-- The branch of line 166 runs the assignments of lines 180-182 exactly when the join (if
there is an immutable generation) and the lock succeed. -/
theorem commitMem_swapped_iff (r : STsdbRepo) (env : AllocEnv) :
    swapped (tsdbAllocBytes_commitMem r env).trace = true ↔
      (r.imem.isSome = true → env.joinCode = 0) ∧ env.lockSwap = false := by
  unfold tsdbAllocBytes_commitMem
  simp only
  repeat' split
  all_goals simp_all [Flow.trace, swapped, Ev.isSwap]

/-- The events `needCommit` and `swap` of a call are those of its first stage. -/
theorem tsdbAllocBytes_trace_ensure (r : STsdbRepo) (bytes : Int) (env : AllocEnv) :
    (Ev.needCommit ∈ (tsdbAllocBytes r bytes env).trace ↔
      Ev.needCommit ∈ (tsdbAllocBytes_ensure r bytes env).trace) ∧
    swapped (tsdbAllocBytes r bytes env).trace =
      swapped (tsdbAllocBytes_ensure r bytes env).trace := by
  apply tsdbAllocBytes_cases r bytes env (fun o =>
    (Ev.needCommit ∈ o.trace ↔ Ev.needCommit ∈ (tsdbAllocBytes_ensure r bytes env).trace) ∧
    swapped o.trace = swapped (tsdbAllocBytes_ensure r bytes env).trace)
  · intro o he
    rw [he]; exact ⟨Iff.rfl, rfl⟩
  · intro r1 t1 o he hn
    have h := newMem_spec r1 t1 env
    simp only [hn, Flow.trace] at h
    rw [he]
    exact ⟨h.2.2.2.2.1, h.2.2.2.1⟩
  · intro r1 t1 r2 t2 he hn
    have h := newMem_spec r1 t1 env
    simp only [hn, Flow.trace] at h
    rw [he, (bump_spec r2 bytes t2).2.2.2.1]
    exact ⟨h.2.2.2.2.1, h.2.2.2.1⟩

/-- The amended C7.  For every call of `tsdbAllocBytes` in which the remaining capacity of
the tail block is smaller than the request, with `n` the number of blocks of the active
generation and `T = totalBlocks`: the call takes the swap branch if and only if
`n >= T / 2` in the integer division of C, which for `T >= 0` is `T <= 2 * n + 1`; in that
branch it swaps exactly when the join and the lock succeed.  Otherwise it does not swap and
leaves the immutable slot and the flag alone, and, once it holds the lock and the pool has a
free block, exactly the head block of the pool is moved behind the blocks of the active
generation. -/
theorem C7_swap_iff_half_of_budget (r : STsdbRepo) (bytes : Int) (env : AllocEnv)
    (m : SMemTable) (b : STsdbBufBlock) (hm : r.mem = some m)
    (hb : tsdbGetCurrBufBlock r = some b) (hlt : b.remain < bytes) :
    (Ev.needCommit ∈ (tsdbAllocBytes r bytes env).trace ↔
      Int.tdiv r.config.totalBlocks 2 ≤ (m.bufBlockList.length : Int)) ∧
    (0 ≤ r.config.totalBlocks →
      (Ev.needCommit ∈ (tsdbAllocBytes r bytes env).trace ↔
        r.config.totalBlocks ≤ 2 * (m.bufBlockList.length : Int) + 1)) ∧
    (Ev.needCommit ∈ (tsdbAllocBytes r bytes env).trace →
      (swapped (tsdbAllocBytes r bytes env).trace = true ↔
        (r.imem.isSome = true → env.joinCode = 0) ∧ env.lockSwap = false)) ∧
    (Ev.needCommit ∉ (tsdbAllocBytes r bytes env).trace →
      swapped (tsdbAllocBytes r bytes env).trace = false ∧
      (tsdbAllocBytes r bytes env).repo.imem = r.imem ∧
      (tsdbAllocBytes r bytes env).repo.commit = r.commit ∧
      (env.lockAcquire = false → ∀ nb rest, r.pPool = nb :: rest →
        (tsdbAllocBytes r bytes env).repo.pPool = rest ∧
        ∃ bl, (tsdbAllocBytes r bytes env).repo.mem = some { m with bufBlockList := bl } ∧
          bl.map STsdbBufBlock.blockId =
            m.bufBlockList.map STsdbBufBlock.blockId ++ [nb.blockId])) := by
  have htr := tsdbAllocBytes_trace_ensure r bytes env
  have hiff : Ev.needCommit ∈ (tsdbAllocBytes r bytes env).trace ↔
      Int.tdiv r.config.totalBlocks 2 ≤ (m.bufBlockList.length : Int) := by
    rw [htr.1]
    by_cases hhalf : Int.tdiv r.config.totalBlocks 2 ≤ (m.bufBlockList.length : Int)
    · rw [ensure_eq_commitMem r bytes env m b hm hb hlt hhalf]
      exact ⟨fun _ => hhalf, fun _ => (commitMem_spec r env).1⟩
    · rw [ensure_eq_addBlock r bytes env m b hm hb hlt hhalf]
      exact ⟨fun h => absurd h (addBlock_spec r m env hm).2.2.2.2.1, fun h => absurd h hhalf⟩
  refine ⟨hiff, ?_, ?_, ?_⟩
  · intro hT
    rw [hiff, Int.tdiv_eq_ediv hT (by decide)]
    omega
  · intro hn
    rw [htr.2, ensure_eq_commitMem r bytes env m b hm hb hlt (hiff.mp hn)]
    exact commitMem_swapped_iff r env
  · intro hn
    have hhalf : ¬ Int.tdiv r.config.totalBlocks 2 ≤ (m.bufBlockList.length : Int) :=
      fun h => hn (hiff.mpr h)
    have hspec := tsdbAllocBytes_spec r bytes env
    simp only at hspec
    obtain ⟨_, _, _, hno, _⟩ := hspec
    have hadd := addBlock_spec r m env hm
    simp only at hadd
    refine ⟨?_, (hno hn).1, (hno hn).2, ?_⟩
    · rw [htr.2, ensure_eq_addBlock r bytes env m b hm hb hlt hhalf]
      exact hadd.2.2.2.1
    · intro hlock nb rest hp
      unfold tsdbAllocBytes
      rw [ensure_eq_addBlock r bytes env m b hm hb hlt hhalf]
      unfold tsdbAllocBytes_addBlock tsdbAllocBufBlockFromPool
      rw [hp]
      simp only [hlock, Bool.false_eq_true, if_false]
      cases env.unlockAcquire with
      | true =>
        simp only [if_true]
        exact ⟨trivial, _, rfl, by simp [clearedBlock]⟩
      | false =>
        simp only [Bool.false_eq_true, if_false, tsdbAllocBytes_newMem, tsdbAllocBytes_bump,
          List.getLast?_concat, List.dropLast_concat]
        exact ⟨trivial, _, rfl, by simp [clearedBlock]⟩

/-- The amended C7 at the scenario of the claim: with a budget of 4 blocks, 2 blocks in
the active generation and a tail block too small for the request, the call takes the swap
branch. -/
theorem C7_swap_iff_half_of_budget_witness :
    twoBlocksRun.config.totalBlocks = 4 ∧ twoBlocksGen.bufBlockList.length = 2 ∧
    Ev.needCommit ∈ (tsdbAllocBytes twoBlocksRun 60 AllocEnv.ok).trace :=
  ⟨by decide, by decide,
   (C7_swap_iff_half_of_budget twoBlocksRun 60 AllocEnv.ok twoBlocksGen ⟨1, 60, 40⟩
     (by decide) (by decide) (by decide)).1.mpr (by decide)⟩

/-- C7 as stated fails for an odd budget: with `T = 3` and `n = 1` the call swaps, though
`2 * n >= T` does not hold (line 166 compares `n` with `T / 2 = 1`). -/
theorem C7_odd_budget_swaps_below_half :
    oddBudgetRun.config.totalBlocks = 3 ∧
    oddBudgetRun.mem.map (fun m => m.bufBlockList.length) = some 1 ∧
    (tsdbGetCurrBufBlock oddBudgetRun).map STsdbBufBlock.remain = some 40 ∧
    (tsdbAllocBytes oddBudgetRun 60 AllocEnv.ok).trace =
      [Ev.needCommit, Ev.swap false 0, Ev.spawn, Ev.acquire 1, Ev.newMem] ∧
    ¬ ((3 : Int) ≤ 2 * 1) :=
  ⟨by decide, by decide, by decide, by decide, by decide⟩

/-! ## The immutable generation during an insertion (C10) -/

theorem mem_putOrdered (row : SDataRow) (l : List SDataRow) : row ∈ putOrdered row l := by
  induction l with
  | nil => simp [putOrdered]
  | cons x xs ih =>
    unfold putOrdered
    split
    · simp
    · simp [ih]

/-- Lines 82-102: a linked node is in the index that the call stores in the slot of the
table, and nothing else of the table array changes. -/
theorem tsdbInsertRowToMem_put_links (r : STsdbRepo) (m : SMemTable) (td : STableData)
    (row : SDataRow) (pTable : STable) (bytes : Int) (putNull : Bool) (t : List Ev)
    (ht : Ev.link ∉ t)
    (hl : Ev.link ∈ (tsdbInsertRowToMem_put r m td row pTable bytes putNull t).trace) :
    ∃ m' td', (tsdbInsertRowToMem_put r m td row pTable bytes putNull t).repo.mem = some m' ∧
      m'.tData = m.tData.set pTable.tid (some td') ∧ td'.uid = td.uid ∧ row ∈ td'.pData ∧
      m'.bufBlockList = m.bufBlockList := by
  unfold tsdbInsertRowToMem_put at hl ⊢
  rcases tSkipListPut_cases putNull td.pData row with hp | hp
  · rw [hp] at hl ⊢
    simp only [] at hl
    simp [ht] at hl
  · rw [hp]
    simp only []
    exact ⟨_, _, rfl, rfl, rfl, mem_putOrdered row td.pData, rfl⟩

theorem tsdbInsertRowToMem_put_swapped (r : STsdbRepo) (m : SMemTable) (td : STableData)
    (row : SDataRow) (pTable : STable) (bytes : Int) (putNull : Bool) (t : List Ev) :
    swapped (tsdbInsertRowToMem_put r m td row pTable bytes putNull t).trace = swapped t := by
  unfold tsdbInsertRowToMem_put
  simp only
  split <;> simp [swapped, Ev.isSwap]

theorem tsdbInsertRowToMem_link_swapped (r : STsdbRepo) (m : SMemTable) (row : SDataRow)
    (pTable : STable) (bytes : Int) (env : InsertEnv) (t : List Ev) :
    swapped (tsdbInsertRowToMem_link r m row pTable bytes env t).trace = swapped t := by
  unfold tsdbInsertRowToMem_link
  simp only
  repeat' split
  all_goals first
    | rfl
    | exact tsdbInsertRowToMem_put_swapped _ _ _ _ _ _ _ _
    | (rw [tsdbInsertRowToMem_put_swapped]; simp [swapped, Ev.isSwap])
    | simp [swapped, Ev.isSwap]

/-- Lines 60-102: a linked node is in the index that the call leaves in the slot of the
table, and nothing else of the table array and of the block list changes. -/
theorem tsdbInsertRowToMem_link_links (r : STsdbRepo) (m : SMemTable) (row : SDataRow)
    (pTable : STable) (bytes : Int) (env : InsertEnv) (t : List Ev) (ht : Ev.link ∉ t)
    (hl : Ev.link ∈ (tsdbInsertRowToMem_link r m row pTable bytes env t).trace) :
    ∃ m' td', (tsdbInsertRowToMem_link r m row pTable bytes env t).repo.mem = some m' ∧
      m'.tData = m.tData.set pTable.tid (some td') ∧ td'.uid = pTable.uid ∧
      row ∈ td'.pData ∧ m'.bufBlockList = m.bufBlockList := by
  have hnew : ∀ td, tsdbNewTableData env.newTableDataNull pTable = some td →
      td.uid = pTable.uid := by
    intro td htd
    unfold tsdbNewTableData at htd
    split at htd
    · cases htd
    · cases htd; rfl
  unfold tsdbInsertRowToMem_link at hl ⊢
  cases hget : m.tData.getD pTable.tid none with
  | some td0 =>
    rw [hget] at hl
    simp only at hl ⊢
    by_cases hne : td0.uid ≠ pTable.uid
    · rw [if_pos hne] at hl ⊢
      cases htd : tsdbNewTableData env.newTableDataNull pTable with
      | none =>
        rw [htd] at hl
        simp [ht] at hl
      | some td =>
        rw [htd] at hl
        simp only at hl ⊢
        obtain ⟨m', td', h1, h2, h3, h4, h5⟩ := tsdbInsertRowToMem_put_links r _ td row pTable
          bytes env.putNull _ (by simp [ht]) hl
        refine ⟨m', td', h1, ?_, h3.trans (hnew td htd), h4, h5⟩
        rw [h2]
        simp [List.set_set]
    · rw [if_neg hne] at hl ⊢
      have heq' : td0.uid = pTable.uid := by
        by_contra hc; exact hne hc
      obtain ⟨m', td', h1, h2, h3, h4, h5⟩ := tsdbInsertRowToMem_put_links r m td0 row pTable
        bytes env.putNull t ht hl
      exact ⟨m', td', h1, h2, h3.trans heq', h4, h5⟩
  | none =>
    rw [hget] at hl
    simp only at hl ⊢
    cases htd : tsdbNewTableData env.newTableDataNull pTable with
    | none =>
      rw [htd] at hl
      exact absurd hl ht
    | some td =>
      rw [htd] at hl
      simp only at hl ⊢
      obtain ⟨m', td', h1, h2, h3, h4, h5⟩ := tsdbInsertRowToMem_put_links r _ td row pTable
        bytes env.putNull _ (by simp [ht]) hl
      refine ⟨m', td', h1, ?_, h3.trans (hnew td htd), h4, h5⟩
      rw [h2]
      simp [List.set_set]

/-- C10: for every call of `tsdbInsertRowToMem`, lines 60-102 leave the immutable slot (and the
pool and the flag) as the allocation left them; when the node is linked, the immutable
slot holds, unchanged in every field, the generation that was active before the call if this
call swapped, and the generation that was immutable before the call otherwise; and the node
is in the index of the table in the generation that was active behind the allocation, of
which no other slot and no block changes. -/
theorem C10_row_is_linked_into_active_generation_only (r : STsdbRepo) (row : SDataRow)
    (pTable : STable) (env : InsertEnv) :
    ((tsdbInsertRowToMem r row pTable env).repo.imem =
        (tsdbAllocBytes r (env.headSize + row.len) env.alloc).repo.imem ∧
      (tsdbInsertRowToMem r row pTable env).repo.pPool =
        (tsdbAllocBytes r (env.headSize + row.len) env.alloc).repo.pPool ∧
      (tsdbInsertRowToMem r row pTable env).repo.commit =
        (tsdbAllocBytes r (env.headSize + row.len) env.alloc).repo.commit) ∧
    (Ev.link ∈ (tsdbInsertRowToMem r row pTable env).trace →
      (tsdbInsertRowToMem r row pTable env).repo.imem =
        if swapped (tsdbInsertRowToMem r row pTable env).trace = true then r.mem
        else r.imem) ∧
    (Ev.link ∈ (tsdbInsertRowToMem r row pTable env).trace →
      ∃ pm m' td,
        (tsdbAllocBytes r (env.headSize + row.len) env.alloc).repo.mem = some pm ∧
        (tsdbInsertRowToMem r row pTable env).repo.mem = some m' ∧
        m'.tData = pm.tData.set pTable.tid (some td) ∧ td.uid = pTable.uid ∧
        row ∈ td.pData ∧ m'.bufBlockList = pm.bufBlockList) := by
  have hev := tsdbAllocBytes_events r (env.headSize + row.len) env.alloc
  have hnolink : Ev.link ∉ (tsdbAllocBytes r (env.headSize + row.len) env.alloc).trace := by
    intro h
    have := hev _ h
    simp [Ev.isAlloc] at this
  have hspec := tsdbAllocBytes_spec r (env.headSize + row.len) env.alloc
  simp only at hspec
  obtain ⟨_, hsw, _, hno, hnull⟩ := hspec
  rcases tsdbInsertRowToMem_eq r row pTable env with ⟨he, _⟩ | ⟨he, _⟩ | ⟨pm, i, off, hm, hret, he⟩
  · rw [he]
    exact ⟨⟨rfl, rfl, rfl⟩, fun h => absurd h hnolink, fun h => absurd h hnolink⟩
  · rw [he]
    exact ⟨⟨rfl, rfl, rfl⟩, fun h => absurd h hnolink, fun h => absurd h hnolink⟩
  · rw [he]
    have hfr := tsdbInsertRowToMem_link_frame
      (tsdbAllocBytes r (env.headSize + row.len) env.alloc).repo pm row pTable
      (env.headSize + row.len) env (tsdbAllocBytes r (env.headSize + row.len) env.alloc).trace
    simp only at hfr
    obtain ⟨_, hpool, himem, hcommit, _⟩ := hfr
    refine ⟨⟨himem, hpool, hcommit⟩, ?_, ?_⟩
    · intro _
      rw [himem, tsdbInsertRowToMem_link_swapped]
      cases hs : swapped (tsdbAllocBytes r (env.headSize + row.len) env.alloc).trace with
      | true => simpa using (hsw hs).1
      | false =>
        have hnc : Ev.needCommit ∉
            (tsdbAllocBytes r (env.headSize + row.len) env.alloc).trace := by
          intro hc
          have := hnull hc hs
          rw [hret] at this
          cases this
        simpa using (hno hnc).1
    · intro hl
      obtain ⟨m', td', h1, h2, h3, h4, h5⟩ := tsdbInsertRowToMem_link_links _ pm row pTable
        _ env _ hnolink hl
      exact ⟨pm, m', td', hm, h1, h2, h3, h4, h5⟩

/-- C10 at the call that swaps: the second big row is linked into the new generation, and
the immutable slot holds the generation of `oneBlockRun` with its one row. -/
theorem C10_row_is_linked_into_active_generation_only_witness :
    Ev.link ∈ swapOut.trace ∧ swapped swapOut.trace = true ∧
    swapOut.repo.imem = some oneBlockGen ∧ oneBlockRun.mem = some oneBlockGen :=
  ⟨by decide, by decide,
   ((C10_row_is_linked_into_active_generation_only oneBlockRun (bigRowAt 2) tableT
      (InsertEnv.ok 8)).2.1 (by decide)).trans (by decide),
   by decide⟩

/-! ## The key range of a generation, in general -/

/-- Lines 82-102 and the statistics of the generation: a linked node lowers `keyFirst` to its
key, raises `keyLast` to its key and adds one to `numOfRows`; a rejected put changes none of
them. -/
theorem tsdbInsertRowToMem_put_stats (r : STsdbRepo) (m : SMemTable) (td : STableData)
    (row : SDataRow) (pTable : STable) (bytes : Int) (putNull : Bool) (t : List Ev)
    (ht : Ev.link ∉ t) :
    ∃ m', (tsdbInsertRowToMem_put r m td row pTable bytes putNull t).repo.mem = some m' ∧
      m'.keyFirst = (if Ev.link ∈ (tsdbInsertRowToMem_put r m td row pTable bytes putNull t).trace
        then min m.keyFirst row.key else m.keyFirst) ∧
      m'.keyLast = (if Ev.link ∈ (tsdbInsertRowToMem_put r m td row pTable bytes putNull t).trace
        then max m.keyLast row.key else m.keyLast) ∧
      m'.numOfRows = m.numOfRows +
        (if Ev.link ∈ (tsdbInsertRowToMem_put r m td row pTable bytes putNull t).trace
          then 1 else 0) := by
  unfold tsdbInsertRowToMem_put
  rcases tSkipListPut_cases putNull td.pData row with hp | hp
  · rw [hp]
    simp only []
    rcases tsdbFreeBytes_mem { r with mem := some m } bytes with ⟨h1, _⟩ | ⟨m0, bl, h1, h2⟩
    · cases h1
    · simp only at h1 h2
      cases h1
      have hno : Ev.link ∉ t ++ [Ev.putNull] := by simp [ht]
      exact ⟨_, h2, by simp [hno], by simp [hno], by simp [hno]⟩
  · rw [hp]
    simp only []
    refine ⟨_, rfl, ?_, ?_, ?_⟩
    · simp only [List.mem_append, List.mem_singleton, or_true, if_true]
      split
      · rw [min_eq_right]; omega
      · rw [min_eq_left]; omega
    · simp only [List.mem_append, List.mem_singleton, or_true, if_true]
      split
      · rw [max_eq_right]; omega
      · rw [max_eq_left]; omega
    · simp

/-- Lines 60-102 and the statistics of the generation. -/
theorem tsdbInsertRowToMem_link_stats (r : STsdbRepo) (m : SMemTable) (row : SDataRow)
    (pTable : STable) (bytes : Int) (env : InsertEnv) (t : List Ev) (ht : Ev.link ∉ t) :
    ∃ m', (tsdbInsertRowToMem_link r m row pTable bytes env t).repo.mem = some m' ∧
      m'.keyFirst = (if Ev.link ∈ (tsdbInsertRowToMem_link r m row pTable bytes env t).trace
        then min m.keyFirst row.key else m.keyFirst) ∧
      m'.keyLast = (if Ev.link ∈ (tsdbInsertRowToMem_link r m row pTable bytes env t).trace
        then max m.keyLast row.key else m.keyLast) ∧
      m'.numOfRows = m.numOfRows +
        (if Ev.link ∈ (tsdbInsertRowToMem_link r m row pTable bytes env t).trace
          then 1 else 0) := by
  have hfree : ∀ (m1 : SMemTable) (t1 : List Ev), Ev.link ∉ t1 →
      m1.keyFirst = m.keyFirst → m1.keyLast = m.keyLast → m1.numOfRows = m.numOfRows →
      ∃ m', (tsdbFreeBytes { r with mem := some m1 } bytes).mem = some m' ∧
        m'.keyFirst = (if Ev.link ∈ t1 then min m.keyFirst row.key else m.keyFirst) ∧
        m'.keyLast = (if Ev.link ∈ t1 then max m.keyLast row.key else m.keyLast) ∧
        m'.numOfRows = m.numOfRows + (if Ev.link ∈ t1 then 1 else 0) := by
    intro m1 t1 h1 h2 h3 h4
    rcases tsdbFreeBytes_mem { r with mem := some m1 } bytes with ⟨h5, _⟩ | ⟨m0, bl, h5, h6⟩
    · cases h5
    · simp only at h5 h6
      cases h5
      exact ⟨_, h6, by simp [h1, h2], by simp [h1, h3], by simp [h1, h4]⟩
  unfold tsdbInsertRowToMem_link
  cases hget : m.tData.getD pTable.tid none with
  | some td0 =>
    simp only
    by_cases hne : td0.uid ≠ pTable.uid
    · rw [if_pos hne]
      cases htd : tsdbNewTableData env.newTableDataNull pTable with
      | none => exact hfree _ _ (by simp [ht]) rfl rfl rfl
      | some td =>
        exact tsdbInsertRowToMem_put_stats r _ td row pTable bytes env.putNull _ (by simp [ht])
    · rw [if_neg hne]
      exact tsdbInsertRowToMem_put_stats r m td0 row pTable bytes env.putNull t ht
  | none =>
    simp only
    cases htd : tsdbNewTableData env.newTableDataNull pTable with
    | none => exact hfree m t ht rfl rfl rfl
    | some td =>
      exact tsdbInsertRowToMem_put_stats r _ td row pTable bytes env.putNull _ (by simp [ht])

/-- A call that does not swap leaves the key range of the active generation where it was,
as far as the allocation goes; a generation created by the call starts at
[INT64_MAX, 0]. -/
theorem tsdbAllocBytes_key_range (r : STsdbRepo) (bytes : Int) (env : AllocEnv)
    (hs : swapped (tsdbAllocBytes r bytes env).trace = false) :
    genKeyFirst (tsdbAllocBytes r bytes env).repo = genKeyFirst r ∧
    genKeyLast (tsdbAllocBytes r bytes env).repo = genKeyLast r := by
  have h := tsdbAllocBytes_spec r bytes env
  simp only at h
  obtain ⟨hkeep, _, hno, _, _⟩ := h
  unfold genKeyFirst genKeyLast
  cases hm : r.mem with
  | some m =>
    obtain ⟨bl, h1⟩ := hno hs m hm
    rw [h1]
    exact ⟨rfl, rfl⟩
  | none =>
    rcases hkeep with h1 | ⟨m, bl, h1, _⟩ | ⟨bl, h1⟩
    · rw [h1]; exact ⟨rfl, rfl⟩
    · rw [hm] at h1; cases h1
    · rw [h1]; exact ⟨rfl, rfl⟩

/-- One call that does not swap: a linked row lowers `keyFirst` of the active generation to
its timestamp and raises `keyLast` to it; any other call leaves both. -/
theorem tsdbInsertRowToMem_key_range (r : STsdbRepo) (row : SDataRow) (pTable : STable)
    (env : InsertEnv) (hs : swapped (tsdbInsertRowToMem r row pTable env).trace = false) :
    genKeyFirst (tsdbInsertRowToMem r row pTable env).repo =
      (if Ev.link ∈ (tsdbInsertRowToMem r row pTable env).trace
        then min (genKeyFirst r) row.key else genKeyFirst r) ∧
    genKeyLast (tsdbInsertRowToMem r row pTable env).repo =
      (if Ev.link ∈ (tsdbInsertRowToMem r row pTable env).trace
        then max (genKeyLast r) row.key else genKeyLast r) := by
  have hev := tsdbAllocBytes_events r (env.headSize + row.len) env.alloc
  have hnolink : Ev.link ∉ (tsdbAllocBytes r (env.headSize + row.len) env.alloc).trace := by
    intro h
    have := hev _ h
    simp [Ev.isAlloc] at this
  have hk := tsdbAllocBytes_key_range r (env.headSize + row.len) env.alloc
  rcases tsdbInsertRowToMem_eq r row pTable env with ⟨he, _⟩ | ⟨he, _⟩ | ⟨pm, i, off, hm, _, he⟩
  · rw [he] at hs ⊢
    simp only at hs ⊢
    rw [if_neg hnolink, if_neg hnolink]
    exact hk hs
  · rw [he] at hs ⊢
    simp only at hs ⊢
    rw [if_neg hnolink, if_neg hnolink]
    exact hk hs
  · rw [he] at hs ⊢
    rw [tsdbInsertRowToMem_link_swapped] at hs
    obtain ⟨m', h1, h2, h3, _⟩ := tsdbInsertRowToMem_link_stats
      (tsdbAllocBytes r (env.headSize + row.len) env.alloc).repo pm row pTable
      (env.headSize + row.len) env _ hnolink
    have hk' := hk hs
    unfold genKeyFirst genKeyLast at hk' ⊢
    rw [hm] at hk'
    simp only at hk'
    rw [h1]
    simp only
    rw [h2, h3, hk'.1, hk'.2]
    exact ⟨rfl, rfl⟩

theorem foldl_min_le (l : List Int) (a : Int) :
    l.foldl min a ≤ a ∧ ∀ k ∈ l, l.foldl min a ≤ k := by
  induction l generalizing a with
  | nil => simp
  | cons x xs ih =>
    simp only [List.foldl_cons, List.mem_cons, forall_eq_or_imp]
    have h := ih (min a x)
    exact ⟨le_trans h.1 (min_le_left a x), le_trans h.1 (min_le_right a x), h.2⟩

theorem foldl_min_mem (l : List Int) (a : Int) : l.foldl min a = a ∨ l.foldl min a ∈ l := by
  induction l generalizing a with
  | nil => simp
  | cons x xs ih =>
    simp only [List.foldl_cons, List.mem_cons]
    rcases ih (min a x) with h | h
    · rw [h]
      rcases min_choice a x with h1 | h1
      · exact Or.inl h1
      · exact Or.inr (Or.inl h1)
    · exact Or.inr (Or.inr h)

theorem le_foldl_max (l : List Int) (a : Int) :
    a ≤ l.foldl max a ∧ ∀ k ∈ l, k ≤ l.foldl max a := by
  induction l generalizing a with
  | nil => simp
  | cons x xs ih =>
    simp only [List.foldl_cons, List.mem_cons, forall_eq_or_imp]
    have h := ih (max a x)
    exact ⟨le_trans (le_max_left a x) h.1, le_trans (le_max_right a x) h.1, h.2⟩

theorem foldl_max_mem (l : List Int) (a : Int) : l.foldl max a = a ∨ l.foldl max a ∈ l := by
  induction l generalizing a with
  | nil => simp
  | cons x xs ih =>
    simp only [List.foldl_cons, List.mem_cons]
    rcases ih (max a x) with h | h
    · rw [h]
      rcases max_choice a x with h1 | h1
      · exact Or.inl h1
      · exact Or.inr (Or.inl h1)
    · exact Or.inr (Or.inr h)

theorem linkedKeys_subset (pTable : STable) (r : STsdbRepo)
    (calls : List (SDataRow × InsertEnv)) :
    ∀ k ∈ linkedKeys pTable r calls, ∃ c ∈ calls, c.1.key = k := by
  induction calls generalizing r with
  | nil => simp [linkedKeys]
  | cons c rest ih =>
    obtain ⟨row, env⟩ := c
    intro k hk
    simp only [linkedKeys] at hk
    split at hk
    · rcases List.mem_cons.mp hk with h | h
      · exact ⟨(row, env), List.mem_cons_self _ _, h.symm⟩
      · obtain ⟨c, hc, hck⟩ := ih _ k h
        exact ⟨c, List.mem_cons_of_mem _ hc, hck⟩
    · obtain ⟨c, hc, hck⟩ := ih _ k hk
      exact ⟨c, List.mem_cons_of_mem _ hc, hck⟩

/-- Consecutive calls for one table within one generation: `keyFirst` of the generation is
the minimum of its former value and the linked timestamps, `keyLast` the maximum of its
former value and the linked timestamps. -/
theorem insertRows_key_range (pTable : STable) (r : STsdbRepo)
    (calls : List (SDataRow × InsertEnv))
    (hgen : ∀ o ∈ (insertRows pTable r calls).2, swapped o.trace = false) :
    genKeyFirst (insertRows pTable r calls).1 =
      (linkedKeys pTable r calls).foldl min (genKeyFirst r) ∧
    genKeyLast (insertRows pTable r calls).1 =
      (linkedKeys pTable r calls).foldl max (genKeyLast r) := by
  induction calls generalizing r with
  | nil => simp [insertRows, linkedKeys]
  | cons c rest ih =>
    obtain ⟨row, env⟩ := c
    simp only [insertRows, List.mem_cons, forall_eq_or_imp] at hgen ⊢
    obtain ⟨h0, hrest⟩ := hgen
    have hone := tsdbInsertRowToMem_key_range r row pTable env h0
    have ih' := ih (tsdbInsertRowToMem r row pTable env).repo hrest
    rw [ih'.1, ih'.2, hone.1, hone.2]
    simp only [linkedKeys]
    by_cases hl : Ev.link ∈ (tsdbInsertRowToMem r row pTable env).trace
    · simp [hl]
    · simp [hl]

/-- The part of C3 that the code keeps.  For every sequence of calls for one table into a
repository without an active generation, within one generation, with timestamps in the range
of `TSKEY` and at least one linked row: `keyFirst` of the generation is the minimum of the
linked timestamps; `keyLast` is an upper bound of them, it is their maximum if one of them is
not negative, and it is 0 if all of them are negative. -/
theorem fresh_generation_key_range (pTable : STable) (r : STsdbRepo)
    (calls : List (SDataRow × InsertEnv)) (hfresh : r.mem = none)
    (hgen : ∀ o ∈ (insertRows pTable r calls).2, swapped o.trace = false)
    (hkeys : ∀ c ∈ calls, isInt64 c.1.key) (hne : linkedKeys pTable r calls ≠ []) :
    (genKeyFirst (insertRows pTable r calls).1 ∈ linkedKeys pTable r calls ∧
      ∀ k ∈ linkedKeys pTable r calls, genKeyFirst (insertRows pTable r calls).1 ≤ k) ∧
    (∀ k ∈ linkedKeys pTable r calls, k ≤ genKeyLast (insertRows pTable r calls).1) ∧
    ((∃ k ∈ linkedKeys pTable r calls, 0 ≤ k) →
      genKeyLast (insertRows pTable r calls).1 ∈ linkedKeys pTable r calls) ∧
    ((∀ k ∈ linkedKeys pTable r calls, k < 0) →
      genKeyLast (insertRows pTable r calls).1 = 0) := by
  have h := insertRows_key_range pTable r calls hgen
  have hf : genKeyFirst r = INT64_MAX := by unfold genKeyFirst; rw [hfresh]
  have hl : genKeyLast r = 0 := by unfold genKeyLast; rw [hfresh]
  rw [hf, hl] at h
  rw [h.1, h.2]
  have hmin := foldl_min_le (linkedKeys pTable r calls) INT64_MAX
  have hmax := le_foldl_max (linkedKeys pTable r calls) 0
  have hle : ∀ k ∈ linkedKeys pTable r calls, k ≤ INT64_MAX := by
    intro k hk
    obtain ⟨c, hc, hck⟩ := linkedKeys_subset pTable r calls k hk
    rw [← hck]
    exact (hkeys c hc).2
  refine ⟨⟨?_, hmin.2⟩, hmax.2, ?_, ?_⟩
  · rcases foldl_min_mem (linkedKeys pTable r calls) INT64_MAX with h1 | h1
    · obtain ⟨k, hk⟩ := List.exists_mem_of_ne_nil _ hne
      have h2 := hmin.2 k hk
      have h3 := hle k hk
      have : k = INT64_MAX := by rw [h1] at h2; omega
      rw [h1, ← this]; exact hk
    · exact h1
  · rintro ⟨k, hk, hk0⟩
    rcases foldl_max_mem (linkedKeys pTable r calls) 0 with h1 | h1
    · have h2 := hmax.2 k hk
      have : k = 0 := by rw [h1] at h2; omega
      rw [h1, ← this]; exact hk
    · exact h1
  · intro hneg
    rcases foldl_max_mem (linkedKeys pTable r calls) 0 with h1 | h1
    · exact h1
    · have := hneg _ h1
      have := hmax.1
      omega

/-! ## The row count of a generation, in general -/

theorem rowsSum_set (l : List (Option STableData)) (i : Nat) (x : Option STableData)
    (h : i < l.length) :
    ((l.set i x).map slotRows).sum =
      (l.map slotRows).sum - slotRows (l.getD i none) + slotRows x := by
  induction l generalizing i with
  | nil => simp at h
  | cons y ys ih =>
    cases i with
    | zero => simp; ring
    | succ j =>
      have hj : j < ys.length := by simpa using h
      simp only [List.set_cons_succ, List.map_cons, List.sum_cons, List.getD_cons_succ]
      rw [ih j hj]; ring

theorem rowsSum_set_of_empty (l : List (Option STableData)) (i : Nat) (td : STableData)
    (h : l.getD i none = none) (h0 : td.numOfRows = 0) :
    ((l.set i (some td)).map slotRows).sum = (l.map slotRows).sum := by
  by_cases hi : i < l.length
  · rw [rowsSum_set l i _ hi, h]
    simp [slotRows, h0]
  · rw [List.set_eq_of_length_le (by omega)]

/-- Lines 82-102 keep the row count of the generation equal to the sum over its indexes,
when the index they work on is the one in the slot of the table. -/
theorem tsdbInsertRowToMem_put_row_sum (r : STsdbRepo) (m : SMemTable) (td : STableData)
    (row : SDataRow) (pTable : STable) (bytes : Int) (putNull : Bool) (t : List Ev)
    (hlen : pTable.tid < m.tData.length) (hslot : m.tData.getD pTable.tid none = some td)
    (hsum : m.numOfRows = tableRowsSum m) :
    ∀ m', (tsdbInsertRowToMem_put r m td row pTable bytes putNull t).repo.mem = some m' →
      m'.tData.length = m.tData.length ∧ m'.numOfRows = tableRowsSum m' := by
  intro m' hm'
  unfold tsdbInsertRowToMem_put at hm'
  rcases tSkipListPut_cases putNull td.pData row with hp | hp
  · rw [hp] at hm'
    simp only [] at hm'
    rcases tsdbFreeBytes_mem { r with mem := some m } bytes with ⟨h1, _⟩ | ⟨m0, bl, h1, h2⟩
    · cases h1
    · simp only at h1 h2
      cases h1
      rw [h2] at hm'; cases hm'
      exact ⟨rfl, hsum⟩
  · rw [hp] at hm'
    simp only [] at hm'
    cases hm'
    refine ⟨by simp, ?_⟩
    unfold tableRowsSum at hsum ⊢
    simp only
    rw [rowsSum_set m.tData pTable.tid _ hlen, hslot, hsum]
    simp only [slotRows]
    ring

/-- Lines 60-102 keep the row count of the generation equal to the sum over its indexes in
every call that does not destroy an index. -/
theorem tsdbInsertRowToMem_link_row_sum (r : STsdbRepo) (m : SMemTable) (row : SDataRow)
    (pTable : STable) (bytes : Int) (env : InsertEnv) (t : List Ev)
    (hlen : pTable.tid < m.tData.length) (hsum : m.numOfRows = tableRowsSum m)
    (hdrop : Ev.dropIndex ∉ (tsdbInsertRowToMem_link r m row pTable bytes env t).trace) :
    ∀ m', (tsdbInsertRowToMem_link r m row pTable bytes env t).repo.mem = some m' →
      m'.tData.length = m.tData.length ∧ m'.numOfRows = tableRowsSum m' := by
  intro m' hm'
  have hfree : ∀ m1 : SMemTable,
      (tsdbFreeBytes { r with mem := some m1 } bytes).mem = some m' →
      m'.tData = m1.tData ∧ m'.numOfRows = m1.numOfRows := by
    intro m1 hm1
    rcases tsdbFreeBytes_mem { r with mem := some m1 } bytes with ⟨h2, _⟩ | ⟨m0, bl, h2, h3⟩
    · cases h2
    · simp only at h2 h3
      cases h2
      rw [h3] at hm1; cases hm1
      exact ⟨rfl, rfl⟩
  unfold tsdbInsertRowToMem_link at hm' hdrop
  cases hget : m.tData.getD pTable.tid none with
  | some td0 =>
    rw [hget] at hm' hdrop
    simp only at hm' hdrop
    by_cases hne : td0.uid ≠ pTable.uid
    · rw [if_pos hne] at hm' hdrop
      exfalso
      apply hdrop
      cases tsdbNewTableData env.newTableDataNull pTable with
      | none => simp
      | some td =>
        simp only [tsdbInsertRowToMem_put]
        split <;> simp
    · rw [if_neg hne] at hm'
      exact tsdbInsertRowToMem_put_row_sum r m td0 row pTable bytes env.putNull t hlen hget
        hsum m' hm'
  | none =>
    rw [hget] at hm'
    simp only at hm'
    cases htd : tsdbNewTableData env.newTableDataNull pTable with
    | none =>
      rw [htd] at hm'
      obtain ⟨h1, h2⟩ := hfree m hm'
      refine ⟨by rw [h1], ?_⟩
      unfold tableRowsSum at hsum ⊢
      rw [h2, h1]; exact hsum
    | some td =>
      rw [htd] at hm'
      simp only at hm'
      have hnew : td.numOfRows = 0 := by
        unfold tsdbNewTableData at htd
        split at htd
        · cases htd
        · cases htd; rfl
      have hp := tsdbInsertRowToMem_put_row_sum r
        { m with tData := m.tData.set pTable.tid (some td) } td row pTable bytes env.putNull
        (t ++ [Ev.newIndex]) (by simpa using hlen)
        (by simp [List.getD_eq_getElem?_getD, List.getElem?_set_self, hlen])
        (by
          unfold tableRowsSum at hsum ⊢
          simp only
          rw [rowsSum_set_of_empty m.tData pTable.tid td hget hnew]
          exact hsum) m' hm'
      exact ⟨by rw [hp.1]; simp, hp.2⟩

/-- The part of C1 that the code keeps, as a step: a call of `tsdbInsertRowToMem` that does not
destroy an index (no slot with the index of a dropped table is hit) keeps the row count of the
active generation equal to the sum of the row counts of its indexes. -/
theorem tsdbInsertRowToMem_row_sum (r : STsdbRepo) (row : SDataRow) (pTable : STable)
    (env : InsertEnv) (hslot : pTable.tid < r.config.maxTables)
    (hr : ∀ m, r.mem = some m →
      m.tData.length = r.config.maxTables ∧ m.numOfRows = tableRowsSum m)
    (hdrop : Ev.dropIndex ∉ (tsdbInsertRowToMem r row pTable env).trace) :
    ∀ m', (tsdbInsertRowToMem r row pTable env).repo.mem = some m' →
      m'.tData.length = r.config.maxTables ∧ m'.numOfRows = tableRowsSum m' := by
  apply tsdbInsertRowToMem_keeps
    (fun m => m.tData.length = r.config.maxTables ∧ m.numOfRows = tableRowsSum m) r row pTable
    env
  · refine ⟨by simp [freshMem], ?_⟩
    simp only [freshMem, tableRowsSum, List.map_replicate, slotRows, List.sum_replicate,
      smul_zero]
  · intro m bl h; exact h
  · intro pm hpm he m' hm'
    rw [he] at hm' hdrop
    have h := tsdbInsertRowToMem_link_row_sum _ pm row pTable _ env _
      (by rw [hpm.1]; exact hslot) hpm.2 hdrop m' hm'
    exact ⟨h.1.trans hpm.1, h.2⟩
  · exact hr

/-! ## Swaps without failure: ownership of the blocks and the state of the commit -/

theorem ownedBlockIds_eq (r : STsdbRepo) :
    ownedBlockIds r =
      r.pPool.map STsdbBufBlock.blockId ++
        (match r.mem with
          | none => []
          | some m => m.bufBlockList.map STsdbBufBlock.blockId) ++
        (match r.imem with
          | none => []
          | some m => m.bufBlockList.map STsdbBufBlock.blockId) := rfl

/-- A commit task that reaches the statements behind `_exit` gives the blocks of the
immutable generation to the pool and leaves no immutable generation, no flag, no task. -/
theorem tsdbCommitData_clean (env : CommitEnv) (r : STsdbRepo) (h : env.itersNull = false) :
    (tsdbCommitData env r).imem = none ∧ (tsdbCommitData env r).commit = 0 ∧
    (tsdbCommitData env r).commitThread = false ∧
    (ownedBlockIds (tsdbCommitData env r)).Perm (ownedBlockIds r) := by
  unfold tsdbCommitData
  rw [h]
  simp only [Bool.false_eq_true, if_false]
  cases hi : r.imem with
  | none =>
    refine ⟨rfl, rfl, rfl, ?_⟩
    simp only [ownedBlockIds_eq, hi]
    exact List.Perm.refl _
  | some im =>
    refine ⟨rfl, rfl, rfl, ?_⟩
    simp only [ownedBlockIds_eq, hi, List.map_append, List.append_nil, List.append_assoc]
    exact List.Perm.append_left _ List.perm_append_comm

theorem moveBlocks_eq (src pool : List STsdbBufBlock) : moveBlocks src pool = pool ++ src := by
  induction src generalizing pool with
  | nil => simp [moveBlocks]
  | cons b rest ih => simp [moveBlocks, ih]

/-- The branch of line 166 in a clean call from a repository in a commit state: a swap finds
the immutable slot empty and the flag 0, the blocks stay in the three lists, and the
repository is in a commit state again. -/
theorem commitMem_clean (r : STsdbRepo) (env : AllocEnv) (m : SMemTable) (hm : r.mem = some m)
    (hc : CommitState r) (he : env.swapClean) :
    CommitState (tsdbAllocBytes_commitMem r env).repo ∧
    (ownedBlockIds (tsdbAllocBytes_commitMem r env).repo).Perm (ownedBlockIds r) ∧
    ∀ h c, Ev.swap h c ∈ (tsdbAllocBytes_commitMem r env).trace → h = false ∧ c = 0 := by
  obtain ⟨hcreate, htask⟩ := he
  have hr1 : ∀ r1 : STsdbRepo,
      r1 = (if r.imem.isSome = true ∧ r.commitThread = true then tsdbCommitData env.task r
        else r) →
      r1.imem = none ∧ r1.commit = 0 ∧ r1.commitThread = false ∧ r1.mem = some m ∧
      (ownedBlockIds r1).Perm (ownedBlockIds r) := by
    intro r1 h1
    rcases hc with ⟨h2, h3, h4⟩ | ⟨h2, h3, h4⟩
    · have : ¬ (r.imem.isSome = true ∧ r.commitThread = true) := by simp [h4]
      rw [if_neg this] at h1
      subst h1
      exact ⟨h2, h3, h4, hm, List.Perm.refl _⟩
    · rw [if_pos ⟨h2, h4⟩] at h1
      subst h1
      have := tsdbCommitData_clean env.task r htask
      exact ⟨this.1, this.2.1, this.2.2.1, by rw [tsdbCommitData_mem]; exact hm, this.2.2.2⟩
  unfold tsdbAllocBytes_commitMem
  simp only
  split
  · exact ⟨hc, List.Perm.refl _, by simp [Flow.trace]⟩
  · obtain ⟨h1, h2, h3, h4, h5⟩ := hr1 _ rfl
    split
    · refine ⟨Or.inl ⟨h1, h2, h3⟩, h5, ?_⟩
      intro h c hin
      simp only [Flow.trace] at hin
      split at hin <;> simp at hin
    · have hswap : ∀ (t0 : List Ev) (b0 : Bool) (c0 : Int) (h : Bool) (c : Int),
          (∀ h' c', Ev.swap h' c' ∉ t0) → b0 = false → c0 = 0 →
          Ev.swap h c ∈ t0 ++ [Ev.swap b0 c0] ++ [Ev.spawn] → h = false ∧ c = 0 := by
        intro t0 b0 c0 h c hno hb0 hc0 hin
        simp only [List.mem_append, List.mem_singleton, Ev.swap.injEq, reduceCtorEq,
          or_false] at hin
        rcases hin with hin | hin
        · exact absurd hin (hno h c)
        · rw [hb0, hc0] at hin
          exact hin
      rw [if_neg (by simp [hcreate])]
      split
      · simp only [Flow.repo, Flow.trace]
        refine ⟨Or.inr ⟨by rw [h4]; rfl, rfl, rfl⟩, ?_, ?_⟩
        · refine List.Perm.trans ?_ h5
          simp only [ownedBlockIds_eq, h1, h4, List.append_nil, List.append_assoc]
          exact List.Perm.refl _
        · intro h c hin
          split at hin
          · exact hswap [Ev.needCommit, Ev.join] _ _ h c (by simp) (by rw [h1]; rfl) h2 hin
          · exact hswap [Ev.needCommit] _ _ h c (by simp) (by rw [h1]; rfl) h2 hin
      · rw [h1]
        simp only [Flow.repo, Flow.trace]
        refine ⟨Or.inr ⟨by rw [h4]; rfl, rfl, rfl⟩, ?_, ?_⟩
        · refine List.Perm.trans ?_ h5
          simp only [ownedBlockIds_eq, h1, h4, List.append_nil, List.append_assoc]
          exact List.Perm.refl _
        · intro h c hin
          split at hin
          · exact hswap [Ev.needCommit, Ev.join] _ _ h c (by simp) rfl h2 hin
          · exact hswap [Ev.needCommit] _ _ h c (by simp) rfl h2 hin

theorem perm_move_head (x : Nat) (p a i : List Nat) :
    (p ++ (a ++ ([x] ++ i))).Perm (x :: p ++ (a ++ i)) := by
  have h := @List.perm_middle Nat x (p ++ a) i
  simpa [List.append_assoc] using h

theorem addBlock_clean (r : STsdbRepo) (m : SMemTable) (env : AllocEnv) (hm : r.mem = some m) :
    (tsdbAllocBytes_addBlock r m env).repo.imem = r.imem ∧
    (tsdbAllocBytes_addBlock r m env).repo.commit = r.commit ∧
    (tsdbAllocBytes_addBlock r m env).repo.commitThread = r.commitThread ∧
    (ownedBlockIds (tsdbAllocBytes_addBlock r m env).repo).Perm (ownedBlockIds r) ∧
    ∀ h c, Ev.swap h c ∉ (tsdbAllocBytes_addBlock r m env).trace := by
  unfold tsdbAllocBytes_addBlock tsdbAllocBufBlockFromPool
  cases env.lockAcquire with
  | true => simp [Flow.repo, Flow.trace]
  | false =>
    simp only [Bool.false_eq_true, if_false]
    cases hp : r.pPool with
    | nil => simp [Flow.repo, Flow.trace]
    | cons b rest =>
      have hperm : List.Perm
          (ownedBlockIds
            { r with
              pPool := rest
              mem := some { m with bufBlockList := m.bufBlockList ++ [clearedBlock b] } })
          (ownedBlockIds r) := by
        simp only [ownedBlockIds_eq, hp, hm, List.map_append, List.map_cons, List.map_nil,
          List.append_assoc]
        exact perm_move_head _ _ _ _
      simp only
      cases env.unlockAcquire with
      | true => exact ⟨rfl, rfl, rfl, hperm, by simp [Flow.trace]⟩
      | false => exact ⟨rfl, rfl, rfl, hperm, by simp [Flow.trace]⟩

theorem newMem_clean (r : STsdbRepo) (t : List Ev) (env : AllocEnv) :
    (tsdbAllocBytes_newMem r t env).repo.imem = r.imem ∧
    (tsdbAllocBytes_newMem r t env).repo.commit = r.commit ∧
    (tsdbAllocBytes_newMem r t env).repo.commitThread = r.commitThread ∧
    (ownedBlockIds (tsdbAllocBytes_newMem r t env).repo).Perm (ownedBlockIds r) ∧
    ∀ h c, Ev.swap h c ∈ (tsdbAllocBytes_newMem r t env).trace → Ev.swap h c ∈ t := by
  cases hm : r.mem with
  | some m =>
    have h := (newMem_spec r t env).2.2.2.2.2.1 m hm
    rw [h]
    exact ⟨rfl, rfl, rfl, List.Perm.refl _, fun _ _ h => h⟩
  | none =>
    have hperm : ∀ (nb : STsdbBufBlock) (rest : List STsdbBufBlock), r.pPool = nb :: rest →
        List.Perm
          (ownedBlockIds
            { r with
              pPool := rest
              mem := some { freshMem r.config with bufBlockList := [nb] } })
          (ownedBlockIds r) := by
      intro nb rest hp
      simp only [ownedBlockIds_eq, hp, hm, List.map_cons, List.map_nil]
      simp
    have hev : ∀ (nb : STsdbBufBlock) (h : Bool) (c : Int),
        Ev.swap h c ∈ t ++ [Ev.acquire nb.blockId, Ev.newMem] → Ev.swap h c ∈ t := by
      intro nb h c hin
      simp at hin
      exact hin
    rcases newMem_flow r t env hm with h1 | h1 | ⟨nb, rest, hp, h1 | h1⟩
    · rw [h1]
      exact ⟨rfl, rfl, rfl, List.Perm.refl _, fun _ _ h => h⟩
    · rw [h1]
      exact ⟨rfl, rfl, rfl, List.Perm.refl _, fun _ _ h => h⟩
    · rw [h1]
      exact ⟨rfl, rfl, rfl, hperm nb rest hp, hev nb⟩
    · rw [h1]
      exact ⟨rfl, rfl, rfl, hperm nb rest hp, hev nb⟩

theorem bump_clean (r : STsdbRepo) (bytes : Int) (t : List Ev) :
    (tsdbAllocBytes_bump r bytes t).repo.commitThread = r.commitThread ∧
    (ownedBlockIds (tsdbAllocBytes_bump r bytes t).repo).Perm (ownedBlockIds r) := by
  unfold tsdbAllocBytes_bump
  cases hm : r.mem with
  | none => exact ⟨rfl, List.Perm.refl _⟩
  | some m =>
    simp only
    cases hb : m.bufBlockList.getLast? with
    | none => exact ⟨rfl, List.Perm.refl _⟩
    | some b =>
      refine ⟨rfl, ?_⟩
      have hl : m.bufBlockList = m.bufBlockList.dropLast ++ [b] := by
        have hne : m.bufBlockList ≠ [] := by
          intro h; rw [h] at hb; cases hb
        have h1 := List.dropLast_append_getLast hne
        rw [List.getLast?_eq_getLast _ hne] at hb
        cases hb
        exact h1.symm
      simp only [ownedBlockIds_eq, hm]
      have : List.map STsdbBufBlock.blockId m.bufBlockList =
          List.map STsdbBufBlock.blockId (m.bufBlockList.dropLast ++
            [{ b with offset := b.offset + bytes, remain := b.remain - bytes }]) := by
        conv_lhs => rw [hl]
        simp
      rw [this]

theorem tsdbFreeBytes_blockIds (r : STsdbRepo) (bytes : Int) :
    ownedBlockIds (tsdbFreeBytes r bytes) = ownedBlockIds r := by
  unfold tsdbFreeBytes
  cases hm : r.mem with
  | none => rfl
  | some m =>
    simp only
    cases hb : m.bufBlockList.getLast? with
    | none => rfl
    | some b =>
      have hl : m.bufBlockList = m.bufBlockList.dropLast ++ [b] := by
        have hne : m.bufBlockList ≠ [] := by
          intro h; rw [h] at hb; cases hb
        have h1 := List.dropLast_append_getLast hne
        rw [List.getLast?_eq_getLast _ hne] at hb
        cases hb
        exact h1.symm
      simp only [ownedBlockIds_eq, hm]
      have : List.map STsdbBufBlock.blockId m.bufBlockList =
          List.map STsdbBufBlock.blockId (m.bufBlockList.dropLast ++
            [{ b with offset := b.offset - bytes, remain := b.remain + bytes }]) := by
        conv_lhs => rw [hl]
        simp
      rw [this]

/-- A clean call of `tsdbAllocBytes` from a repository in a commit state: every swap of the
call finds the immutable slot empty and the flag 0, the block ids of the three lists are
permuted, and the repository is in a commit state again. -/
theorem tsdbAllocBytes_clean (r : STsdbRepo) (bytes : Int) (env : AllocEnv)
    (hc : CommitState r) (he : env.swapClean) :
    CommitState (tsdbAllocBytes r bytes env).repo ∧
    (ownedBlockIds (tsdbAllocBytes r bytes env).repo).Perm (ownedBlockIds r) ∧
    ∀ h c, Ev.swap h c ∈ (tsdbAllocBytes r bytes env).trace → h = false ∧ c = 0 := by
  have hens : CommitState (tsdbAllocBytes_ensure r bytes env).repo ∧
      (ownedBlockIds (tsdbAllocBytes_ensure r bytes env).repo).Perm (ownedBlockIds r) ∧
      ∀ h c, Ev.swap h c ∈ (tsdbAllocBytes_ensure r bytes env).trace → h = false ∧ c = 0 := by
    unfold tsdbAllocBytes_ensure
    split
    · next m b hm _ =>
      split
      · split
        · exact commitMem_clean r env m hm hc he
        · obtain ⟨h1, h2, h3, h4, h5⟩ := addBlock_clean r m env hm
          refine ⟨?_, h4, fun h c hin => absurd hin (h5 h c)⟩
          unfold CommitState
          rw [h1, h2, h3]
          exact hc
      · exact ⟨hc, List.Perm.refl _, by simp [Flow.trace]⟩
    · exact ⟨hc, List.Perm.refl _, by simp [Flow.trace]⟩
  have hnew : ∀ r1 t1, CommitState r1 → (ownedBlockIds r1).Perm (ownedBlockIds r) →
      (∀ h c, Ev.swap h c ∈ t1 → h = false ∧ c = 0) →
      CommitState (tsdbAllocBytes_newMem r1 t1 env).repo ∧
      (ownedBlockIds (tsdbAllocBytes_newMem r1 t1 env).repo).Perm (ownedBlockIds r) ∧
      ∀ h c, Ev.swap h c ∈ (tsdbAllocBytes_newMem r1 t1 env).trace → h = false ∧ c = 0 := by
    intro r1 t1 hc1 hp1 ht1
    obtain ⟨h1, h2, h3, h4, h5⟩ := newMem_clean r1 t1 env
    refine ⟨?_, h4.trans hp1, fun h c hin => ht1 h c (h5 h c hin)⟩
    unfold CommitState
    rw [h1, h2, h3]
    exact hc1
  apply tsdbAllocBytes_cases r bytes env (fun o =>
    CommitState o.repo ∧ (ownedBlockIds o.repo).Perm (ownedBlockIds r) ∧
    ∀ h c, Ev.swap h c ∈ o.trace → h = false ∧ c = 0)
  · intro o heq
    rw [heq] at hens; exact hens
  · intro r1 t1 o heq hn
    rw [heq] at hens
    have := hnew r1 t1 hens.1 hens.2.1 hens.2.2
    rw [hn] at this; exact this
  · intro r1 t1 r2 t2 heq hn
    rw [heq] at hens
    have h2 := hnew r1 t1 hens.1 hens.2.1 hens.2.2
    rw [hn] at h2
    simp only [Flow.repo, Flow.trace] at h2
    obtain ⟨b1, b2⟩ := bump_clean r2 bytes t2
    obtain ⟨_, b3, b4, b5, _⟩ := bump_spec r2 bytes t2
    refine ⟨?_, b2.trans h2.2.1, ?_⟩
    · unfold CommitState
      rw [b3, b4, b1]
      exact h2.1
    · rw [b5]; exact h2.2.2

theorem tsdbInsertRowToMem_put_alloc_events (r : STsdbRepo) (m : SMemTable) (td : STableData)
    (row : SDataRow) (pTable : STable) (bytes : Int) (putNull : Bool) (t : List Ev)
    (e : Ev) (he : e.isAlloc = true)
    (hin : e ∈ (tsdbInsertRowToMem_put r m td row pTable bytes putNull t).trace) : e ∈ t := by
  unfold tsdbInsertRowToMem_put at hin
  simp only at hin
  split at hin
  · simp only [List.mem_append, List.mem_singleton] at hin
    rcases hin with h | h
    · exact h
    · subst h; cases he
  · simp only [List.mem_append, List.mem_singleton] at hin
    rcases hin with h | h
    · exact h
    · subst h; cases he

/-- The events of the allocator in the trace of lines 60-102 are those of the allocation. -/
theorem tsdbInsertRowToMem_link_alloc_events (r : STsdbRepo) (m : SMemTable) (row : SDataRow)
    (pTable : STable) (bytes : Int) (env : InsertEnv) (t : List Ev) (e : Ev)
    (he : e.isAlloc = true)
    (hin : e ∈ (tsdbInsertRowToMem_link r m row pTable bytes env t).trace) : e ∈ t := by
  have hext : ∀ (x : List Ev), (∀ y ∈ x, y.isAlloc = false) → e ∈ t ++ x → e ∈ t := by
    intro x hx h
    rcases List.mem_append.mp h with h1 | h1
    · exact h1
    · have := hx e h1
      rw [he] at this; cases this
  unfold tsdbInsertRowToMem_link at hin
  cases hget : m.tData.getD pTable.tid none with
  | some td0 =>
    rw [hget] at hin
    simp only at hin
    by_cases hne : td0.uid ≠ pTable.uid
    · rw [if_pos hne] at hin
      cases htd : tsdbNewTableData env.newTableDataNull pTable with
      | none =>
        rw [htd] at hin
        exact hext [Ev.dropIndex] (by simp [Ev.isAlloc]) hin
      | some td =>
        rw [htd] at hin
        exact hext [Ev.dropIndex, Ev.newIndex] (by simp [Ev.isAlloc])
          (tsdbInsertRowToMem_put_alloc_events _ _ _ _ _ _ _ _ e he hin)
    · rw [if_neg hne] at hin
      exact tsdbInsertRowToMem_put_alloc_events _ _ _ _ _ _ _ _ e he hin
  | none =>
    rw [hget] at hin
    simp only at hin
    cases htd : tsdbNewTableData env.newTableDataNull pTable with
    | none =>
      rw [htd] at hin
      exact hin
    | some td =>
      rw [htd] at hin
      exact hext [Ev.newIndex] (by simp [Ev.isAlloc])
        (tsdbInsertRowToMem_put_alloc_events _ _ _ _ _ _ _ _ e he hin)

/-- Lines 60-102 leave every block where it is. -/
theorem tsdbInsertRowToMem_link_blockIds (r : STsdbRepo) (m : SMemTable) (row : SDataRow)
    (pTable : STable) (bytes : Int) (env : InsertEnv) (t : List Ev) (hm : r.mem = some m) :
    ownedBlockIds (tsdbInsertRowToMem_link r m row pTable bytes env t).repo =
      ownedBlockIds r := by
  have hr : ∀ m1 : SMemTable, m1.bufBlockList = m.bufBlockList →
      ownedBlockIds { r with mem := some m1 } = ownedBlockIds r := by
    intro m1 h1
    simp only [ownedBlockIds_eq, hm, h1]
  have hput : ∀ (m1 : SMemTable) (td : STableData) (t1 : List Ev),
      m1.bufBlockList = m.bufBlockList →
      ownedBlockIds (tsdbInsertRowToMem_put r m1 td row pTable bytes env.putNull t1).repo =
        ownedBlockIds r := by
    intro m1 td t1 h1
    unfold tsdbInsertRowToMem_put
    simp only
    split
    · rw [tsdbFreeBytes_blockIds]; exact hr m1 h1
    · exact hr _ h1
  unfold tsdbInsertRowToMem_link
  simp only
  split
  · split
    · split
      · rw [tsdbFreeBytes_blockIds]; exact hr _ rfl
      · exact hput _ _ _ rfl
    · exact hput _ _ _ rfl
  · split
    · rw [tsdbFreeBytes_blockIds]; exact hr _ rfl
    · exact hput _ _ _ rfl

/-- A clean call of `tsdbInsertRowToMem` from a repository in a commit state: every swap of
the call finds the immutable slot empty and the flag 0, the block ids of the three lists are
permuted, and the repository is in a commit state again. -/
theorem tsdbInsertRowToMem_clean (r : STsdbRepo) (row : SDataRow) (pTable : STable)
    (env : InsertEnv) (hc : CommitState r) (he : env.alloc.swapClean) :
    CommitState (tsdbInsertRowToMem r row pTable env).repo ∧
    (ownedBlockIds (tsdbInsertRowToMem r row pTable env).repo).Perm (ownedBlockIds r) ∧
    ∀ h c, Ev.swap h c ∈ (tsdbInsertRowToMem r row pTable env).trace → h = false ∧ c = 0 := by
  have ha := tsdbAllocBytes_clean r (env.headSize + row.len) env.alloc hc he
  rcases tsdbInsertRowToMem_eq r row pTable env with ⟨heq, _⟩ | ⟨heq, _⟩ | ⟨pm, i, off, hm, _, heq⟩
  · rw [heq]; exact ha
  · rw [heq]; exact ha
  · rw [heq]
    obtain ⟨_, _, h1, h2, h3⟩ := tsdbInsertRowToMem_link_frame
      (tsdbAllocBytes r (env.headSize + row.len) env.alloc).repo pm row pTable
      (env.headSize + row.len) env (tsdbAllocBytes r (env.headSize + row.len) env.alloc).trace
    refine ⟨?_, ?_, ?_⟩
    · unfold CommitState
      rw [h1, h2, h3]
      exact ha.1
    · rw [tsdbInsertRowToMem_link_blockIds _ pm row pTable _ env _ hm]
      exact ha.2.1
    · intro h c hin
      exact ha.2.2 h c (tsdbInsertRowToMem_link_alloc_events _ _ _ _ _ _ _ _ rfl hin)

/-- The part of C5 and C9 that the code keeps.  In every state of a repository whose swaps
are clean and whose commit tasks all reach the statements behind `_exit`: the block ids of
the pool, the active generation and the immutable generation are a permutation of the block
ids of the initial pool (no block is lost, none is duplicated), and the repository has either
no immutable generation with `commit = 0`, or one with `commit = 1` and its task running. -/
theorem clean_repository_owns_every_block (cfg : STsdbCfg) (pool : List STsdbBufBlock)
    (r : STsdbRepo) (h : ReachableClean cfg pool r) :
    CommitState r ∧ (ownedBlockIds r).Perm (pool.map STsdbBufBlock.blockId) := by
  induction h with
  | init =>
    refine ⟨Or.inl ⟨rfl, rfl, rfl⟩, ?_⟩
    simp [ownedBlockIds_eq, emptyRepo]
  | insert r0 row pTable env _ he ih =>
    obtain ⟨h1, h2, _⟩ := tsdbInsertRowToMem_clean r0 row pTable env ih.1 he
    exact ⟨h1, h2.trans ih.2⟩
  | commitDone r0 env _ _ he ih =>
    obtain ⟨h1, h2, h3, h4⟩ := tsdbCommitData_clean env r0 he
    exact ⟨Or.inl ⟨h1, h2, h3⟩, h4.trans ih.2⟩

/-- The part of C9 that the code keeps: in such a repository every swap of a clean call finds
the immutable slot empty and `commit = 0`. -/
theorem clean_swap_finds_no_immutable (cfg : STsdbCfg) (pool : List STsdbBufBlock)
    (r : STsdbRepo) (h : ReachableClean cfg pool r) (row : SDataRow) (pTable : STable)
    (env : InsertEnv) (he : env.alloc.swapClean) (hadImem : Bool) (c : Int)
    (hin : Ev.swap hadImem c ∈ (tsdbInsertRowToMem r row pTable env).trace) :
    hadImem = false ∧ c = 0 :=
  (tsdbInsertRowToMem_clean r row pTable env
    (clean_repository_owns_every_block cfg pool r h).1 he).2.2 hadImem c hin

/-! ## The release of a generation (C11, C12) -/

/-- The amended C11.  For every generation `g` and pool `p`, `tsdbUnRefMemTable` lowers the
reference count of `g` by one.  If the result is zero and `tsdbLockRepo` succeeds (line 120),
the free list of the pool afterwards is the old free list followed by the blocks of `g` in
their order, the block list of `g` is empty and the pool has grown by the block count of `g`.
If the result is not zero, the call returns 0, the free list is unchanged and so are the
block list, the indexes and the statistics of `g`. -/
theorem C11_unref_returns_blocks_under_lock (env : UnRefEnv) (p : List STsdbBufBlock)
    (g : SMemTable) :
    (tsdbUnRefMemTable env p g).mem.ref = g.ref - 1 ∧
    (g.ref - 1 = 0 → env.lockFails = false →
      (tsdbUnRefMemTable env p g).pPool = p ++ g.bufBlockList ∧
      (tsdbUnRefMemTable env p g).mem.bufBlockList = [] ∧
      (tsdbUnRefMemTable env p g).pPool.length = p.length + g.bufBlockList.length) ∧
    (g.ref - 1 ≠ 0 →
      (tsdbUnRefMemTable env p g).ret = 0 ∧ (tsdbUnRefMemTable env p g).pPool = p ∧
      (tsdbUnRefMemTable env p g).mem = { g with ref := g.ref - 1 } ∧
      (tsdbUnRefMemTable env p g).freed = false) := by
  unfold tsdbUnRefMemTable
  simp only
  refine ⟨?_, ?_, ?_⟩
  · repeat' split
    all_goals rfl
  · intro h0 hl
    rw [if_pos h0, hl]
    simp only [Bool.false_eq_true, if_false, moveBlocks_eq]
    repeat' split
    all_goals simp
  · intro h0
    rw [if_neg h0]
    exact ⟨rfl, rfl, rfl, rfl⟩

/-- The amended C11 at the generation with two blocks and one reference, and a pool of two
free blocks. -/
theorem C11_unref_returns_blocks_under_lock_witness :
    (twoBlocksGen.ref - 1 = 0 ∧ UnRefEnv.ok.lockFails = false) ∧
    tornDownOut.mem.ref = twoBlocksGen.ref - 1 ∧
    tornDownOut.pPool = pool23 ++ twoBlocksGen.bufBlockList ∧
    tornDownOut.mem.bufBlockList = [] ∧
    tornDownOut.pPool.length = pool23.length + twoBlocksGen.bufBlockList.length :=
  ⟨⟨by decide, rfl⟩,
   (C11_unref_returns_blocks_under_lock UnRefEnv.ok pool23 twoBlocksGen).1,
   (C11_unref_returns_blocks_under_lock UnRefEnv.ok pool23 twoBlocksGen).2.1 (by decide) rfl⟩

/-- C11 as stated fails: when `tsdbLockRepo` fails at line 120, the reference count has
reached zero, the call returns -1, the free list is unchanged and the generation keeps its
two blocks. -/
theorem C11_lock_failure_keeps_blocks :
    lockFailsOut.mem.ref = 0 ∧ lockFailsOut.ret = -1 ∧ lockFailsOut.pPool = pool23 ∧
    lockFailsOut.mem.bufBlockList = twoBlocksGen.bufBlockList ∧
    lockFailsOut.mem.bufBlockList.length = 2 := by
  decide

/-- The amended C12.  For every generation object that is still allocated and whose
reference count is zero already (the count reached zero in a call whose teardown did not
come to its end), `tsdbUnRefMemTable` does not run the teardown: it returns 0, the free list of
the pool is unchanged, nothing is released, and the generation is unchanged but for its
counter, now -1.  A call that has completed the teardown has released the object, and a
second call through the same pointer has no defined outcome. -/
theorem C12_second_unref_is_no_teardown (env : UnRefEnv) (p : List STsdbBufBlock)
    (g : SMemTable) (h : g.ref = 0) :
    tsdbUnRefMemTable_at env p (.live g) = some (tsdbUnRefMemTable env p g) ∧
    (tsdbUnRefMemTable env p g).ret = 0 ∧ (tsdbUnRefMemTable env p g).pPool = p ∧
    (tsdbUnRefMemTable env p g).freed = false ∧
    (tsdbUnRefMemTable env p g).mem = { g with ref := -1 } ∧
    (∀ env1 p1 g1, (tsdbUnRefMemTable env1 p1 g1).mem = g →
      (((tsdbUnRefMemTable env1 p1 g1).freed = false →
          tsdbUnRefMemTable_at env (tsdbUnRefMemTable env1 p1 g1).pPool
            (tsdbUnRefMemTable env1 p1 g1).ref = some (tsdbUnRefMemTable env
              (tsdbUnRefMemTable env1 p1 g1).pPool g)) ∧
        ((tsdbUnRefMemTable env1 p1 g1).freed = true →
          tsdbUnRefMemTable_at env (tsdbUnRefMemTable env1 p1 g1).pPool
            (tsdbUnRefMemTable env1 p1 g1).ref = none))) := by
  refine ⟨rfl, ?_, ?_, ?_, ?_, ?_⟩
  · unfold tsdbUnRefMemTable
    simp only [h]
    rfl
  · unfold tsdbUnRefMemTable
    simp only [h]
    rfl
  · unfold tsdbUnRefMemTable
    simp only [h]
    rfl
  · unfold tsdbUnRefMemTable
    simp only [h]
    rfl
  · intro env1 p1 g1 hg
    refine ⟨fun hf => ?_, fun hf => ?_⟩
    · simp only [UnRefOut.ref, hf, Bool.false_eq_true, if_false, tsdbUnRefMemTable_at, hg]
    · simp only [UnRefOut.ref, hf, if_true, tsdbUnRefMemTable_at]

/-- The amended C12 at the generation of `lockFailsOut`, whose count reached zero in a call
whose `tsdbLockRepo` failed: the object is still allocated, the second call returns 0 and
leaves the free list and the two blocks of the generation as they are. -/
theorem C12_second_unref_is_no_teardown_witness :
    lockFailsOut.mem.ref = 0 ∧ lockFailsOut.freed = false ∧ lockFailsOut.pPool = pool23 ∧
    tsdbUnRefMemTable_at UnRefEnv.ok lockFailsOut.pPool lockFailsOut.ref =
      some (tsdbUnRefMemTable UnRefEnv.ok lockFailsOut.pPool lockFailsOut.mem) ∧
    (tsdbUnRefMemTable UnRefEnv.ok lockFailsOut.pPool lockFailsOut.mem).ret = 0 ∧
    (tsdbUnRefMemTable UnRefEnv.ok lockFailsOut.pPool lockFailsOut.mem).pPool = pool23 ∧
    (tsdbUnRefMemTable UnRefEnv.ok lockFailsOut.pPool lockFailsOut.mem).freed = false ∧
    (tsdbUnRefMemTable UnRefEnv.ok lockFailsOut.pPool lockFailsOut.mem).mem.bufBlockList =
      twoBlocksGen.bufBlockList :=
  ⟨by decide, by decide, by decide,
   ((C12_second_unref_is_no_teardown UnRefEnv.ok lockFailsOut.pPool lockFailsOut.mem
     (by decide)).2.2.2.2.2 lockFailsEnv pool23 twoBlocksGen rfl).1 (by decide),
   (C12_second_unref_is_no_teardown UnRefEnv.ok lockFailsOut.pPool lockFailsOut.mem
     (by decide)).2.1,
   (C12_second_unref_is_no_teardown UnRefEnv.ok lockFailsOut.pPool lockFailsOut.mem
     (by decide)).2.2.1,
   (C12_second_unref_is_no_teardown UnRefEnv.ok lockFailsOut.pPool lockFailsOut.mem
     (by decide)).2.2.2.1, by decide⟩

/-- C12 as stated fails: the call of `tornDownOut` brought the count of the generation to
zero and ran the teardown, which moved the two blocks to the free list and released the
generation (line 141); the second call through the same pointer reads the counter in
released memory at line 115 and has no defined outcome. -/
theorem C12_second_unref_reads_released_memory :
    tornDownOut.mem.ref = 0 ∧ tornDownOut.ret = 0 ∧ tornDownOut.freed = true ∧
    tornDownOut.pPool = [⟨2, 0, 100⟩, ⟨3, 0, 100⟩, ⟨0, 60, 40⟩, ⟨1, 60, 40⟩] ∧
    tornDownOut.ref = .released ∧
    tsdbUnRefMemTable_at UnRefEnv.ok tornDownOut.pPool tornDownOut.ref = none := by
  decide

/-! ## The bump at the tail block (C14, C15) -/

theorem commitMem_ret (r : STsdbRepo) (env : AllocEnv) (o : AllocOut)
    (h : tsdbAllocBytes_commitMem r env = .ret o) : o.ret = .null := by
  unfold tsdbAllocBytes_commitMem at h
  simp only at h
  repeat' split at h
  all_goals first
    | (cases h; rfl)
    | cases h

theorem addBlock_ret (r : STsdbRepo) (m : SMemTable) (env : AllocEnv) (o : AllocOut)
    (h : tsdbAllocBytes_addBlock r m env = .ret o) : o.ret = .null ∨ o.ret = .waiting := by
  unfold tsdbAllocBytes_addBlock at h
  simp only at h
  repeat' split at h
  all_goals first
    | (cases h; exact Or.inl rfl)
    | (cases h; exact Or.inr rfl)
    | cases h

theorem ensure_ret (r : STsdbRepo) (bytes : Int) (env : AllocEnv) (o : AllocOut)
    (h : tsdbAllocBytes_ensure r bytes env = .ret o) : o.ret = .null ∨ o.ret = .waiting := by
  unfold tsdbAllocBytes_ensure at h
  repeat' split at h
  all_goals first
    | exact Or.inl (commitMem_ret _ _ _ h)
    | exact addBlock_ret _ _ _ _ h
    | cases h

theorem newMem_ret (r : STsdbRepo) (t : List Ev) (env : AllocEnv) (o : AllocOut)
    (h : tsdbAllocBytes_newMem r t env = .ret o) : o.ret = .null ∨ o.ret = .waiting := by
  unfold tsdbAllocBytes_newMem at h
  simp only at h
  repeat' split at h
  all_goals first
    | (cases h; exact Or.inl rfl)
    | (cases h; exact Or.inr rfl)
    | cases h

/-- The call is the bump of line 217 behind the steps in front of it. -/
theorem tsdbAllocBytes_of_space (r : STsdbRepo) (bytes : Int) (env : AllocEnv) :
    tsdbAllocBytes r bytes env =
      match tsdbAllocBytes_space r bytes env with
      | .ret o => o
      | .next r2 t2 => tsdbAllocBytes_bump r2 bytes t2 := by
  unfold tsdbAllocBytes tsdbAllocBytes_space
  cases tsdbAllocBytes_ensure r bytes env with
  | ret o => rfl
  | next r1 t1 =>
    simp only

/-- A call that returns a region has reached line 217. -/
theorem tsdbAllocBytes_ptr (r : STsdbRepo) (bytes : Int) (env : AllocEnv) (i : Nat) (off : Int)
    (h : (tsdbAllocBytes r bytes env).ret = .ptr i off) :
    ∃ r2 t2, tsdbAllocBytes_space r bytes env = .next r2 t2 ∧
      tsdbAllocBytes r bytes env = tsdbAllocBytes_bump r2 bytes t2 := by
  have hs := tsdbAllocBytes_of_space r bytes env
  unfold tsdbAllocBytes_space at hs ⊢
  cases he : tsdbAllocBytes_ensure r bytes env with
  | ret o =>
    rw [he] at hs
    simp only at hs
    rw [hs] at h
    rcases ensure_ret r bytes env o he with h1 | h1 <;> rw [h1] at h <;> cases h
  | next r1 t1 =>
    rw [he] at hs
    simp only at hs ⊢
    cases hn : tsdbAllocBytes_newMem r1 t1 env with
    | ret o =>
      rw [hn] at hs
      simp only at hs
      rw [hs] at h
      rcases newMem_ret r1 t1 env o hn with h1 | h1 <;> rw [h1] at h <;> cases h
    | next r2 t2 =>
      rw [hn] at hs
      exact ⟨r2, t2, rfl, hs⟩

/-- Lines 217-223: a bump that returns a region found a tail block, returns its offset and
moves its offset and its remaining capacity by `bytes`. -/
theorem bump_ptr (r : STsdbRepo) (bytes : Int) (t : List Ev) (i : Nat) (off : Int)
    (h : (tsdbAllocBytes_bump r bytes t).ret = .ptr i off) :
    ∃ m b, r.mem = some m ∧ m.bufBlockList.getLast? = some b ∧ i = b.blockId ∧
      off = b.offset ∧
      (tsdbAllocBytes_bump r bytes t).repo =
        { r with mem := some { m with bufBlockList := m.bufBlockList.dropLast ++
            [{ b with offset := b.offset + bytes, remain := b.remain - bytes }] } } := by
  unfold tsdbAllocBytes_bump at h ⊢
  cases hm : r.mem with
  | none => rw [hm] at h; cases h
  | some m =>
    rw [hm] at h
    simp only at h ⊢
    cases hb : m.bufBlockList.getLast? with
    | none => rw [hb] at h; cases h
    | some b =>
      rw [hb] at h
      simp only at h ⊢
      cases h
      exact ⟨m, b, rfl, hb, rfl, rfl, rfl⟩

/-! ### Where the tail block of line 217 comes from -/

theorem tsdbUnRefMemTable_pool (env : UnRefEnv) (p : List STsdbBufBlock) (g : SMemTable) :
    ∀ b ∈ (tsdbUnRefMemTable env p g).pPool, b ∈ p ∨ b ∈ g.bufBlockList := by
  intro b hb
  unfold tsdbUnRefMemTable at hb
  simp only [moveBlocks_eq] at hb
  repeat' split at hb
  all_goals first
    | exact Or.inl hb
    | exact List.mem_append.mp hb

theorem tsdbCommitData_pool (env : CommitEnv) (r : STsdbRepo) :
    (∀ b ∈ (tsdbCommitData env r).pPool,
      b ∈ r.pPool ∨ ∃ im, r.imem = some im ∧ b ∈ im.bufBlockList) ∧
    ((tsdbCommitData env r).imem = none ∨ (tsdbCommitData env r).imem = r.imem) := by
  unfold tsdbCommitData
  split
  · exact ⟨fun b hb => Or.inl hb, Or.inr rfl⟩
  · split
    · next h => exact ⟨fun b hb => Or.inl hb, Or.inl h⟩
    · next im h =>
      refine ⟨fun b hb => ?_, Or.inl rfl⟩
      rcases List.mem_append.mp hb with h1 | h1
      · exact Or.inl h1
      · exact Or.inr ⟨im, h, h1⟩

/-- The branch of line 166 that falls through leaves the active slot empty and a pool made
of blocks of the former pool and of the former immutable generation. -/
theorem commitMem_pool (r : STsdbRepo) (env : AllocEnv) (r1 : STsdbRepo) (t1 : List Ev)
    (h : tsdbAllocBytes_commitMem r env = .next r1 t1) :
    r1.mem = none ∧
    ∀ b ∈ r1.pPool, b ∈ r.pPool ∨ ∃ im, r.imem = some im ∧ b ∈ im.bufBlockList := by
  have hA : ∀ b ∈ (if r.imem.isSome ∧ r.commitThread then tsdbCommitData env.task r
      else r).pPool, b ∈ r.pPool ∨ ∃ im, r.imem = some im ∧ b ∈ im.bufBlockList := by
    intro b hb
    split at hb
    · exact (tsdbCommitData_pool env.task r).1 b hb
    · exact Or.inl hb
  have hB : ∀ old, (if r.imem.isSome ∧ r.commitThread then tsdbCommitData env.task r
      else r).imem = some old → r.imem = some old := by
    intro old ho
    split at ho
    · rcases (tsdbCommitData_pool env.task r).2 with h1 | h1
      · rw [h1] at ho; cases ho
      · rw [h1] at ho; exact ho
    · exact ho
  unfold tsdbAllocBytes_commitMem at h
  simp only at h
  generalize (if r.imem.isSome ∧ r.commitThread then tsdbCommitData env.task r else r) = r1'
    at h hA hB
  split at h
  · cases h
  split at h
  · cases h
  split at h
  · cases h
  split at h
  · cases h
  split at h
  · cases h
    exact ⟨rfl, hA⟩
  · next old hold =>
    split at h
    · cases h
    · cases h
      refine ⟨rfl, fun b hb => ?_⟩
      rcases tsdbUnRefMemTable_pool _ _ _ b hb with h1 | h1
      · exact hA b h1
      · exact Or.inr ⟨old, hB old hold, h1⟩

theorem newMem_tail (r : STsdbRepo) (t : List Ev) (env : AllocEnv) (r2 : STsdbRepo)
    (t2 : List Ev) (hm : r.mem = none) (h : tsdbAllocBytes_newMem r t env = .next r2 t2) :
    ∃ nb, nb ∈ r.pPool ∧ tsdbGetCurrBufBlock r2 = some (clearedBlock nb) := by
  rcases newMem_flow r t env hm with h1 | h1 | ⟨nb, rest, hp, h1 | h1⟩
  · rw [h1] at h; cases h
  · rw [h1] at h; cases h
  · rw [h1] at h
    cases h
    exact ⟨nb, by rw [hp]; exact List.mem_cons_self _ _, by simp [tsdbGetCurrBufBlock]⟩
  · rw [h1] at h; cases h

theorem newMem_some (r : STsdbRepo) (t : List Ev) (env : AllocEnv) (m : SMemTable)
    (hm : r.mem = some m) : tsdbAllocBytes_newMem r t env = .next r t := by
  unfold tsdbAllocBytes_newMem
  rw [hm]

theorem addBlock_tail (r : STsdbRepo) (m : SMemTable) (env : AllocEnv) (r1 : STsdbRepo)
    (t1 : List Ev) (h : tsdbAllocBytes_addBlock r m env = .next r1 t1) :
    ∃ nb, nb ∈ r.pPool ∧ tsdbGetCurrBufBlock r1 = some (clearedBlock nb) ∧
      r1.mem.isSome = true := by
  unfold tsdbAllocBytes_addBlock tsdbAllocBufBlockFromPool at h
  split at h
  · cases h
  · cases hp : r.pPool with
    | nil => rw [hp] at h; cases h
    | cons nb rest =>
      rw [hp] at h
      simp only at h
      split at h
      · cases h
      · cases h
        exact ⟨nb, List.mem_cons_self _ _, by simp [tsdbGetCurrBufBlock], rfl⟩

/-- The tail block that a call finds at line 217 is the former tail block, with room for the
request, or a block that the call has taken from the pool, cleared; such a block was in the
pool or in the immutable generation when the call began. -/
theorem space_tail (r : STsdbRepo) (bytes : Int) (env : AllocEnv) (r2 : STsdbRepo)
    (t2 : List Ev) (b : STsdbBufBlock)
    (hs : tsdbAllocBytes_space r bytes env = .next r2 t2)
    (hb : tsdbGetCurrBufBlock r2 = some b) :
    (tsdbGetCurrBufBlock r = some b ∧ bytes ≤ b.remain) ∨
      ∃ nb, b = clearedBlock nb ∧
        (nb ∈ r.pPool ∨ ∃ im, r.imem = some im ∧ nb ∈ im.bufBlockList) := by
  unfold tsdbAllocBytes_space at hs
  cases he : tsdbAllocBytes_ensure r bytes env with
  | ret o => rw [he] at hs; cases hs
  | next r1 t1 =>
    rw [he] at hs
    simp only at hs
    unfold tsdbAllocBytes_ensure at he
    split at he
    · next m pb hm hpb =>
      split at he
      · split at he
        · obtain ⟨hmem, hpool⟩ := commitMem_pool r env r1 t1 he
          obtain ⟨nb, hnb, htail⟩ := newMem_tail r1 t1 env r2 t2 hmem hs
          rw [htail] at hb; cases hb
          exact Or.inr ⟨nb, rfl, hpool nb hnb⟩
        · obtain ⟨nb, hnb, htail, hsome⟩ := addBlock_tail r m env r1 t1 he
          cases hm1 : r1.mem with
          | none => rw [hm1] at hsome; cases hsome
          | some m1 =>
            rw [newMem_some r1 t1 env m1 hm1] at hs
            cases hs
            rw [htail] at hb; cases hb
            exact Or.inr ⟨nb, rfl, Or.inl hnb⟩
      · next hlt =>
        cases he
        rw [newMem_some r [] env m hm] at hs
        cases hs
        rw [hpb] at hb; cases hb
        exact Or.inl ⟨hpb, by omega⟩
    · next hno =>
      cases he
      cases hm : r.mem with
      | none =>
        obtain ⟨nb, hnb, htail⟩ := newMem_tail r [] env r2 t2 hm hs
        rw [htail] at hb; cases hb
        exact Or.inr ⟨nb, rfl, Or.inl hnb⟩
      | some m =>
        rw [newMem_some r [] env m hm] at hs
        cases hs
        exact absurd hb (by
          intro hb2
          exact hno m b hm hb2)

/-! ### The size of the blocks -/

theorem blockSize_clearedBlock (b : STsdbBufBlock) : blockSize (clearedBlock b) = blockSize b := by
  simp [blockSize, clearedBlock]

theorem tsdbCommitData_sizes (S : Int) (env : CommitEnv) (r : STsdbRepo)
    (h : BlockSizeInv S r) : BlockSizeInv S (tsdbCommitData env r) := by
  obtain ⟨h1, h2, h3⟩ := h
  unfold tsdbCommitData
  split
  · exact ⟨h1, h2, h3⟩
  · split
    · exact ⟨h1, h2, h3⟩
    · next im him =>
      refine ⟨fun b hb => ?_, h2, fun _ hm => Option.noConfusion hm⟩
      rcases List.mem_append.mp hb with hb | hb
      · exact h1 b hb
      · exact h3 im him b hb

theorem commitMem_sizes (S : Int) (r : STsdbRepo) (env : AllocEnv) (h : BlockSizeInv S r) :
    BlockSizeInv S (tsdbAllocBytes_commitMem r env).repo := by
  have hA : BlockSizeInv S (if r.imem.isSome ∧ r.commitThread then tsdbCommitData env.task r
      else r) := by
    split
    · exact tsdbCommitData_sizes S env.task r h
    · exact h
  unfold tsdbAllocBytes_commitMem
  simp only
  generalize (if r.imem.isSome ∧ r.commitThread then tsdbCommitData env.task r
    else r) = r1 at hA
  obtain ⟨a1, a2, a3⟩ := hA
  have hswap : ∀ c th, BlockSizeInv S
      { r1 with imem := r1.mem, mem := none, commit := c, commitThread := th } :=
    fun c th => ⟨a1, fun _ hm => Option.noConfusion hm, a2⟩
  split
  · exact h
  split
  · exact ⟨a1, a2, a3⟩
  split
  · exact hswap _ _
  split
  · exact hswap _ _
  split
  · exact hswap _ _
  · next old hold =>
    have hu : ∀ b ∈ (tsdbUnRefMemTable env.unref r1.pPool old).pPool, blockSize b = S := by
      intro b hb
      rcases tsdbUnRefMemTable_pool _ _ _ b hb with hb | hb
      · exact a1 b hb
      · exact a3 old hold b hb
    split
    · exact ⟨hu, fun _ hm => Option.noConfusion hm, a2⟩
    · exact ⟨hu, fun _ hm => Option.noConfusion hm, a2⟩

theorem addBlock_sizes (S : Int) (r : STsdbRepo) (m : SMemTable) (env : AllocEnv)
    (hm : r.mem = some m) (h : BlockSizeInv S r) :
    BlockSizeInv S (tsdbAllocBytes_addBlock r m env).repo := by
  obtain ⟨h1, h2, h3⟩ := h
  unfold tsdbAllocBytes_addBlock tsdbAllocBufBlockFromPool
  split
  · exact ⟨h1, h2, h3⟩
  · cases hp : r.pPool with
    | nil => exact ⟨h1, h2, h3⟩
    | cons nb rest =>
      rw [hp] at h1
      have hnew : BlockSizeInv S
          { r with pPool := rest,
                   mem := some { m with bufBlockList := m.bufBlockList ++ [clearedBlock nb] } } := by
        refine ⟨fun b hb => h1 b (List.mem_cons_of_mem _ hb), fun m' hm' b hb => ?_, h3⟩
        cases hm'
        rcases List.mem_append.mp hb with hb | hb
        · exact h2 m hm b hb
        · rw [List.mem_singleton.mp hb, blockSize_clearedBlock]
          exact h1 nb (List.mem_cons_self _ _)
      simp only
      split
      · exact hnew
      · exact hnew

theorem newMem_sizes (S : Int) (r : STsdbRepo) (t : List Ev) (env : AllocEnv)
    (h : BlockSizeInv S r) : BlockSizeInv S (tsdbAllocBytes_newMem r t env).repo := by
  cases hm : r.mem with
  | some m =>
    rw [newMem_some r t env m hm]
    exact h
  | none =>
    obtain ⟨h1, h2, h3⟩ := h
    have hnew : ∀ nb rest, r.pPool = nb :: rest →
        BlockSizeInv S
          { r with pPool := rest,
                   mem := some { freshMem r.config with bufBlockList := [clearedBlock nb] } } := by
      intro nb rest hp
      rw [hp] at h1
      refine ⟨fun b hb => h1 b (List.mem_cons_of_mem _ hb), fun m' hm' b hb => ?_, h3⟩
      cases hm'
      rw [List.mem_singleton.mp hb, blockSize_clearedBlock]
      exact h1 nb (List.mem_cons_self _ _)
    rcases newMem_flow r t env hm with h0 | h0 | ⟨nb, rest, hp, h0 | h0⟩
    · rw [h0]; exact ⟨h1, h2, h3⟩
    · rw [h0]; exact ⟨h1, h2, h3⟩
    · rw [h0]; exact hnew nb rest hp
    · rw [h0]; exact hnew nb rest hp

/-- Replacing the tail block by one of the same size keeps the sizes. -/
theorem tail_sizes (S : Int) (r : STsdbRepo) (m : SMemTable) (b b1 : STsdbBufBlock)
    (hm : r.mem = some m) (hb : m.bufBlockList.getLast? = some b)
    (hs : blockSize b1 = blockSize b) (h : BlockSizeInv S r) :
    BlockSizeInv S
      { r with mem := some { m with bufBlockList := m.bufBlockList.dropLast ++ [b1] } } := by
  obtain ⟨h1, h2, h3⟩ := h
  refine ⟨h1, fun m' hm' x hx => ?_, h3⟩
  cases hm'
  rcases List.mem_append.mp hx with hx | hx
  · exact h2 m hm x (List.dropLast_subset _ hx)
  · rw [List.mem_singleton.mp hx, hs]
    exact h2 m hm b (List.mem_of_mem_getLast? (by rw [hb]; exact rfl))

theorem bump_sizes (S : Int) (r : STsdbRepo) (bytes : Int) (t : List Ev)
    (h : BlockSizeInv S r) : BlockSizeInv S (tsdbAllocBytes_bump r bytes t).repo := by
  unfold tsdbAllocBytes_bump
  split
  · exact h
  · next m hm =>
    split
    · exact h
    · next b hb =>
      exact tail_sizes S r m b _ hm hb (by simp only [blockSize]; omega) h

theorem tsdbFreeBytes_sizes (S : Int) (r : STsdbRepo) (bytes : Int) (h : BlockSizeInv S r) :
    BlockSizeInv S (tsdbFreeBytes r bytes) := by
  unfold tsdbFreeBytes
  split
  · exact h
  · next m hm =>
    split
    · exact h
    · next b hb =>
      exact tail_sizes S r m b _ hm hb (by simp only [blockSize]; omega) h

theorem tsdbAllocBytes_sizes (S : Int) (r : STsdbRepo) (bytes : Int) (env : AllocEnv)
    (h : BlockSizeInv S r) : BlockSizeInv S (tsdbAllocBytes r bytes env).repo := by
  have he : BlockSizeInv S (tsdbAllocBytes_ensure r bytes env).repo := by
    unfold tsdbAllocBytes_ensure
    split
    · next m b hm _ =>
      split
      · split
        · exact commitMem_sizes S r env h
        · exact addBlock_sizes S r m env hm h
      · exact h
    · exact h
  apply tsdbAllocBytes_cases r bytes env (fun o => BlockSizeInv S o.repo)
  · intro o ho
    rw [ho] at he
    exact he
  · intro r1 t1 o ho hn
    rw [ho] at he
    have := newMem_sizes S r1 t1 env he
    rw [hn] at this
    exact this
  · intro r1 t1 r2 t2 ho hn
    rw [ho] at he
    have := newMem_sizes S r1 t1 env he
    rw [hn] at this
    exact bump_sizes S r2 bytes t2 this

/-- Another active generation with the same block list keeps the sizes. -/
theorem mem_sizes (S : Int) (r : STsdbRepo) (m m1 : SMemTable)
    (hl : m1.bufBlockList = m.bufBlockList) (h : BlockSizeInv S { r with mem := some m }) :
    BlockSizeInv S { r with mem := some m1 } := by
  obtain ⟨h1, h2, h3⟩ := h
  refine ⟨h1, fun m' hm' b hb => ?_, h3⟩
  cases hm'
  rw [hl] at hb
  exact h2 m rfl b hb

theorem tsdbInsertRowToMem_put_sizes (S : Int) (r : STsdbRepo) (m : SMemTable)
    (td : STableData) (row : SDataRow) (pTable : STable) (bytes : Int) (putNull : Bool)
    (t : List Ev) (h : BlockSizeInv S { r with mem := some m }) :
    BlockSizeInv S (tsdbInsertRowToMem_put r m td row pTable bytes putNull t).repo := by
  unfold tsdbInsertRowToMem_put
  simp only
  split
  · exact tsdbFreeBytes_sizes S _ bytes h
  · exact mem_sizes S r m _ rfl h

theorem tsdbInsertRowToMem_link_sizes (S : Int) (r : STsdbRepo) (m : SMemTable)
    (row : SDataRow) (pTable : STable) (bytes : Int) (env : InsertEnv) (t : List Ev)
    (h : BlockSizeInv S { r with mem := some m }) :
    BlockSizeInv S (tsdbInsertRowToMem_link r m row pTable bytes env t).repo := by
  unfold tsdbInsertRowToMem_link
  simp only
  split
  · split
    · split
      · exact tsdbFreeBytes_sizes S _ bytes (mem_sizes S r m _ rfl h)
      · exact tsdbInsertRowToMem_put_sizes S r _ _ row pTable bytes env.putNull _
          (mem_sizes S r m _ rfl h)
    · exact tsdbInsertRowToMem_put_sizes S r _ _ row pTable bytes env.putNull _ h
  · split
    · exact tsdbFreeBytes_sizes S _ bytes h
    · exact tsdbInsertRowToMem_put_sizes S r _ _ row pTable bytes env.putNull _
        (mem_sizes S r m _ rfl h)

theorem tsdbInsertRowToMem_sizes (S : Int) (r : STsdbRepo) (row : SDataRow) (pTable : STable)
    (env : InsertEnv) (h : BlockSizeInv S r) :
    BlockSizeInv S (tsdbInsertRowToMem r row pTable env).repo := by
  have ha := tsdbAllocBytes_sizes S r (env.headSize + row.len) env.alloc h
  rcases tsdbInsertRowToMem_eq r row pTable env with ⟨he, _⟩ | ⟨he, _⟩ | ⟨pm, i, off, hm, _, he⟩
  · rw [he]; exact ha
  · rw [he]; exact ha
  · rw [he]
    apply tsdbInsertRowToMem_link_sizes
    obtain ⟨h1, h2, h3⟩ := ha
    refine ⟨h1, fun m' hm' b hb => ?_, h3⟩
    cases hm'
    exact h2 pm hm b hb

/-- In every repository built from a pool of blocks of `S` bytes, every block has `S`
bytes. -/
theorem Reachable.block_sizes (cfg : STsdbCfg) (pool : List STsdbBufBlock) (S : Int)
    (hpool : ∀ b ∈ pool, blockSize b = S) (r : STsdbRepo) (h : Reachable cfg pool r) :
    BlockSizeInv S r := by
  induction h with
  | init => exact ⟨hpool, fun _ hm => Option.noConfusion hm, fun _ hm => Option.noConfusion hm⟩
  | insert r0 row pTable env _ _ _ ih => exact tsdbInsertRowToMem_sizes S r0 row pTable env ih
  | commitDone r0 env _ _ ih => exact tsdbCommitData_sizes S env r0 ih

/-- Lines 226-232 behind lines 217-223: giving the bytes back restores the repository of
line 217. -/
theorem tsdbFreeBytes_bump (r : STsdbRepo) (bytes : Int) (t : List Ev) (m : SMemTable)
    (b : STsdbBufBlock) (hm : r.mem = some m) (hb : m.bufBlockList.getLast? = some b) :
    tsdbFreeBytes (tsdbAllocBytes_bump r bytes t).repo bytes = r := by
  obtain ⟨cfg, pool, mem, imem, c, th⟩ := r
  simp only at hm
  subst hm
  obtain ⟨ref, kf, kl, n, mc, mr, td, bl⟩ := m
  simp only at hb
  obtain ⟨id, off, rem⟩ := b
  have hl : bl.dropLast ++ [(⟨id, off, rem⟩ : STsdbBufBlock)] = bl :=
    List.dropLast_append_getLast? _ (by rw [hb]; rfl)
  simp only [tsdbAllocBytes_bump, tsdbFreeBytes, hb, List.getLast?_concat,
    List.dropLast_concat, Int.add_sub_cancel, Int.sub_add_cancel, hl]

/-- The amended C14.  For every call of `tsdbAllocBytes` that returns a region (no lock,
thread or pool operation fails): the region starts at the offset that the tail block of the
active generation has at line 217, and the call moves the offset of that block forward by
`bytes` and its remaining capacity down by `bytes`.  The block is the former tail block,
which has room for the request, or a block that the call has taken from the pool, cleared
(it was in the pool or in the immutable generation when the call began).  In every
repository built by inserts and commits from a pool of blocks of `S` bytes, the assertion of
line 218 holds for every request of at most `S` bytes. -/
theorem C14_bump_at_tail_block (r : STsdbRepo) (bytes : Int) (env : AllocEnv) (i : Nat)
    (off : Int) (h : (tsdbAllocBytes r bytes env).ret = .ptr i off) :
    ∃ r2 t2 b, tsdbAllocBytes_space r bytes env = .next r2 t2 ∧
      tsdbGetCurrBufBlock r2 = some b ∧ i = b.blockId ∧ off = b.offset ∧
      tsdbGetCurrBufBlock (tsdbAllocBytes r bytes env).repo =
        some { b with offset := b.offset + bytes, remain := b.remain - bytes } ∧
      ((tsdbGetCurrBufBlock r = some b ∧ bytes ≤ b.remain) ∨
        ∃ nb, b = clearedBlock nb ∧
          (nb ∈ r.pPool ∨ ∃ im, r.imem = some im ∧ nb ∈ im.bufBlockList)) ∧
      (∀ cfg pool S, Reachable cfg pool r → (∀ nb ∈ pool, blockSize nb = S) → bytes ≤ S →
        tsdbAllocBytes_assert r2 bytes) := by
  obtain ⟨r2, t2, hs, ha⟩ := tsdbAllocBytes_ptr r bytes env i off h
  rw [ha] at h ⊢
  obtain ⟨m, b, hm, hb, hi, ho, hrepo⟩ := bump_ptr r2 bytes t2 i off h
  have htail : tsdbGetCurrBufBlock r2 = some b := by
    unfold tsdbGetCurrBufBlock
    rw [hm]
    exact hb
  have horigin := space_tail r bytes env r2 t2 b hs htail
  refine ⟨r2, t2, b, hs, htail, hi, ho, ?_, horigin, ?_⟩
  · rw [hrepo]
    simp [tsdbGetCurrBufBlock, List.getLast?_concat]
  · intro cfg pool S hr hpool hle
    obtain ⟨h1, _, h3⟩ := Reachable.block_sizes cfg pool S hpool r hr
    unfold tsdbAllocBytes_assert
    rw [htail]
    simp only [ge_iff_le]
    rcases horigin with ⟨_, hroom⟩ | ⟨nb, hnb, hp | ⟨im, him, hp⟩⟩
    · exact hroom
    · rw [hnb]
      have := h1 nb hp
      simp only [clearedBlock]
      omega
    · rw [hnb]
      have := h3 im him nb hp
      simp only [clearedBlock]
      omega

theorem recycleRun_reachable : Reachable cfgHalf pool3 recycleRun :=
  Reachable.commitDone _ CommitEnv.ok
    (Reachable.insert _ (bigRowAt 3) tableT (InsertEnv.ok 8)
      (Reachable.commitDone _ CommitEnv.ok swapOut_reachable (by decide)) (by decide)
      (by decide))
    (by decide)

/-- The amended C14 at a request of 60 bytes in `recycleRun`: the tail block has 40 bytes
left, the call swaps and takes the recycled block 0 from the pool, where it lay with 60 bytes
carved out; it is cleared, the region is its start, and the assertion holds. -/
theorem C14_bump_at_tail_block_witness :
    Reachable cfgHalf pool3 recycleRun ∧ (∀ nb ∈ pool3, blockSize nb = 100) ∧
    recycleRun.pPool = [⟨0, 60, 40⟩, ⟨1, 60, 40⟩] ∧
    tsdbGetCurrBufBlock recycleRun = some ⟨2, 60, 40⟩ ∧
    (tsdbAllocBytes recycleRun 60 AllocEnv.ok).ret = .ptr 0 0 ∧
    tsdbGetCurrBufBlock (tsdbAllocBytes recycleRun 60 AllocEnv.ok).repo = some ⟨0, 60, 40⟩ ∧
    ∃ r2 t2 b, tsdbAllocBytes_space recycleRun 60 AllocEnv.ok = .next r2 t2 ∧
      tsdbGetCurrBufBlock r2 = some b ∧ 0 = b.blockId ∧ 0 = b.offset ∧
      tsdbGetCurrBufBlock (tsdbAllocBytes recycleRun 60 AllocEnv.ok).repo =
        some { b with offset := b.offset + 60, remain := b.remain - 60 } ∧
      ((tsdbGetCurrBufBlock recycleRun = some b ∧ 60 ≤ b.remain) ∨
        ∃ nb, b = clearedBlock nb ∧
          (nb ∈ recycleRun.pPool ∨ ∃ im, recycleRun.imem = some im ∧ nb ∈ im.bufBlockList)) ∧
      (∀ cfg pool S, Reachable cfg pool recycleRun → (∀ nb ∈ pool, blockSize nb = S) →
        60 ≤ S → tsdbAllocBytes_assert r2 60) :=
  ⟨recycleRun_reachable, by decide, by decide, by decide, by decide, by decide,
    C14_bump_at_tail_block recycleRun 60 AllocEnv.ok 0 0 (by decide)⟩

/-- C14 as stated fails: a request of 200 bytes in an empty repository whose blocks have 100
bytes, with every call succeeding, reaches line 217 with a tail block of 100 remaining bytes,
so the assertion of line 218 does not hold; the bump leaves the block with offset 200 and
-100 remaining bytes. -/
theorem C14_oversize_request_breaks_assertion :
    tsdbAllocBytes_space (emptyRepo cfgHalf pool3) 200 AllocEnv.ok =
      .next oversizeSpace [Ev.acquire 0, Ev.newMem] ∧
    tsdbGetCurrBufBlock oversizeSpace = some ⟨0, 0, 100⟩ ∧
    ¬ tsdbAllocBytes_assert oversizeSpace 200 ∧
    oversizeOut.ret = .ptr 0 0 ∧
    tsdbGetCurrBufBlock oversizeOut.repo = some ⟨0, 200, -100⟩ := by
  decide

/-- C15: for every repository and size for which `tsdbAllocBytes` returns a region,
`tsdbFreeBytes` called right behind it with the same size restores the repository of line
217, and with it the offset and the remaining capacity of the tail block; the assertion of
line 231 holds for the region returned; and `offset + remain` of the tail block is the same
in front of the bump, behind it, and behind the rollback. -/
theorem C15_free_restores_tail_block (r : STsdbRepo) (bytes : Int) (env : AllocEnv) (i : Nat)
    (off : Int) (h : (tsdbAllocBytes r bytes env).ret = .ptr i off) :
    ∃ r2 t2 b, tsdbAllocBytes_space r bytes env = .next r2 t2 ∧
      tsdbGetCurrBufBlock r2 = some b ∧
      tsdbGetCurrBufBlock (tsdbAllocBytes r bytes env).repo =
        some { b with offset := b.offset + bytes, remain := b.remain - bytes } ∧
      tsdbFreeBytes (tsdbAllocBytes r bytes env).repo bytes = r2 ∧
      tsdbFreeBytes_assert (tsdbFreeBytes (tsdbAllocBytes r bytes env).repo bytes)
        (tsdbAllocBytes r bytes env).ret ∧
      tailCapacity (tsdbAllocBytes r bytes env).repo = tailCapacity r2 ∧
      tailCapacity (tsdbFreeBytes (tsdbAllocBytes r bytes env).repo bytes) =
        tailCapacity r2 := by
  obtain ⟨r2, t2, hs, ha⟩ := tsdbAllocBytes_ptr r bytes env i off h
  rw [ha] at h ⊢
  obtain ⟨m, b, hm, hb, hi, ho, hrepo⟩ := bump_ptr r2 bytes t2 i off h
  have htail : tsdbGetCurrBufBlock r2 = some b := by
    unfold tsdbGetCurrBufBlock
    rw [hm]
    exact hb
  have hfree := tsdbFreeBytes_bump r2 bytes t2 m b hm hb
  have htail1 : tsdbGetCurrBufBlock (tsdbAllocBytes_bump r2 bytes t2).repo =
      some { b with offset := b.offset + bytes, remain := b.remain - bytes } := by
    rw [hrepo]
    simp [tsdbGetCurrBufBlock, List.getLast?_concat]
  refine ⟨r2, t2, b, hs, htail, htail1, hfree, ?_, ?_, ?_⟩
  · rw [hfree]
    unfold tsdbFreeBytes_assert
    rw [htail, h, hi, ho]
  · unfold tailCapacity
    rw [htail1, htail]
    simp only [Option.map_some']
    congr 1
    omega
  · rw [hfree]

/-- C15 at a request of 30 bytes with 40 bytes left in the tail block: the rollback leaves
the repository as it was. -/
theorem C15_free_restores_tail_block_witness :
    fitsTailOut.ret = .ptr 1 60 ∧ tsdbFreeBytes fitsTailOut.repo 30 = twoBlocksRun ∧
    tailCapacity twoBlocksRun = some 100 ∧ tailCapacity fitsTailOut.repo = some 100 ∧
    ∃ r2 t2 b, tsdbAllocBytes_space twoBlocksRun 30 AllocEnv.ok = .next r2 t2 ∧
      tsdbGetCurrBufBlock r2 = some b ∧
      tsdbGetCurrBufBlock (tsdbAllocBytes twoBlocksRun 30 AllocEnv.ok).repo =
        some { b with offset := b.offset + 30, remain := b.remain - 30 } ∧
      tsdbFreeBytes (tsdbAllocBytes twoBlocksRun 30 AllocEnv.ok).repo 30 = r2 ∧
      tsdbFreeBytes_assert (tsdbFreeBytes (tsdbAllocBytes twoBlocksRun 30 AllocEnv.ok).repo 30)
        (tsdbAllocBytes twoBlocksRun 30 AllocEnv.ok).ret ∧
      tailCapacity (tsdbAllocBytes twoBlocksRun 30 AllocEnv.ok).repo = tailCapacity r2 ∧
      tailCapacity (tsdbFreeBytes (tsdbAllocBytes twoBlocksRun 30 AllocEnv.ok).repo 30) =
        tailCapacity r2 :=
  ⟨by decide, by decide, by decide, by decide,
   C15_free_restores_tail_block twoBlocksRun 30 AllocEnv.ok 1 60 (by decide)⟩

/-! ## The slot of a dropped table (C13) -/

/-- Lines 82-102 on a new index: the put into an empty index links the row, so the slot
holds an index with this one row. -/
theorem tsdbInsertRowToMem_put_first (r : STsdbRepo) (m : SMemTable) (row : SDataRow)
    (pTable : STable) (bytes : Int) (putNull : Bool) (t : List Ev)
    (hlen : pTable.tid < m.tData.length) :
    (tsdbInsertRowToMem_put r m
      { uid := pTable.uid, keyFirst := INT64_MAX, keyLast := 0, numOfRows := 0, pData := [] }
      row pTable bytes putNull t).ret = .code 0 ∧
    ∃ m' td', (tsdbInsertRowToMem_put r m
        { uid := pTable.uid, keyFirst := INT64_MAX, keyLast := 0, numOfRows := 0, pData := [] }
        row pTable bytes putNull t).repo.mem = some m' ∧
      m'.tData.getD pTable.tid none = some td' ∧ td'.uid = pTable.uid ∧
      td'.pData = [row] ∧ td'.numOfRows = 1 := by
  simp only [tsdbInsertRowToMem_put, tSkipListPut_nil]
  refine ⟨trivial, _, ⟨pTable.uid, if INT64_MAX > row.key then row.key else INT64_MAX,
    if 0 < row.key then row.key else 0, 0 + 1, [row]⟩, rfl, ?_, rfl, rfl, by simp⟩
  simp only [List.getD_eq_getElem?_getD]
  rw [List.getElem?_set_self hlen]
  rfl

/-- Lines 60-102 when the slot of the table is empty or holds the index of another table and
`tsdbNewTableData` succeeds: the call returns 0 and the slot holds a new index of the table
with the one row of the call. -/
theorem tsdbInsertRowToMem_link_first (r : STsdbRepo) (pm : SMemTable) (row : SDataRow)
    (pTable : STable) (bytes : Int) (env : InsertEnv) (t : List Ev)
    (hlen : pTable.tid < pm.tData.length)
    (hslot : ∀ td, pm.tData.getD pTable.tid none = some td → td.uid ≠ pTable.uid)
    (hnew : env.newTableDataNull = false) :
    (tsdbInsertRowToMem_link r pm row pTable bytes env t).ret = .code 0 ∧
    ∃ m' td', (tsdbInsertRowToMem_link r pm row pTable bytes env t).repo.mem = some m' ∧
      m'.tData.getD pTable.tid none = some td' ∧ td'.uid = pTable.uid ∧
      td'.pData = [row] ∧ td'.numOfRows = 1 := by
  unfold tsdbInsertRowToMem_link tsdbNewTableData
  rw [hnew]
  cases hget : pm.tData.getD pTable.tid none with
  | none =>
    simp only [Bool.false_eq_true, if_false]
    exact tsdbInsertRowToMem_put_first r _ row pTable bytes env.putNull _
      (by simp only [List.length_set]; exact hlen)
  | some td0 =>
    simp only [Bool.false_eq_true, if_false]
    rw [if_pos (hslot td0 hget)]
    exact tsdbInsertRowToMem_put_first r _ row pTable bytes env.putNull _
      (by simp only [List.length_set]; exact hlen)

/-- C13: for every `tsdbInsertRowToMem` call for a table whose slot in the active generation
holds an index of another unique id, when the allocation and the creation of the index
succeed: the call returns 0, the slot of the table in the active generation afterwards holds
an index with the unique id of the table, and that index holds exactly the one row of the
call, so none of the rows of the former index. -/
theorem C13_stale_index_is_replaced (r : STsdbRepo) (row : SDataRow) (pTable : STable)
    (env : InsertEnv) (m0 : SMemTable) (td0 : STableData) (i : Nat) (off : Int)
    (hm : r.mem = some m0) (hslot : m0.tData.getD pTable.tid none = some td0)
    (hstale : td0.uid ≠ pTable.uid) (htid : pTable.tid < r.config.maxTables)
    (halloc : (tsdbAllocBytes r (env.headSize + row.len) env.alloc).ret = .ptr i off)
    (hnew : env.newTableDataNull = false) :
    (tsdbInsertRowToMem r row pTable env).ret = .code 0 ∧
    ∃ m' td', (tsdbInsertRowToMem r row pTable env).repo.mem = some m' ∧
      m'.tData.getD pTable.tid none = some td' ∧ td'.uid = pTable.uid ∧
      td'.pData = [row] ∧ td'.numOfRows = 1 := by
  rcases tsdbInsertRowToMem_eq r row pTable env with ⟨_, hw⟩ | ⟨_, hn⟩ | ⟨pm, i1, o1, hpm, _, heq⟩
  · rw [hw] at halloc; cases halloc
  · rcases hn with hn | hn
    · rw [hn] at halloc; cases halloc
    · obtain ⟨r2, t2, _, ha⟩ := tsdbAllocBytes_ptr r _ env.alloc i off halloc
      rw [ha] at halloc hn
      obtain ⟨m, b, _, _, _, _, hrepo⟩ := bump_ptr r2 _ t2 i off halloc
      rw [hrepo] at hn
      cases hn
  · rw [heq]
    have hkeep := (tsdbAllocBytes_spec r (env.headSize + row.len) env.alloc).1
    rw [hpm] at hkeep
    rcases hkeep with hk | ⟨m, bl, h1, h2⟩ | ⟨bl, h2⟩
    · cases hk
    · rw [hm] at h1
      cases h1
      cases h2
      have hlen : pTable.tid < m0.tData.length := by
        rw [List.getD_eq_getElem?_getD] at hslot
        by_contra hc
        rw [List.getElem?_eq_none (by omega)] at hslot
        cases hslot
      refine tsdbInsertRowToMem_link_first _ _ row pTable _ env _ hlen ?_ hnew
      intro td htd
      simp only at htd
      rw [hslot] at htd
      cases htd
      exact hstale
    · cases h2
      refine tsdbInsertRowToMem_link_first _ _ row pTable _ env _
        (by simp [freshMem]; exact htid) ?_ hnew
      intro td htd
      simp [freshMem, List.getD_eq_getElem?_getD, List.getElem?_replicate] at htd
      split at htd <;> cases htd

/-- C13 at the call for `tableT2` that finds the index of the dropped `tableT` in slot 0. -/
theorem C13_stale_index_is_replaced_witness :
    ((tsdbInsertRowToMem (emptyRepo cfgHalf pool3) (rowAt 3) tableT (InsertEnv.ok 8)).repo.mem
      = some ⟨1, 3, 3, 1, 2, 16, [some ⟨1, 3, 3, 1, [rowAt 3]⟩, none, none, none],
          [⟨0, 24, 76⟩]⟩) ∧
    staleSlotRun.mem = some staleSlotGen ∧
    (tsdbInsertRowToMem
      (tsdbInsertRowToMem (emptyRepo cfgHalf pool3) (rowAt 3) tableT (InsertEnv.ok 8)).repo
      (rowAt 1) tableT2 (InsertEnv.ok 8)).ret = .code 0 ∧
    ∃ m' td', (tsdbInsertRowToMem
        (tsdbInsertRowToMem (emptyRepo cfgHalf pool3) (rowAt 3) tableT (InsertEnv.ok 8)).repo
        (rowAt 1) tableT2 (InsertEnv.ok 8)).repo.mem = some m' ∧
      m'.tData.getD tableT2.tid none = some td' ∧ td'.uid = tableT2.uid ∧
      td'.pData = [rowAt 1] ∧ td'.numOfRows = 1 :=
  ⟨by decide, by decide,
   C13_stale_index_is_replaced
    (tsdbInsertRowToMem (emptyRepo cfgHalf pool3) (rowAt 3) tableT (InsertEnv.ok 8)).repo
    (rowAt 1) tableT2 (InsertEnv.ok 8)
    ⟨1, 3, 3, 1, 2, 16, [some ⟨1, 3, 3, 1, [rowAt 3]⟩, none, none, none], [⟨0, 24, 76⟩]⟩
    ⟨1, 3, 3, 1, [rowAt 3]⟩ 0 24 (by decide) (by decide) (by decide) (by decide) (by decide)
    rfl⟩

/-! ## Reading rows into the batch (C20) -/

theorem rowsUpTo_cons_le (maxKey : Int) (row : SDataRow) (l : List SDataRow)
    (h : row.key ≤ maxKey) : rowsUpTo maxKey (row :: l) = row :: rowsUpTo maxKey l := by
  simp [rowsUpTo, List.takeWhile_cons, h]

theorem rowsUpTo_cons_gt (maxKey : Int) (row : SDataRow) (l : List SDataRow)
    (h : maxKey < row.key) : rowsUpTo maxKey (row :: l) = [] := by
  simp [rowsUpTo, List.takeWhile_cons, not_le.mpr h]

/-- The loop of lines 539-558: from a row count `c` it appends the rows up to `maxKey`, as
many as the bound leaves room for, and stops on the row behind them. -/
theorem tsdbReadRowsFromCache_loop_eq (maxKey maxRowsToRead : Int) (rest : List SDataRow)
    (c : Int) (pCols : List SDataRow) :
    tsdbReadRowsFromCache_loop maxKey maxRowsToRead rest c pCols =
      ⟨c + (min (maxRowsToRead - c).toNat (rowsUpTo maxKey rest).length : Nat),
       some ⟨true, rest.drop (min (maxRowsToRead - c).toNat (rowsUpTo maxKey rest).length)⟩,
       pCols ++ rest.take (min (maxRowsToRead - c).toNat (rowsUpTo maxKey rest).length)⟩ := by
  induction rest generalizing c pCols with
  | nil => simp [tsdbReadRowsFromCache_loop, rowsUpTo]
  | cons row rest ih =>
    unfold tsdbReadRowsFromCache_loop
    by_cases h1 : c ≥ maxRowsToRead
    · rw [if_pos h1]
      have : (maxRowsToRead - c).toNat = 0 := by omega
      simp [this]
    · rw [if_neg h1]
      by_cases h2 : row.key > maxKey
      · rw [if_pos h2, rowsUpTo_cons_gt maxKey row rest h2]
        simp
      · rw [if_neg h2]
        have hm : min (maxRowsToRead - c).toNat ((rowsUpTo maxKey rest).length + 1) =
            min (maxRowsToRead - (c + 1)).toNat (rowsUpTo maxKey rest).length + 1 := by
          omega
        split
        · rw [show (⟨c + 1, some ⟨true, []⟩, pCols ++ [row]⟩ : ReadOut) =
              tsdbReadRowsFromCache_loop maxKey maxRowsToRead [] (c + 1) (pCols ++ [row]) from
            by simp [tsdbReadRowsFromCache_loop]]
          rw [ih, rowsUpTo_cons_le maxKey row [] (by omega)]
          simp only [List.length_cons, hm, List.drop_succ_cons, List.take_succ_cons,
            List.append_assoc, List.singleton_append]
          congr 1
          push_cast
          omega
        · rw [ih, rowsUpTo_cons_le maxKey row _ (by omega)]
          simp only [List.length_cons, hm, List.drop_succ_cons, List.take_succ_cons,
            List.append_assoc, List.singleton_append]
          congr 1
          push_cast
          omega

/-- C20: for every position of an iterator on the rows `rest`, every upper bound `maxKey` and
every `maxRowsToRead > 0`, `tsdbReadRowsFromCache` appends to the batch the first `n` rows
from the position, in their order, where `n` is the length of the longest prefix of `rest`
with keys not above `maxKey`, capped at `maxRowsToRead`; it returns `n` and leaves the
iterator on the row behind the rows it appended.  With no iterator it returns 0 and leaves
the batch as it is. -/
theorem C20_read_rows_takes_bounded_prefix (rest : List SDataRow) (maxKey maxRowsToRead : Int)
    (pCols : List SDataRow) (h : 0 < maxRowsToRead) :
    (∃ n : Nat, (n : Int) = min maxRowsToRead ((rowsUpTo maxKey rest).length : Int) ∧
      tsdbReadRowsFromCache (some ⟨true, rest⟩) maxKey maxRowsToRead pCols =
        ⟨n, some ⟨true, rest.drop n⟩, pCols ++ rest.take n⟩) ∧
    tsdbReadRowsFromCache none maxKey maxRowsToRead pCols = ⟨0, none, pCols⟩ := by
  refine ⟨⟨min maxRowsToRead.toNat (rowsUpTo maxKey rest).length, by omega, ?_⟩, rfl⟩
  simp only [tsdbReadRowsFromCache, if_true, tsdbReadRowsFromCache_loop_eq, sub_zero, zero_add]

/-- C20 at an iterator on rows with the timestamps 1, 2, 5, 9, the upper bound 5 and room for
two rows: two rows are appended and the iterator stands on the row with timestamp 5. -/
theorem C20_read_rows_takes_bounded_prefix_witness :
    (0 : Int) < 2 ∧
    tsdbReadRowsFromCache (some ⟨true, [rowAt 1, rowAt 2, rowAt 5, rowAt 9]⟩) 5 2 [rowAt 0] =
      ⟨2, some ⟨true, [rowAt 5, rowAt 9]⟩, [rowAt 0, rowAt 1, rowAt 2]⟩ ∧
    (∃ n : Nat, (n : Int) =
        min 2 ((rowsUpTo 5 [rowAt 1, rowAt 2, rowAt 5, rowAt 9]).length : Int) ∧
      tsdbReadRowsFromCache (some ⟨true, [rowAt 1, rowAt 2, rowAt 5, rowAt 9]⟩) 5 2 [rowAt 0] =
        ⟨n, some ⟨true, [rowAt 1, rowAt 2, rowAt 5, rowAt 9].drop n⟩,
         [rowAt 0] ++ [rowAt 1, rowAt 2, rowAt 5, rowAt 9].take n⟩) ∧
    tsdbReadRowsFromCache none 5 2 [rowAt 0] = ⟨0, none, [rowAt 0]⟩ :=
  ⟨by decide, by decide,
   C20_read_rows_takes_bounded_prefix [rowAt 1, rowAt 2, rowAt 5, rowAt 9] 5 2 [rowAt 0]
     (by decide)⟩

/-! ## The iterators of the commit task (C19) -/

theorem getD_set_self {α : Type} (l : List (Option α)) (i : Nat) (a : Option α)
    (h : i < l.length) : (l.set i a).getD i none = a := by
  simp only [List.getD_eq_getElem?_getD]
  rw [List.getElem?_set_self h]
  rfl

theorem getD_set_ne {α : Type} (l : List (Option α)) (i j : Nat) (a : Option α)
    (h : i ≠ j) : (l.set i a).getD j none = l.getD j none := by
  simp only [List.getD_eq_getElem?_getD]
  rw [List.getElem?_set_ne h]

/-- The loop of lines 504-512 over distinct slots whose entries are `NULL`, when no
allocation fails and every index that counts rows holds one: it fills the entries of its
slots and leaves the others. -/
theorem tsdbCreateTableIters_loop_eq (env : ItersEnv) (pMeta : STsdbMeta) (imem : SMemTable)
    (henv : ∀ tid, env.createIterNull tid = false)
    (hrows : ∀ tid td, imem.tData.getD tid none = some td → td.numOfRows ≠ 0 → td.pData ≠ [])
    (tids : List Nat) (iters : List (Option SSkipListIterator)) (hnd : tids.Nodup)
    (hlen : ∀ tid ∈ tids, tid < iters.length)
    (hnull : ∀ tid ∈ tids, iters.getD tid none = none) :
    ∃ out, tsdbCreateTableIters_loop env pMeta imem tids iters = some out ∧
      out.length = iters.length ∧
      ∀ i, out.getD i none = if i ∈ tids then slotIter pMeta imem i else iters.getD i none := by
  induction tids generalizing iters with
  | nil => exact ⟨iters, rfl, rfl, fun i => by simp⟩
  | cons tid tids ih =>
    have hnd' := (List.nodup_cons.mp hnd).2
    have hnot := (List.nodup_cons.mp hnd).1
    have htid := hlen tid (List.mem_cons_self _ _)
    -- the slot is passed over
    have hskip : slotIter pMeta imem tid = none →
        ∃ out, tsdbCreateTableIters_loop env pMeta imem tids iters = some out ∧
          out.length = iters.length ∧
          ∀ i, out.getD i none =
            if i ∈ tid :: tids then slotIter pMeta imem i else iters.getD i none := by
      intro hs
      obtain ⟨out, h1, h2, h3⟩ := ih iters hnd' (fun t ht => hlen t (List.mem_cons_of_mem _ ht))
        (fun t ht => hnull t (List.mem_cons_of_mem _ ht))
      refine ⟨out, h1, h2, fun i => ?_⟩
      rw [h3 i]
      by_cases hi : i = tid
      · subst hi
        simp only [hnot, if_false, List.mem_cons, true_or, if_true, hs]
        exact hnull i (List.mem_cons_self _ _)
      · simp [hi]
    unfold tsdbCreateTableIters_loop
    cases hT : pMeta.tables.getD tid none with
    | none =>
      simp only
      exact hskip (by unfold slotIter; rw [hT])
    | some pTable =>
      cases hD : imem.tData.getD tid none with
      | none =>
        simp only
        exact hskip (by unfold slotIter; rw [hT, hD])
      | some pImem =>
        simp only
        by_cases h0 : pImem.numOfRows = 0
        · rw [if_pos h0]
          exact hskip (by unfold slotIter; rw [hT, hD]; simp [h0])
        · rw [if_neg h0]
          have hne := hrows tid pImem hD h0
          simp only [tSkipListCreateIter, henv tid, Bool.false_eq_true, if_false,
            tSkipListIterNext, hne, ne_eq, not_false_eq_true, decide_True, if_true]
          obtain ⟨out, h1, h2, h3⟩ := ih (iters.set tid (some ⟨true, pImem.pData⟩)) hnd'
            (fun t ht => by
              rw [List.length_set]; exact hlen t (List.mem_cons_of_mem _ ht))
            (fun t ht => by
              rw [getD_set_ne _ _ _ _ (fun h : tid = t => hnot (by rw [h]; exact ht))]
              exact hnull t (List.mem_cons_of_mem _ ht))
          refine ⟨out, h1, by rw [h2, List.length_set], fun i => ?_⟩
          rw [h3 i]
          by_cases hi : i = tid
          · subst hi
            simp only [hnot, if_false, List.mem_cons, true_or, if_true]
            rw [getD_set_self _ _ _ htid]
            unfold slotIter
            rw [hT, hD]
            simp [h0]
          · simp only [List.mem_cons, hi, false_or]
            rw [getD_set_ne _ _ _ _ (fun h => hi h.symm)]

theorem getD_replicate_none {α : Type} (n i : Nat) :
    (List.replicate n (none : Option α)).getD i none = none := by
  simp only [List.getD_eq_getElem?_getD, List.getElem?_replicate]
  split <;> rfl

/-- Lines 495-519, when no allocation fails and every index of the generation counts its
rows: the call returns an array in which the entries of the slots from 1 on are as
`slotIter` says, and the entry of slot 0 is `NULL`. -/
theorem tsdbCreateTableIters_eq (env : ItersEnv) (pCfg : STsdbCfg) (pMeta : STsdbMeta)
    (imem : SMemTable) (hcalloc : env.callocNull = false)
    (hcreate : ∀ tid, env.createIterNull tid = false) (hcount : RowCountInv imem) :
    ∃ iters, tsdbCreateTableIters env pCfg pMeta imem = some iters ∧
      iters.length = pCfg.maxTables ∧
      ∀ i, iters.getD i none =
        if 1 ≤ i ∧ i < pCfg.maxTables then slotIter pMeta imem i else none := by
  unfold tsdbCreateTableIters
  rw [hcalloc]
  simp only [Bool.false_eq_true, if_false]
  obtain ⟨out, h1, h2, h3⟩ := tsdbCreateTableIters_loop_eq env pMeta imem hcreate
    (fun tid td htd h0 hnil => by
      have := hcount td (getD_some_mem _ _ _ htd)
      rw [this, hnil] at h0
      exact h0 rfl)
    (List.range' 1 (pCfg.maxTables - 1)) (List.replicate pCfg.maxTables none)
    (List.nodup_range' 1 (pCfg.maxTables - 1))
    (fun tid ht => by
      rw [List.mem_range'_1] at ht
      rw [List.length_replicate]
      omega)
    (fun tid _ => getD_replicate_none _ _)
  refine ⟨out, h1, by rw [h2, List.length_replicate], fun i => ?_⟩
  rw [h3 i, getD_replicate_none]
  have hiff : i ∈ List.range' 1 (pCfg.maxTables - 1) ↔ 1 ≤ i ∧ i < pCfg.maxTables := by
    rw [List.mem_range'_1]
    omega
  by_cases hi : 1 ≤ i ∧ i < pCfg.maxTables
  · rw [if_pos (hiff.mpr hi), if_pos hi]
  · rw [if_neg (fun h => hi (hiff.mp h)), if_neg hi]

/-- The amended C19.  When no allocation fails, for every generation whose indexes count
their rows (as the indexes built by `tsdbInsertRowToMem` do) `tsdbCreateTableIters` returns an
array of `maxTables` entries.  For every slot `tid` in [1, maxTables) that holds a table in
the catalog and whose index in the generation is not empty, the entry is an iterator that
stands on the first element of the index.  The entry of slot 0 is `NULL`, and so are the
entries of the slots without a table, without an index or with an empty index. -/
theorem C19_iterators_for_slots_from_one (env : ItersEnv) (pCfg : STsdbCfg)
    (pMeta : STsdbMeta) (imem : SMemTable) (hcalloc : env.callocNull = false)
    (hcreate : ∀ tid, env.createIterNull tid = false) (hcount : RowCountInv imem) :
    ∃ iters, tsdbCreateTableIters env pCfg pMeta imem = some iters ∧
      iters.length = pCfg.maxTables ∧
      (∀ tid pTable td, 1 ≤ tid → tid < pCfg.maxTables →
        pMeta.tables.getD tid none = some pTable → imem.tData.getD tid none = some td →
        td.pData ≠ [] →
        iters.getD tid none = some ⟨true, td.pData⟩ ∧
        tSkipListIterGet ⟨true, td.pData⟩ = td.pData.head?) ∧
      (∀ tid, (tid = 0 ∨ pMeta.tables.getD tid none = none ∨
          imem.tData.getD tid none = none ∨
          ∃ td, imem.tData.getD tid none = some td ∧ td.pData = []) →
        iters.getD tid none = none) := by
  obtain ⟨iters, h1, h2, h3⟩ := tsdbCreateTableIters_eq env pCfg pMeta imem hcalloc hcreate
    hcount
  refine ⟨iters, h1, h2, ?_, ?_⟩
  · intro tid pTable td h1' h2' hT hD hne
    rw [h3 tid, if_pos ⟨h1', h2'⟩]
    unfold slotIter
    rw [hT, hD]
    have hc := hcount td (getD_some_mem _ _ _ hD)
    have h0 : td.numOfRows ≠ 0 := by
      rw [hc]
      unfold tSkipListGetSize
      cases hp : td.pData with
      | nil => exact absurd hp hne
      | cons x xs => simp only [List.length_cons]; omega
    simp only [h0, if_false, true_and]
    rfl
  · intro tid h
    rw [h3 tid]
    split
    · next hr =>
      rcases h with h | h | h | ⟨td, h, hnil⟩
      · omega
      · unfold slotIter
        rw [h]
      · unfold slotIter
        rw [h]
        cases pMeta.tables.getD tid none <;> rfl
      · have hc := hcount td (getD_some_mem _ _ _ h)
        rw [hnil] at hc
        simp only [tSkipListGetSize, List.length_nil, Nat.cast_zero] at hc
        unfold slotIter
        rw [h]
        cases pMeta.tables.getD tid none with
        | none => rfl
        | some _ => simp only [hc, if_true]
    · rfl

/-- The amended C19 at the generation of four rows for the table in slot 1. -/
theorem C19_iterators_for_slots_from_one_witness :
    ∃ iters, tsdbCreateTableIters ItersEnv.ok cfgHalf metaA genA = some iters ∧
      iters.length = cfgHalf.maxTables ∧
      (∀ tid pTable td, 1 ≤ tid → tid < cfgHalf.maxTables →
        metaA.tables.getD tid none = some pTable → genA.tData.getD tid none = some td →
        td.pData ≠ [] →
        iters.getD tid none = some ⟨true, td.pData⟩ ∧
        tSkipListIterGet ⟨true, td.pData⟩ = td.pData.head?) ∧
      (∀ tid, (tid = 0 ∨ metaA.tables.getD tid none = none ∨
          genA.tData.getD tid none = none ∨
          ∃ td, genA.tData.getD tid none = some td ∧ td.pData = []) →
        iters.getD tid none = none) :=
  C19_iterators_for_slots_from_one ItersEnv.ok cfgHalf metaA genA rfl (fun _ => rfl)
    (by
      intro td htd
      simp only [genA, List.mem_cons, Option.some.injEq, List.mem_singleton, reduceCtorEq,
        false_or, or_false, List.not_mem_nil] at htd
      subst htd
      rfl)

/-- C19 as stated fails: the generation `oneBlockGen` holds one row for the table in slot 0,
and with every allocation succeeding the array that `tsdbCreateTableIters` returns has
`NULL` in entry 0, because the loop of line 504 starts at slot 1. -/
theorem C19_slot_zero_gets_no_iterator :
    metaT.tables.getD 0 none = some tableT ∧
    (oneBlockGen.tData.getD 0 none).map STableData.pData = some [bigRowAt 1] ∧
    tsdbCreateTableIters ItersEnv.ok cfgHalf metaT oneBlockGen =
      some [none, none, none, none] := by
  decide

/-! ## The drain loop of one table (C21, C22, C23) -/

theorem rowsUpTo_length_le (maxKey : Int) (l : List SDataRow) :
    (rowsUpTo maxKey l).length ≤ l.length :=
  (List.takeWhile_sublist _).length_le

/-- Behind `n` of the rows up to `maxKey`, the rows up to `maxKey` are `n` fewer. -/
theorem rowsUpTo_drop_length (maxKey : Int) (l : List SDataRow) (n : Nat)
    (h : n ≤ (rowsUpTo maxKey l).length) :
    (rowsUpTo maxKey (l.drop n)).length = (rowsUpTo maxKey l).length - n := by
  induction l generalizing n with
  | nil => simp [rowsUpTo]
  | cons x xs ih =>
    cases n with
    | zero => simp
    | succ n =>
      by_cases hx : x.key ≤ maxKey
      · rw [rowsUpTo_cons_le maxKey x xs hx] at h ⊢
        simp only [List.length_cons, List.drop_succ_cons] at h ⊢
        rw [ih n (by omega)]
        omega
      · rw [rowsUpTo_cons_gt maxKey x xs (by omega)] at h
        simp at h

theorem readCount_le (maxKey maxRowsToRead : Int) (pIter : Option SSkipListIterator) :
    readCount maxKey maxRowsToRead pIter ≤ (rowsUpTo maxKey (iterRows pIter)).length ∧
    readCount maxKey maxRowsToRead pIter ≤ maxRowsToRead.toNat := by
  cases pIter with
  | none => simp [readCount]
  | some it =>
    by_cases hs : it.started = true
    · simp only [readCount, iterRows, hs, if_true]
      exact ⟨Nat.min_le_right _ _, Nat.min_le_left _ _⟩
    · simp only [readCount, iterRows, hs, if_false]
      exact ⟨Nat.zero_le _, Nat.zero_le _⟩

/-- Lines 532-561 for every iterator: the call appends the next `readCount` rows of the
iterator to the batch, returns their number and leaves the iterator behind them. -/
theorem tsdbReadRowsFromCache_eq (pIter : Option SSkipListIterator) (maxKey maxRowsToRead : Int)
    (pCols : List SDataRow) :
    tsdbReadRowsFromCache pIter maxKey maxRowsToRead pCols =
      ⟨(readCount maxKey maxRowsToRead pIter : Nat),
       iterDrop (readCount maxKey maxRowsToRead pIter) pIter,
       pCols ++ (iterRows pIter).take (readCount maxKey maxRowsToRead pIter)⟩ := by
  cases pIter with
  | none => simp [tsdbReadRowsFromCache, readCount, iterDrop, iterRows]
  | some it =>
    obtain ⟨started, rest⟩ := it
    cases started with
    | false => simp [tsdbReadRowsFromCache, readCount, iterDrop, iterRows]
    | true =>
      simp only [tsdbReadRowsFromCache, if_true, tsdbReadRowsFromCache_loop_eq, sub_zero,
        zero_add, readCount, iterDrop, iterRows]

/-- One round of the drain loop with a block writer that takes rows: with an empty batch
behind the read the loop is left; otherwise the writer is handed the batch, the rows it took
leave the batch and the loop goes on. -/
theorem tsdbCommitToFile_round_eq (env : FileEnv) (pCfg : STsdbCfg) (fid : Int) (tid : Nat)
    (maxKey : Int) (hw : env.writesRows) (s : DrainState) :
    (roundBatch maxKey s = [] ∧
      tsdbCommitToFile_round env pCfg fid tid maxKey s =
        .exit ⟨.ok, iterDrop (readCount maxKey s.maxRowsToRead s.pIter) s.pIter, [],
          s.log ++ [CommitEv.readRows fid tid s.maxRowsToRead
            (readCount maxKey s.maxRowsToRead s.pIter : Nat)]⟩) ∨
    (roundBatch maxKey s ≠ [] ∧
      1 ≤ env.writeDataBlock fid tid (s.nLoop + 1) (roundBatch maxKey s) ∧
      env.writeDataBlock fid tid (s.nLoop + 1) (roundBatch maxKey s) ≤
        (roundBatch maxKey s).length ∧
      tsdbCommitToFile_round env pCfg fid tid maxKey s =
        .next ⟨iterDrop (readCount maxKey s.maxRowsToRead s.pIter) s.pIter,
          (roundBatch maxKey s).drop
            (env.writeDataBlock fid tid (s.nLoop + 1) (roundBatch maxKey s)).toNat,
          batchRows pCfg - (((roundBatch maxKey s).drop
            (env.writeDataBlock fid tid (s.nLoop + 1) (roundBatch maxKey s)).toNat).length : Nat),
          s.nLoop + 1,
          s.log ++ [CommitEv.readRows fid tid s.maxRowsToRead
              (readCount maxKey s.maxRowsToRead s.pIter : Nat)] ++
            [CommitEv.writeDataBlock fid tid (roundBatch maxKey s)
              (env.writeDataBlock fid tid (s.nLoop + 1) (roundBatch maxKey s))]⟩) := by
  unfold tsdbCommitToFile_round
  rw [tsdbReadRowsFromCache_eq]
  simp only
  by_cases hb : roundBatch maxKey s = []
  · left
    refine ⟨hb, ?_⟩
    have hb' := hb
    unfold roundBatch at hb'
    rw [hb']
    simp
  · right
    obtain ⟨h1, h2⟩ := hw fid tid (s.nLoop + 1) (roundBatch maxKey s) hb
    refine ⟨hb, h1, h2, ?_⟩
    have hlen : ¬ (roundBatch maxKey s).length = 0 := fun h => hb (List.length_eq_zero.mp h)
    unfold roundBatch at hlen ⊢
    rw [if_neg hlen, if_neg (by unfold roundBatch at h1; omega)]
    rfl

theorem iterRows_iterDrop (n : Nat) (pIter : Option SSkipListIterator) :
    iterRows (iterDrop n pIter) = (iterRows pIter).drop n := by
  cases pIter <;> simp [iterRows, iterDrop]

theorem roundBatch_length (maxKey : Int) (s : DrainState) :
    (roundBatch maxKey s).length =
      s.pDataCols.length + readCount maxKey s.maxRowsToRead s.pIter := by
  have h1 := (readCount_le maxKey s.maxRowsToRead s.pIter).1
  have h2 := rowsUpTo_length_le maxKey (iterRows s.pIter)
  unfold roundBatch
  rw [List.length_append, List.length_take]
  omega

/-- A round that comes back to the head of the loop has taken at least one row out of the
rows still to be drained. -/
theorem tsdbCommitToFile_round_measure (env : FileEnv) (pCfg : STsdbCfg) (fid : Int)
    (tid : Nat) (maxKey : Int) (hw : env.writesRows) (s s1 : DrainState)
    (h : tsdbCommitToFile_round env pCfg fid tid maxKey s = .next s1) :
    drainMeasure maxKey s1 < drainMeasure maxKey s := by
  rcases tsdbCommitToFile_round_eq env pCfg fid tid maxKey hw s with ⟨_, he⟩ | ⟨hb, h1, h2, hn⟩
  · rw [he] at h; cases h
  · rw [hn] at h
    cases h
    have hlen := roundBatch_length maxKey s
    have hr := (readCount_le maxKey s.maxRowsToRead s.pIter).1
    have hpos : 0 < (roundBatch maxKey s).length := List.length_pos.mpr hb
    unfold drainMeasure
    simp only [iterRows_iterDrop, List.length_drop]
    rw [rowsUpTo_drop_length maxKey _ _ hr]
    omega

/-- A round that leaves the loop under a block writer that takes rows leaves it at line 446,
with an empty batch. -/
theorem tsdbCommitToFile_round_exit (env : FileEnv) (pCfg : STsdbCfg) (fid : Int)
    (tid : Nat) (maxKey : Int) (hw : env.writesRows) (s : DrainState) (d : DrainOut)
    (h : tsdbCommitToFile_round env pCfg fid tid maxKey s = .exit d) :
    d.ret = .ok ∧ d.pDataCols = [] := by
  rcases tsdbCommitToFile_round_eq env pCfg fid tid maxKey hw s with ⟨_, he⟩ | ⟨hb, h1, h2, hn⟩
  · rw [he] at h
    cases h
    exact ⟨rfl, rfl⟩
  · rw [hn] at h; cases h

theorem tsdbCommitToFile_drain_succ (env : FileEnv) (pCfg : STsdbCfg) (fid : Int) (tid : Nat)
    (maxKey : Int) (fuel : Nat) (s : DrainState) :
    tsdbCommitToFile_drain env pCfg fid tid maxKey (fuel + 1) s =
      match tsdbCommitToFile_round env pCfg fid tid maxKey s with
      | .exit d => d
      | .next s1 => tsdbCommitToFile_drain env pCfg fid tid maxKey fuel s1 := rfl

/-- With more rounds than rows still to be drained the loop ends, and further rounds do not
change what it leaves. -/
theorem tsdbCommitToFile_drain_ends (env : FileEnv) (pCfg : STsdbCfg) (fid : Int) (tid : Nat)
    (maxKey : Int) (hw : env.writesRows) (fuel : Nat) (s : DrainState)
    (h : drainMeasure maxKey s < fuel) :
    (tsdbCommitToFile_drain env pCfg fid tid maxKey fuel s).ret = .ok ∧
    (tsdbCommitToFile_drain env pCfg fid tid maxKey fuel s).pDataCols = [] ∧
    ∀ fuel1, drainMeasure maxKey s < fuel1 →
      tsdbCommitToFile_drain env pCfg fid tid maxKey fuel1 s =
        tsdbCommitToFile_drain env pCfg fid tid maxKey fuel s := by
  induction fuel generalizing s with
  | zero => omega
  | succ fuel ih =>
    rw [tsdbCommitToFile_drain_succ]
    cases hr : tsdbCommitToFile_round env pCfg fid tid maxKey s with
    | exit d =>
      simp only
      obtain ⟨h1, h2⟩ := tsdbCommitToFile_round_exit env pCfg fid tid maxKey hw s d hr
      refine ⟨h1, h2, fun fuel1 hf => ?_⟩
      cases fuel1 with
      | zero => omega
      | succ fuel1 => rw [tsdbCommitToFile_drain_succ, hr]
    | next s1 =>
      simp only
      have hm := tsdbCommitToFile_round_measure env pCfg fid tid maxKey hw s s1 hr
      obtain ⟨h1, h2, h3⟩ := ih s1 (by omega)
      refine ⟨h1, h2, fun fuel1 hf => ?_⟩
      cases fuel1 with
      | zero => omega
      | succ fuel1 => rw [tsdbCommitToFile_drain_succ, hr, ← h3 fuel1 (by omega)]

theorem ok_writesRows : FileEnv.ok.writesRows := by
  intro fid tid nLoop pCols h
  have := List.length_pos.mpr h
  simp only [FileEnv.ok]
  omega

theorem oneRowWriter_writesRows : oneRowWriter.writesRows := by
  intro fid tid nLoop pCols h
  have := List.length_pos.mpr h
  simp only [oneRowWriter]
  omega

/-- C23: for every table (an iterator on finitely many rows), every batch and every block
writer that takes at least one row and at most the batch, never failing, the drain loop of
`tsdbCommitToFile` terminates.  Every round that comes back to the head of the loop has made
the number of rows of the iterator with a key up to `maxKey` plus the number of rows in the
batch strictly smaller; every round that leaves the loop leaves it with an empty batch; so
with more rounds than that number the loop has ended, with an empty batch, and further rounds
change nothing. -/
theorem C23_drain_loop_terminates (env : FileEnv) (pCfg : STsdbCfg) (fid : Int) (tid : Nat)
    (maxKey : Int) (hw : env.writesRows) (s : DrainState) :
    (∀ s1, tsdbCommitToFile_round env pCfg fid tid maxKey s = .next s1 →
      drainMeasure maxKey s1 < drainMeasure maxKey s) ∧
    (∀ d, tsdbCommitToFile_round env pCfg fid tid maxKey s = .exit d →
      d.ret = .ok ∧ d.pDataCols = []) ∧
    (∀ fuel, drainMeasure maxKey s < fuel →
      (tsdbCommitToFile_drain env pCfg fid tid maxKey fuel s).ret = .ok ∧
      (tsdbCommitToFile_drain env pCfg fid tid maxKey fuel s).pDataCols = [] ∧
      tsdbCommitToFile_drain env pCfg fid tid maxKey fuel s =
        tsdbCommitToFile_drain env pCfg fid tid maxKey (drainMeasure maxKey s + 1) s) := by
  refine ⟨fun s1 h => tsdbCommitToFile_round_measure env pCfg fid tid maxKey hw s s1 h,
    fun d h => tsdbCommitToFile_round_exit env pCfg fid tid maxKey hw s d h, fun fuel hf => ?_⟩
  obtain ⟨h1, h2, _⟩ := tsdbCommitToFile_drain_ends env pCfg fid tid maxKey hw fuel s hf
  obtain ⟨_, _, h3⟩ := tsdbCommitToFile_drain_ends env pCfg fid tid maxKey hw
    (drainMeasure maxKey s + 1) s (by omega)
  exact ⟨h1, h2, h3 fuel hf⟩

/-- C23 at the table of `genA`, with batches of two rows and a writer that takes one row of
every batch: three rows are up to the last key of the first day file, and the loop has ended
within four rounds, the three rows written in their order. -/
theorem C23_drain_loop_terminates_witness :
    oneRowWriter.writesRows ∧ drainMeasure 863999999 drainA = 3 ∧
    writtenRows 1 (tsdbCommitToFile_drain oneRowWriter cfgSmallBlock 0 1 863999999 4 drainA).log
      = [rowAt 1, rowAt 3, rowAt 5] ∧
    (tsdbCommitToFile_drain oneRowWriter cfgSmallBlock 0 1 863999999 4 drainA).ret = .ok ∧
    (tsdbCommitToFile_drain oneRowWriter cfgSmallBlock 0 1 863999999 4 drainA).pDataCols = [] ∧
    tsdbCommitToFile_drain oneRowWriter cfgSmallBlock 0 1 863999999 4 drainA =
      tsdbCommitToFile_drain oneRowWriter cfgSmallBlock 0 1 863999999
        (drainMeasure 863999999 drainA + 1) drainA :=
  ⟨oneRowWriter_writesRows, by decide, by decide,
   (C23_drain_loop_terminates oneRowWriter cfgSmallBlock 0 1 863999999 oneRowWriter_writesRows
     drainA).2.2 4 (by decide)⟩
/-! ### What every round of the drain loop keeps -/

theorem toInt32_of_isInt32 (x : Int) (h : isInt32 x) : toInt32 x = x := by
  unfold isInt32 INT32_MIN INT32_MAX at h
  unfold toInt32
  omega

theorem toInt32_isInt32 (x : Int) : isInt32 (toInt32 x) := by
  unfold isInt32 INT32_MIN INT32_MAX toInt32
  omega

/-- With `maxRowsPerFileBlock` from 2 on and the product of line 441 within `int`, a batch
has at least one row. -/
theorem batchRows_of_two_le (pCfg : STsdbCfg) (h : 2 ≤ pCfg.maxRowsPerFileBlock)
    (hmax : pCfg.maxRowsPerFileBlock * 4 ≤ INT32_MAX) : 1 ≤ batchRows pCfg := by
  unfold batchRows
  rw [toInt32_of_isInt32 _ ⟨by unfold INT32_MIN; omega, hmax⟩,
    Int.tdiv_eq_ediv (by omega) (by decide)]
  omega

/-- When the product of line 441 does not pass below `INT_MIN`, a batch of at least one row
has at most `maxRowsPerFileBlock * 4 / 5` rows in the integers, and so at most
`maxRowsPerFileBlock` rows. -/
theorem batchRows_le (pCfg : STsdbCfg) (hmin : INT32_MIN ≤ pCfg.maxRowsPerFileBlock * 4)
    (h : 1 ≤ batchRows pCfg) :
    batchRows pCfg ≤ Int.tdiv (pCfg.maxRowsPerFileBlock * 4) 5 ∧
    Int.tdiv (pCfg.maxRowsPerFileBlock * 4) 5 ≤ pCfg.maxRowsPerFileBlock := by
  unfold batchRows at h ⊢
  have hw : 0 ≤ toInt32 (pCfg.maxRowsPerFileBlock * 4) := by
    by_contra hneg
    have h1 : toInt32 (pCfg.maxRowsPerFileBlock * 4) =
        -(-(toInt32 (pCfg.maxRowsPerFileBlock * 4))) := by ring
    rw [h1, Int.neg_tdiv, Int.tdiv_eq_ediv (by omega) (by decide)] at h
    omega
  have hle : toInt32 (pCfg.maxRowsPerFileBlock * 4) ≤ pCfg.maxRowsPerFileBlock * 4 := by
    unfold INT32_MIN at hmin
    unfold toInt32
    omega
  rw [Int.tdiv_eq_ediv hw (by decide)] at h ⊢
  rw [Int.tdiv_eq_ediv (by omega) (by decide)]
  omega

/-- A property of the log that every round keeps, together with a property of the state at
the head of the loop, holds for the log that the loop leaves. -/
theorem tsdbCommitToFile_drain_log (env : FileEnv) (pCfg : STsdbCfg) (fid : Int) (tid : Nat)
    (maxKey : Int) (I : DrainState → Prop) (Q : List CommitEv → Prop)
    (hnext : ∀ s s1, I s → Q s.log →
      tsdbCommitToFile_round env pCfg fid tid maxKey s = .next s1 → I s1 ∧ Q s1.log)
    (hexit : ∀ s d, I s → Q s.log →
      tsdbCommitToFile_round env pCfg fid tid maxKey s = .exit d → Q d.log)
    (fuel : Nat) (s : DrainState) (hI : I s) (hQ : Q s.log) :
    Q (tsdbCommitToFile_drain env pCfg fid tid maxKey fuel s).log := by
  induction fuel generalizing s with
  | zero => exact hQ
  | succ fuel ih =>
    rw [tsdbCommitToFile_drain_succ]
    cases hr : tsdbCommitToFile_round env pCfg fid tid maxKey s with
    | exit d => exact hexit s d hI hQ hr
    | next s1 =>
      obtain ⟨h1, h2⟩ := hnext s s1 hI hQ hr
      exact ih s1 h1 h2

/-- A property of the log that every drain loop keeps and that no other call of the table
loop touches holds for the log that the table loop leaves. -/
theorem tsdbCommitToFile_tables_log (env : FileEnv) (fuel : Nat) (pCfg : STsdbCfg)
    (pMeta : STsdbMeta) (fid : Int) (maxKey : Int) (Q : List CommitEv → Prop)
    (hd : ∀ tid pIter log, Q log →
      Q (tsdbCommitToFile_drain env pCfg fid tid maxKey fuel
        ⟨pIter, [], batchRows pCfg, 0, log⟩).log)
    (he : ∀ log e, Q log → e.isTableEv = true → Q (log ++ [e]))
    (tids : List Nat) (iters : List (Option SSkipListIterator)) (log : List CommitEv)
    (hQ : Q log) :
    Q (tsdbCommitToFile_tables env fuel pCfg pMeta fid maxKey tids iters log).log := by
  induction tids generalizing iters log with
  | nil => exact hQ
  | cons tid tids ih =>
    rw [tsdbCommitToFile_tables]
    cases pMeta.tables.getD tid none with
    | none => exact ih iters log hQ
    | some pTable =>
      simp only
      have hdq := hd tid (iters.getD tid none) log hQ
      cases hret : (tsdbCommitToFile_drain env pCfg fid tid maxKey fuel
          ⟨iters.getD tid none, [], batchRows pCfg, 0, log⟩).ret with
      | spin => exact hdq
      | err => exact hdq
      | ok =>
        simp only
        split
        · exact he _ (CommitEv.moveLastBlock fid tid false) hdq rfl
        · have h1 := he _ (CommitEv.moveLastBlock fid tid true) hdq rfl
          split
          · have h2 := he _ (CommitEv.writeCompInfo fid tid false) h1 rfl
            simpa using h2
          · have h2 := he _ (CommitEv.writeCompInfo fid tid true) h1 rfl
            apply ih
            simpa using h2

/-- A property of the log that holds for the empty log, that every drain loop keeps and that
no other call touches holds for the log of `tsdbCommitToFile`. -/
theorem tsdbCommitToFile_log (env : FileEnv) (fuel : Nat) (pCfg : STsdbCfg)
    (pMeta : STsdbMeta) (fid : Int) (Q : List CommitEv → Prop) (h0 : Q [])
    (hd : ∀ tid pIter log, Q log →
      Q (tsdbCommitToFile_drain env pCfg fid tid
        (tsdbGetKeyRangeOfFileId pCfg.daysPerFile pCfg.precision fid).2 fuel
        ⟨pIter, [], batchRows pCfg, 0, log⟩).log)
    (he : ∀ log e, Q log → e.isTableEv = true → Q (log ++ [e]))
    (hg : ∀ log e, Q log → e.isGroupEv = true → Q (log ++ [e]))
    (iters : List (Option SSkipListIterator)) :
    Q (tsdbCommitToFile env fuel pCfg pMeta fid iters).log := by
  have h2 : ∀ a b : CommitEv, a.isGroupEv = true → b.isGroupEv = true →
      ∀ log, Q log → Q (log ++ [a, b]) := by
    intro a b ha hb log hQ
    have := hg _ b (hg _ a hQ ha) hb
    simpa using this
  unfold tsdbCommitToFile
  simp only
  split
  · exact h0
  · split
    · exact h2 (CommitEv.createFGroup fid false) (CommitEv.closeHelperFile fid true)
        rfl rfl [] h0
    · split
      · have := hg _ (CommitEv.closeHelperFile fid true)
          (h2 (CommitEv.createFGroup fid true) (CommitEv.openHelperFile fid false)
            rfl rfl [] h0) rfl
        simpa using this
      · have ht := tsdbCommitToFile_tables_log env fuel pCfg pMeta fid
          (tsdbGetKeyRangeOfFileId pCfg.daysPerFile pCfg.precision fid).2 Q hd he
          (List.range' 1 (pCfg.maxTables - 1)) iters
          [CommitEv.createFGroup fid true, CommitEv.openHelperFile fid true]
          (h2 (CommitEv.createFGroup fid true) (CommitEv.openHelperFile fid true)
            rfl rfl [] h0)
        split
        · exact ht
        · exact hg _ (CommitEv.closeHelperFile fid true) ht rfl
        · split
          · exact h2 (CommitEv.writeCompIdx fid false) (CommitEv.closeHelperFile fid true)
              rfl rfl _ ht
          · exact h2 (CommitEv.writeCompIdx fid true) (CommitEv.closeHelperFile fid false)
              rfl rfl _ ht

/-! ### The batches and the read bounds of the drain loop (C21, C22) -/

theorem writtenBatches_append (l1 l2 : List CommitEv) :
    writtenBatches (l1 ++ l2) = writtenBatches l1 ++ writtenBatches l2 := by
  induction l1 with
  | nil => rfl
  | cons e l ih => cases e <;> simp [writtenBatches, ih]

theorem writtenBatches_other (e : CommitEv) (h : e.isWriteDataBlock = false) :
    writtenBatches [e] = [] := by
  cases e <;> first | rfl | cases h

theorem readBounds_append (l1 l2 : List CommitEv) :
    readBounds (l1 ++ l2) = readBounds l1 ++ readBounds l2 := by
  induction l1 with
  | nil => rfl
  | cons e l ih => cases e <;> simp [readBounds, ih]

theorem readBounds_other (e : CommitEv) (h : e.isReadRows = false) : readBounds [e] = [] := by
  cases e <;> first | rfl | cases h

/-- C21: in the drain loops of `tsdbCommitToFile`, for every block writer that takes at
least one row and at most the batch, every iterator array (every number of buffered rows) and
every number of rounds, each batch handed to `tsdbWriteDataBlock` holds at least one row and
at most `maxRowsPerFileBlock * 4 / 5` rows as line 441 computes it; unless the product of
that line passes below `INT_MIN` (so for every `maxRowsPerFileBlock >= 0`) these are at most
`maxRowsPerFileBlock * 4 / 5` rows in the integers, and so at most `maxRowsPerFileBlock`
rows. -/
theorem C21_batch_within_four_fifths (env : FileEnv) (fuel : Nat) (pCfg : STsdbCfg)
    (pMeta : STsdbMeta) (fid : Int) (iters : List (Option SSkipListIterator))
    (hw : env.writesRows) :
    ∀ b ∈ writtenBatches (tsdbCommitToFile env fuel pCfg pMeta fid iters).log,
      b ≠ [] ∧ (b.length : Int) ≤ batchRows pCfg ∧
      (INT32_MIN ≤ pCfg.maxRowsPerFileBlock * 4 →
        (b.length : Int) ≤ Int.tdiv (pCfg.maxRowsPerFileBlock * 4) 5 ∧
        (b.length : Int) ≤ pCfg.maxRowsPerFileBlock) := by
  have hmain : ∀ b ∈ writtenBatches (tsdbCommitToFile env fuel pCfg pMeta fid iters).log,
      b ≠ [] ∧ (b.length : Int) ≤ batchRows pCfg := by
    apply tsdbCommitToFile_log env fuel pCfg pMeta fid
      (fun log => ∀ b ∈ writtenBatches log, b ≠ [] ∧ (b.length : Int) ≤ batchRows pCfg)
    · intro b hb
      cases hb
    · intro tid pIter log hQ
      apply tsdbCommitToFile_drain_log env pCfg fid tid _
        (fun s => s.maxRowsToRead = batchRows pCfg - s.pDataCols.length ∧
          ((s.pDataCols.length : Int) ≤ batchRows pCfg ∨ s.pDataCols.length = 0))
        (fun log => ∀ b ∈ writtenBatches log, b ≠ [] ∧ (b.length : Int) ≤ batchRows pCfg)
      · intro s s1 hI hQs hr
        rcases tsdbCommitToFile_round_eq env pCfg fid tid _ hw s with
          ⟨_, he⟩ | ⟨hb, h1, h2, hn⟩
        · rw [he] at hr; cases hr
        · rw [hn] at hr
          cases hr
          obtain ⟨hm, hc⟩ := hI
          have hlen := roundBatch_length
            (tsdbGetKeyRangeOfFileId pCfg.daysPerFile pCfg.precision fid).2 s
          have hn2 := (readCount_le (tsdbGetKeyRangeOfFileId pCfg.daysPerFile pCfg.precision
            fid).2 s.maxRowsToRead s.pIter).2
          have hpos : 0 < (roundBatch (tsdbGetKeyRangeOfFileId pCfg.daysPerFile
            pCfg.precision fid).2 s).length := List.length_pos.mpr hb
          have hle : ((roundBatch (tsdbGetKeyRangeOfFileId pCfg.daysPerFile pCfg.precision
              fid).2 s).length : Int) ≤ batchRows pCfg := by
            omega
          refine ⟨⟨rfl, Or.inl ?_⟩, ?_⟩
          · simp only [List.length_drop]
            omega
          · intro b hbm
            simp only [writtenBatches_append, writtenBatches, List.append_nil,
              List.mem_append, List.mem_singleton] at hbm
            rcases hbm with hbm | hbm
            · exact hQs b hbm
            · subst hbm
              exact ⟨hb, hle⟩
      · intro s d hI hQs hr
        rcases tsdbCommitToFile_round_eq env pCfg fid tid _ hw s with
          ⟨_, he⟩ | ⟨hb, h1, h2, hn⟩
        · rw [he] at hr
          cases hr
          intro b hbm
          simp only [writtenBatches_append, writtenBatches, List.append_nil] at hbm
          exact hQs b hbm
        · rw [hn] at hr; cases hr
      · exact ⟨by simp, Or.inr rfl⟩
      · exact hQ
    · intro log e hQ he b hb
      rw [writtenBatches_append, writtenBatches_other e (by cases e <;> first | rfl | cases he),
        List.append_nil] at hb
      exact hQ b hb
    · intro log e hQ he b hb
      rw [writtenBatches_append, writtenBatches_other e (by cases e <;> first | rfl | cases he),
        List.append_nil] at hb
      exact hQ b hb
  intro b hb
  obtain ⟨h1, h2⟩ := hmain b hb
  refine ⟨h1, h2, fun hmin => ?_⟩
  have hpos : 0 < b.length := List.length_pos.mpr h1
  have := batchRows_le pCfg hmin (by omega)
  omega

/-- The amended C22.  For every configuration with `maxRowsPerFileBlock >= 2` whose product
`maxRowsPerFileBlock * 4` is a value of `int` (`maxRowsPerFileBlock <= 536870911`) and every
block writer that takes at least one row and at most the batch, the bound `maxRowsToRead` is
positive in every call of `tsdbReadRowsFromCache` that the drain loops of `tsdbCommitToFile`
make, for every iterator array and every number of rounds. -/
theorem C22_read_bound_positive (env : FileEnv) (fuel : Nat) (pCfg : STsdbCfg)
    (pMeta : STsdbMeta) (fid : Int) (iters : List (Option SSkipListIterator))
    (hw : env.writesRows) (hcfg : 2 ≤ pCfg.maxRowsPerFileBlock)
    (hmax : pCfg.maxRowsPerFileBlock * 4 ≤ INT32_MAX) :
    ∀ m ∈ readBounds (tsdbCommitToFile env fuel pCfg pMeta fid iters).log, 0 < m := by
  have hcap := batchRows_of_two_le pCfg hcfg hmax
  apply tsdbCommitToFile_log env fuel pCfg pMeta fid
    (fun log => ∀ m ∈ readBounds log, 0 < m)
  · intro m hm
    cases hm
  · intro tid pIter log hQ
    apply tsdbCommitToFile_drain_log env pCfg fid tid _
      (fun s => s.maxRowsToRead = batchRows pCfg - s.pDataCols.length ∧
        (s.pDataCols.length : Int) < batchRows pCfg)
      (fun log => ∀ m ∈ readBounds log, 0 < m)
    · intro s s1 hI hQs hr
      rcases tsdbCommitToFile_round_eq env pCfg fid tid _ hw s with ⟨_, he⟩ | ⟨hb, h1, h2, hn⟩
      · rw [he] at hr; cases hr
      · rw [hn] at hr
        cases hr
        obtain ⟨hm, hc⟩ := hI
        have hlen := roundBatch_length
          (tsdbGetKeyRangeOfFileId pCfg.daysPerFile pCfg.precision fid).2 s
        have hn2 := (readCount_le (tsdbGetKeyRangeOfFileId pCfg.daysPerFile pCfg.precision
          fid).2 s.maxRowsToRead s.pIter).2
        refine ⟨⟨rfl, ?_⟩, ?_⟩
        · simp only [List.length_drop]
          omega
        · intro m hmm
          simp only [readBounds_append, readBounds, List.append_nil, List.mem_append,
            List.mem_singleton] at hmm
          rcases hmm with hmm | hmm
          · exact hQs m hmm
          · subst hmm
            omega
    · intro s d hI hQs hr
      rcases tsdbCommitToFile_round_eq env pCfg fid tid _ hw s with ⟨_, he⟩ | ⟨hb, h1, h2, hn⟩
      · rw [he] at hr
        cases hr
        obtain ⟨hm, hc⟩ := hI
        intro m hmm
        simp only [readBounds_append, readBounds, List.mem_append, List.mem_singleton] at hmm
        rcases hmm with hmm | hmm
        · exact hQs m hmm
        · subst hmm
          omega
      · rw [hn] at hr; cases hr
    · exact ⟨by simp, by simpa using hcap⟩
    · exact hQ
  · intro log e hQ he m hm
    rw [readBounds_append, readBounds_other e (by cases e <;> first | rfl | cases he),
      List.append_nil] at hm
    exact hQ m hm
  · intro log e hQ he m hm
    rw [readBounds_append, readBounds_other e (by cases e <;> first | rfl | cases he),
      List.append_nil] at hm
    exact hQ m hm

/-- C21 in the first day file of the table of `genA`, with batches of two rows and a writer
that takes one row of every batch: the batches handed over hold two, two and one row. -/
theorem C21_batch_within_four_fifths_witness :
    oneRowWriter.writesRows ∧ batchRows cfgSmallBlock = 2 ∧
    INT32_MIN ≤ cfgSmallBlock.maxRowsPerFileBlock * 4 ∧
    writtenBatches (tsdbCommitToFile oneRowWriter 10 cfgSmallBlock metaA 0 itersA).log =
      [[rowAt 1, rowAt 3], [rowAt 3, rowAt 5], [rowAt 5]] ∧
    ∀ b ∈ writtenBatches (tsdbCommitToFile oneRowWriter 10 cfgSmallBlock metaA 0 itersA).log,
      b ≠ [] ∧ (b.length : Int) ≤ batchRows cfgSmallBlock ∧
      (INT32_MIN ≤ cfgSmallBlock.maxRowsPerFileBlock * 4 →
        (b.length : Int) ≤ Int.tdiv (cfgSmallBlock.maxRowsPerFileBlock * 4) 5 ∧
        (b.length : Int) ≤ cfgSmallBlock.maxRowsPerFileBlock) :=
  ⟨oneRowWriter_writesRows, by decide, by decide, by decide,
   C21_batch_within_four_fifths oneRowWriter 10 cfgSmallBlock metaA 0 itersA
     oneRowWriter_writesRows⟩

/-- The amended C22 in the first day file of the table of `genA`, with batches of two rows
and a writer that takes one row of every batch: the reads are given the bounds 2, 1, 1, 2. -/
theorem C22_read_bound_positive_witness :
    oneRowWriter.writesRows ∧ 2 ≤ cfgSmallBlock.maxRowsPerFileBlock ∧
    cfgSmallBlock.maxRowsPerFileBlock * 4 ≤ INT32_MAX ∧
    readBounds (tsdbCommitToFile oneRowWriter 10 cfgSmallBlock metaA 0 itersA).log =
      [2, 1, 1, 2] ∧
    ∀ m ∈ readBounds (tsdbCommitToFile oneRowWriter 10 cfgSmallBlock metaA 0 itersA).log,
      0 < m :=
  ⟨oneRowWriter_writesRows, by decide, by decide, by decide,
   C22_read_bound_positive oneRowWriter 10 cfgSmallBlock metaA 0 itersA
     oneRowWriter_writesRows (by decide) (by decide)⟩

/-- C22 as stated fails: with `maxRowsPerFileBlock = 1` the bound of line 441 is
`1 * 4 / 5 = 0`, so the first call of `tsdbReadRowsFromCache` for the table of `genA` is
given `maxRowsToRead = 0`; it reads nothing, and the file is closed with no row written.
With `maxRowsPerFileBlock = 536870912` the product of line 441 is 2^31, the `int` holds
-2^31 and the first call is given `maxRowsToRead = -429496729`. -/
theorem C22_one_row_blocks_read_with_bound_zero :
    1 ≤ cfgOneRow.maxRowsPerFileBlock ∧ batchRows cfgOneRow = 0 ∧
    readBounds (tsdbCommitToFile FileEnv.ok 10 cfgOneRow metaA 0 itersA).log = [0] ∧
    (tsdbCommitToFile FileEnv.ok 10 cfgOneRow metaA 0 itersA).ret = .ok ∧
    writtenBatches (tsdbCommitToFile FileEnv.ok 10 cfgOneRow metaA 0 itersA).log = [] ∧
    (tsdbCommitToFile FileEnv.ok 10 cfgOneRow metaA 0 itersA).iters = itersA ∧
    1 ≤ cfgWrap.maxRowsPerFileBlock ∧ batchRows cfgWrap = -429496729 ∧
    readBounds (tsdbCommitToFile FileEnv.ok 10 cfgWrap metaA 0 itersA).log = [-429496729] ∧
    writtenBatches (tsdbCommitToFile FileEnv.ok 10 cfgWrap metaA 0 itersA).log = [] := by
  decide

/-! ## The exits of the commit task (C16) -/

/-- C16, what the code does: a run of `tsdbCommitData` whose `tsdbCreateTableIters` returns
`NULL` returns at line 345 with the `commit` flag, the immutable generation and the pool as
they were; every other run that returns has passed the statements behind `_exit`: the flag is
0, the immutable slot is empty and the blocks of the immutable generation are at the end of
the free list of the pool. -/
theorem C16_retirement_skipped_without_iterators (env : CommitRunEnv) (fuel : Nat)
    (pMeta : STsdbMeta) (r : STsdbRepo) (im : SMemTable) (him : r.imem = some im) :
    (tsdbCreateTableIters env.iters r.config pMeta im = none →
      (tsdbCommitData_run env fuel pMeta r).returned = true ∧
      (tsdbCommitData_run env fuel pMeta r).repo.commit = r.commit ∧
      (tsdbCommitData_run env fuel pMeta r).repo.imem = some im ∧
      (tsdbCommitData_run env fuel pMeta r).repo.pPool = r.pPool) ∧
    (tsdbCreateTableIters env.iters r.config pMeta im ≠ none →
      (tsdbCommitData_run env fuel pMeta r).returned = true →
      (tsdbCommitData_run env fuel pMeta r).repo.commit = 0 ∧
      (tsdbCommitData_run env fuel pMeta r).repo.imem = none ∧
      (tsdbCommitData_run env fuel pMeta r).repo.pPool = r.pPool ++ im.bufBlockList) := by
  unfold tsdbCommitData_run
  rw [him]
  simp only
  cases hi : tsdbCreateTableIters env.iters r.config pMeta im with
  | none =>
    refine ⟨fun _ => ?_, fun h => absurd rfl h⟩
    simp [tsdbCommitData, him]
  | some iters =>
    refine ⟨fun h => Option.noConfusion h, fun _ hret => ?_⟩
    cases h1 : env.helperFails with
    | true => simp [tsdbCommitData, him, CommitEnv.ok]
    | false =>
      cases h2 : env.dataColsNull with
      | true => simp [tsdbCommitData, him, CommitEnv.ok]
      | false =>
        simp only [h1, h2, Bool.false_eq_true, if_false] at hret ⊢
        cases h3 : (tsdbCommitData_files env.files fuel r.config pMeta
            (toInt32 (tsdbGetKeyFileId im.keyLast r.config.daysPerFile r.config.precision) +
              1 - toInt32 (tsdbGetKeyFileId im.keyFirst r.config.daysPerFile
                r.config.precision)).toNat
            (toInt32 (tsdbGetKeyFileId im.keyFirst r.config.daysPerFile r.config.precision))
            iters []).ret with
        | spin => rw [h3] at hret; cases hret
        | err => simp [tsdbCommitData, him, CommitEnv.ok]
        | ok =>
          rw [h3] at hret
          simp only at hret ⊢
          split at hret
          · cases hret
          · next hlast =>
            rw [if_neg hlast]
            simp [tsdbCommitData, him, CommitEnv.ok]

/-- C16 at the repository behind the first swap, in a run of the commit task whose `calloc`
of line 498 fails: the task returns with the `commit` flag at 1, the immutable generation in
its slot and its block 0 not in the pool. -/
theorem C16_retirement_skipped_without_iterators_witness :
    swapOut.repo.imem = some oneBlockGen ∧
    tsdbCreateTableIters callocFailsEnv.iters swapOut.repo.config metaT oneBlockGen = none ∧
    (tsdbCommitData_run callocFailsEnv 10 metaT swapOut.repo).returned = true ∧
    (tsdbCommitData_run callocFailsEnv 10 metaT swapOut.repo).repo.commit = 1 ∧
    (tsdbCommitData_run callocFailsEnv 10 metaT swapOut.repo).repo.imem = some oneBlockGen ∧
    (tsdbCommitData_run callocFailsEnv 10 metaT swapOut.repo).repo.pPool = [⟨2, 0, 100⟩] :=
  ⟨by decide, by decide,
   ((C16_retirement_skipped_without_iterators callocFailsEnv 10 metaT swapOut.repo oneBlockGen
      (by decide)).1 (by decide)).1,
   by decide, by decide, by decide⟩

/-! ## What a drain loop writes -/

theorem writtenRows_append (tid : Nat) (l1 l2 : List CommitEv) :
    writtenRows tid (l1 ++ l2) = writtenRows tid l1 ++ writtenRows tid l2 := by
  induction l1 with
  | nil => rfl
  | cons e l ih =>
    cases e
    case writeDataBlock f t c w =>
      simp only [List.cons_append, writtenRows]
      split <;> simp [ih]
    all_goals simpa [writtenRows] using ih

theorem iterDrop_iterDrop (n k : Nat) (pIter : Option SSkipListIterator) :
    iterDrop k (iterDrop n pIter) = iterDrop (n + k) pIter := by
  cases pIter with
  | none => rfl
  | some it => simp [iterDrop, List.drop_drop, Nat.add_comm]

theorem iterStarted_iterDrop (n : Nat) (pIter : Option SSkipListIterator)
    (h : iterStarted pIter) : iterStarted (iterDrop n pIter) := by
  cases pIter with
  | none => trivial
  | some it => exact h

theorem readCount_started (maxKey maxRowsToRead : Int) (pIter : Option SSkipListIterator)
    (h : iterStarted pIter) :
    readCount maxKey maxRowsToRead pIter =
      min maxRowsToRead.toNat (rowsUpTo maxKey (iterRows pIter)).length := by
  cases pIter with
  | none => simp [readCount, iterRows, rowsUpTo]
  | some it =>
    have h' : it.started = true := h
    simp [readCount, iterRows, h']

/-- The drain loop of the table in slot `tid`, with a block writer that takes rows and more
rounds than rows to drain: it ends with an empty batch, the iterator some rows further on,
and the writer has taken, in their order, the rows that were in the batch and the rows the
iterator went over, all for this table.  When the batch had room at the start, the iterator
went over all its rows up to `maxKey`. -/
theorem tsdbCommitToFile_drain_spec (env : FileEnv) (pCfg : STsdbCfg) (fid : Int) (tid : Nat)
    (maxKey : Int) (hw : env.writesRows) (fuel : Nat) (s : DrainState)
    (hf : drainMeasure maxKey s < fuel)
    (hm : s.maxRowsToRead = batchRows pCfg - s.pDataCols.length) :
    ∃ k evs, k ≤ (rowsUpTo maxKey (iterRows s.pIter)).length ∧
      (tsdbCommitToFile_drain env pCfg fid tid maxKey fuel s).pIter = iterDrop k s.pIter ∧
      (tsdbCommitToFile_drain env pCfg fid tid maxKey fuel s).log = s.log ++ evs ∧
      writtenRows tid evs = s.pDataCols ++ (iterRows s.pIter).take k ∧
      (∀ t, t ≠ tid → writtenRows t evs = []) ∧
      (∀ e ∈ evs, e.isReadRows = true ∨ e.isWriteDataBlock = true) ∧
      (iterStarted s.pIter → (s.pDataCols.length : Int) < batchRows pCfg →
        k = (rowsUpTo maxKey (iterRows s.pIter)).length) := by
  induction fuel generalizing s with
  | zero => omega
  | succ fuel ih =>
    rw [tsdbCommitToFile_drain_succ]
    have hr1 := (readCount_le maxKey s.maxRowsToRead s.pIter).1
    have hr2 := (readCount_le maxKey s.maxRowsToRead s.pIter).2
    have hlen := roundBatch_length maxKey s
    rcases tsdbCommitToFile_round_eq env pCfg fid tid maxKey hw s with ⟨hb, he⟩ | ⟨hb, h1, h2, hn⟩
    · rw [he]
      simp only
      refine ⟨readCount maxKey s.maxRowsToRead s.pIter, _, hr1, rfl, rfl, ?_, ?_, ?_, ?_⟩
      · simp only [writtenRows]
        exact hb.symm
      · intro t _
        rfl
      · intro e he'
        simp only [List.mem_singleton] at he'
        subst he'
        exact Or.inl rfl
      · intro hst hroom
        rw [hb] at hlen
        simp only [List.length_nil] at hlen
        rw [readCount_started maxKey s.maxRowsToRead s.pIter hst] at hlen ⊢
        omega
    · rw [hn]
      simp only
      have hms := tsdbCommitToFile_round_measure env pCfg fid tid maxKey hw s _ hn
      obtain ⟨k1, evs1, hk1, hit1, hlog1, hwr1, hoth1, hev1, hpr1⟩ := ih _ (Nat.lt_of_lt_of_le hms (Nat.le_of_lt_succ hf)) rfl
      simp only [iterRows_iterDrop] at hk1 hwr1 hpr1
      rw [rowsUpTo_drop_length maxKey _ _ hr1] at hk1 hpr1
      refine ⟨readCount maxKey s.maxRowsToRead s.pIter + k1,
        [CommitEv.readRows fid tid s.maxRowsToRead
            (readCount maxKey s.maxRowsToRead s.pIter : Nat),
          CommitEv.writeDataBlock fid tid (roundBatch maxKey s)
            (env.writeDataBlock fid tid (s.nLoop + 1) (roundBatch maxKey s))] ++ evs1,
        by omega, ?_, ?_, ?_, ?_, ?_, ?_⟩
      · rw [hit1, iterDrop_iterDrop]
      · rw [hlog1]
        simp only [List.append_assoc, List.singleton_append, List.cons_append, List.nil_append]
      · rw [writtenRows_append, hwr1]
        simp only [writtenRows, if_true, List.append_nil]
        rw [← List.append_assoc, List.take_append_drop, List.take_add]
        unfold roundBatch
        rw [List.append_assoc]
      · intro t ht
        rw [writtenRows_append, hoth1 t ht]
        simp only [writtenRows, List.append_nil]
        rw [if_neg (fun h => ht h.symm)]
      · intro e he'
        simp only [List.cons_append, List.nil_append, List.mem_cons] at he'
        rcases he' with he' | he' | he'
        · subst he'; exact Or.inl rfl
        · subst he'; exact Or.inr rfl
        · exact hev1 e he'
      · intro hst hroom
        have hrc := readCount_started maxKey s.maxRowsToRead s.pIter hst
        have := hpr1 (iterStarted_iterDrop _ _ hst) (by
          simp only [List.length_drop]
          omega)
        omega

/-! ## What the loop over the tables writes -/

theorem drop_rowsUpTo (maxKey : Int) (l : List SDataRow) :
    l.drop (rowsUpTo maxKey l).length = rowsAbove maxKey l := by
  induction l with
  | nil => rfl
  | cons x xs ih =>
    by_cases hx : x.key ≤ maxKey
    · rw [rowsUpTo_cons_le maxKey x xs hx]
      simp only [List.length_cons, List.drop_succ_cons, ih, rowsAbove, List.dropWhile_cons, hx,
        decide_True, if_true]
    · rw [rowsUpTo_cons_gt maxKey x xs (by omega)]
      simp [rowsAbove, List.dropWhile_cons, hx]

theorem iterRows_iterDrop_length_le (n : Nat) (pIter : Option SSkipListIterator) :
    (iterRows (iterDrop n pIter)).length ≤ (iterRows pIter).length := by
  rw [iterRows_iterDrop, List.length_drop]
  omega

/-- The loop over the tables with no failure of the file layer and more rounds than rows:
it goes through, and it makes no call on the file group. -/
theorem tsdbCommitToFile_tables_ok (env : FileEnv) (fuel : Nat) (pCfg : STsdbCfg)
    (pMeta : STsdbMeta) (fid : Int) (maxKey : Int) (henv : env.noFailure) (tids : List Nat)
    (iters : List (Option SSkipListIterator)) (log : List CommitEv)
    (hf : ∀ i, (iterRows (iters.getD i none)).length < fuel) :
    (tsdbCommitToFile_tables env fuel pCfg pMeta fid maxKey tids iters log).ret = .ok ∧
    ∃ evs, (tsdbCommitToFile_tables env fuel pCfg pMeta fid maxKey tids iters log).log =
        log ++ evs ∧ ∀ e ∈ evs, e.isGroupEv = false := by
  obtain ⟨hw, _, _, hmove, hinfo, _⟩ := henv
  induction tids generalizing iters log with
  | nil => exact ⟨rfl, [], by simp [tsdbCommitToFile_tables], by simp⟩
  | cons tid tids ih =>
    rw [tsdbCommitToFile_tables]
    cases hT : pMeta.tables.getD tid none with
    | none => exact ih iters log hf
    | some pTable =>
      simp only
      have hmeas : drainMeasure maxKey ⟨iters.getD tid none, [], batchRows pCfg, 0, log⟩ <
          fuel := by
        have := rowsUpTo_length_le maxKey (iterRows (iters.getD tid none))
        have := hf tid
        simp only [drainMeasure, List.length_nil]
        omega
      obtain ⟨hd1, _, _⟩ := tsdbCommitToFile_drain_ends env pCfg fid tid maxKey hw fuel _ hmeas
      obtain ⟨k, evsd, _, hit, hlog, _, _, hev, _⟩ :=
        tsdbCommitToFile_drain_spec env pCfg fid tid maxKey hw fuel
          ⟨iters.getD tid none, [], batchRows pCfg, 0, log⟩ hmeas (by simp)
      simp only at hit hlog
      rw [hd1, hit, hlog]
      simp only [hmove fid tid, hinfo fid tid, Bool.false_eq_true, if_false]
      obtain ⟨h1, evs, h3, h4⟩ := ih (iters.set tid (iterDrop k (iters.getD tid none)))
        (log ++ evsd ++ [CommitEv.moveLastBlock fid tid true,
          CommitEv.writeCompInfo fid tid true])
        (fun i => by
          by_cases hi : i = tid
          · subst hi
            by_cases hl : i < iters.length
            · rw [getD_set_self _ _ _ hl]
              exact Nat.lt_of_le_of_lt (iterRows_iterDrop_length_le _ _) (hf i)
            · rw [List.set_eq_of_length_le (by omega)]
              exact hf i
          · rw [getD_set_ne _ _ _ _ (fun h => hi h.symm)]
            exact hf i)
      refine ⟨h1, evsd ++ [CommitEv.moveLastBlock fid tid true,
        CommitEv.writeCompInfo fid tid true] ++ evs, ?_, ?_⟩
      · rw [h3]
        simp only [List.append_assoc]
      · intro e he
        rcases List.mem_append.mp he with he | he
        · rcases List.mem_append.mp he with he | he
          · rcases hev e he with h | h <;> cases e <;> first | rfl | cases h
          · simp only [List.mem_cons, List.mem_singleton, List.not_mem_nil, or_false] at he
            rcases he with he | he <;> rw [he] <;> rfl
        · exact h4 e he

/-- The answer of `tsdbHasDataToCommit` is no exactly when no iterator among the first
`nIters` has a row with a key in the interval. -/
theorem tsdbHasDataToCommit_eq_false (iters : List (Option SSkipListIterator)) (nIters : Nat)
    (minKey maxKey : Int) :
    tsdbHasDataToCommit iters nIters minKey maxKey = false ↔
      ∀ pIter ∈ iters.take nIters, ∀ row ∈ iterRows pIter,
        ¬ (minKey ≤ row.key ∧ row.key ≤ maxKey) := by
  unfold tsdbHasDataToCommit
  rw [List.any_eq_false]
  constructor
  · intro h pIter hp row hrow
    have := h pIter hp
    cases pIter with
    | none => cases hrow
    | some it =>
      simp only [Bool.not_eq_true, List.any_eq_false, decide_eq_true_eq] at this
      exact this row hrow
  · intro h pIter hp
    cases pIter with
    | none => simp
    | some it =>
      simp only [Bool.not_eq_true, List.any_eq_false, decide_eq_true_eq]
      exact fun row hrow => h (some it) hp row hrow

theorem countP_eq_zero_of_not_group (p : CommitEv → Bool) (evs : List CommitEv)
    (hp : ∀ e, e.isGroupEv = false → p e = false) (h : ∀ e ∈ evs, e.isGroupEv = false) :
    evs.countP p = 0 := by
  rw [List.countP_eq_zero]
  intro e he
  rw [hp e (h e he)]
  exact Bool.false_ne_true

/-- C18: for every file id for which no iterator of a table has a row with a key in the
interval of the file, `tsdbCommitToFile` returns success with no call at all (no file group
is created, no block is written) and every iterator as it was.  For every file id for which
some iterator has such a row, when no call into the file layer fails (and the drain loops are
given more rounds than rows), it returns success having created exactly one file group, that
of the file id, written its block directory exactly once and closed it exactly once, without
the error flag. -/
theorem C18_file_skipped_or_created_once (env : FileEnv) (fuel : Nat) (pCfg : STsdbCfg)
    (pMeta : STsdbMeta) (fid : Int) (iters : List (Option SSkipListIterator)) :
    ((∀ pIter ∈ iters.take pCfg.maxTables, ∀ row ∈ iterRows pIter,
        ¬ ((tsdbGetKeyRangeOfFileId pCfg.daysPerFile pCfg.precision fid).1 ≤ row.key ∧
           row.key ≤ (tsdbGetKeyRangeOfFileId pCfg.daysPerFile pCfg.precision fid).2)) →
      (tsdbCommitToFile env fuel pCfg pMeta fid iters).ret = .ok ∧
      (tsdbCommitToFile env fuel pCfg pMeta fid iters).iters = iters ∧
      (tsdbCommitToFile env fuel pCfg pMeta fid iters).log = []) ∧
    ((∃ pIter ∈ iters.take pCfg.maxTables, ∃ row ∈ iterRows pIter,
        (tsdbGetKeyRangeOfFileId pCfg.daysPerFile pCfg.precision fid).1 ≤ row.key ∧
        row.key ≤ (tsdbGetKeyRangeOfFileId pCfg.daysPerFile pCfg.precision fid).2) →
      env.noFailure → (∀ i, (iterRows (iters.getD i none)).length < fuel) →
      (tsdbCommitToFile env fuel pCfg pMeta fid iters).ret = .ok ∧
      (tsdbCommitToFile env fuel pCfg pMeta fid iters).log.countP CommitEv.isCreateFGroup = 1 ∧
      CommitEv.createFGroup fid true ∈ (tsdbCommitToFile env fuel pCfg pMeta fid iters).log ∧
      (tsdbCommitToFile env fuel pCfg pMeta fid iters).log.countP CommitEv.isWriteCompIdx = 1 ∧
      CommitEv.writeCompIdx fid true ∈ (tsdbCommitToFile env fuel pCfg pMeta fid iters).log ∧
      (tsdbCommitToFile env fuel pCfg pMeta fid iters).log.countP CommitEv.isCloseHelperFile
        = 1 ∧
      CommitEv.closeHelperFile fid false ∈
        (tsdbCommitToFile env fuel pCfg pMeta fid iters).log) := by
  constructor
  · intro h
    have hno := (tsdbHasDataToCommit_eq_false iters pCfg.maxTables _ _).mpr h
    unfold tsdbCommitToFile
    simp only [hno, if_true]
    exact ⟨trivial, trivial, trivial⟩
  · intro h henv hf
    have hyes : ¬ tsdbHasDataToCommit iters pCfg.maxTables
        (tsdbGetKeyRangeOfFileId pCfg.daysPerFile pCfg.precision fid).1
        (tsdbGetKeyRangeOfFileId pCfg.daysPerFile pCfg.precision fid).2 = false := by
      intro hc
      obtain ⟨pIter, hp, row, hrow, hin⟩ := h
      exact (tsdbHasDataToCommit_eq_false iters pCfg.maxTables _ _).mp hc pIter hp row hrow hin
    obtain ⟨ht1, evs, ht2, ht3⟩ := tsdbCommitToFile_tables_ok env fuel pCfg pMeta fid
      (tsdbGetKeyRangeOfFileId pCfg.daysPerFile pCfg.precision fid).2 henv
      (List.range' 1 (pCfg.maxTables - 1)) iters
      [CommitEv.createFGroup fid true, CommitEv.openHelperFile fid true] hf
    obtain ⟨_, hcreate, hopen, _, _, hidx⟩ := henv
    unfold tsdbCommitToFile
    simp only [if_neg hyes, hcreate fid, hopen fid, hidx fid, Bool.false_eq_true, if_false, ht1,
      ht2]
    have c1 := countP_eq_zero_of_not_group CommitEv.isCreateFGroup evs
      (fun e he => by cases e <;> first | rfl | cases he) ht3
    have c2 := countP_eq_zero_of_not_group CommitEv.isWriteCompIdx evs
      (fun e he => by cases e <;> first | rfl | cases he) ht3
    have c3 := countP_eq_zero_of_not_group CommitEv.isCloseHelperFile evs
      (fun e he => by cases e <;> first | rfl | cases he) ht3
    refine ⟨trivial, ?_, by simp, ?_, by simp, ?_, by simp⟩
    · simp [List.countP_append, List.countP_cons, c1, CommitEv.isCreateFGroup]
    · simp [List.countP_append, List.countP_cons, c2, CommitEv.isWriteCompIdx]
    · simp [List.countP_append, List.countP_cons, c3, CommitEv.isCloseHelperFile]

theorem ok_noFailure : FileEnv.ok.noFailure :=
  ⟨ok_writesRows, fun _ => rfl, fun _ => rfl, fun _ _ => rfl, fun _ _ => rfl, fun _ => rfl⟩

/-- C18 for the file ids 100 and 101 with one row, of file 101, for the table in slot 1:
file 100 is passed over without a call, file 101 gets one file group, one block directory
and one close; the loop of lines 365-370 over both makes one creation call in all. -/
theorem C18_file_skipped_or_created_once_witness :
    FileEnv.ok.noFailure ∧
    tsdbGetKeyRangeOfFileId cfgHalf.daysPerFile cfgHalf.precision 100 =
      (86400000000, 87263999999) ∧
    tsdbGetKeyRangeOfFileId cfgHalf.daysPerFile cfgHalf.precision 101 =
      (87264000000, 88127999999) ∧
    ((tsdbCommitToFile FileEnv.ok 10 cfgHalf metaA 100 iters101).ret = .ok ∧
      (tsdbCommitToFile FileEnv.ok 10 cfgHalf metaA 100 iters101).iters = iters101 ∧
      (tsdbCommitToFile FileEnv.ok 10 cfgHalf metaA 100 iters101).log = []) ∧
    ((tsdbCommitToFile FileEnv.ok 10 cfgHalf metaA 101 iters101).ret = .ok ∧
      (tsdbCommitToFile FileEnv.ok 10 cfgHalf metaA 101 iters101).log.countP
        CommitEv.isCreateFGroup = 1 ∧
      CommitEv.createFGroup 101 true ∈
        (tsdbCommitToFile FileEnv.ok 10 cfgHalf metaA 101 iters101).log ∧
      (tsdbCommitToFile FileEnv.ok 10 cfgHalf metaA 101 iters101).log.countP
        CommitEv.isWriteCompIdx = 1 ∧
      CommitEv.writeCompIdx 101 true ∈
        (tsdbCommitToFile FileEnv.ok 10 cfgHalf metaA 101 iters101).log ∧
      (tsdbCommitToFile FileEnv.ok 10 cfgHalf metaA 101 iters101).log.countP
        CommitEv.isCloseHelperFile = 1 ∧
      CommitEv.closeHelperFile 101 false ∈
        (tsdbCommitToFile FileEnv.ok 10 cfgHalf metaA 101 iters101).log) ∧
    (tsdbCommitData_files FileEnv.ok 10 cfgHalf metaA 2 100 iters101 []).ret = .ok ∧
    (tsdbCommitData_files FileEnv.ok 10 cfgHalf metaA 2 100 iters101 []).log.filter
        CommitEv.isGroupEv =
      [CommitEv.createFGroup 101 true, CommitEv.openHelperFile 101 true,
       CommitEv.writeCompIdx 101 true, CommitEv.closeHelperFile 101 false] ∧
    writtenRows 1 (tsdbCommitData_files FileEnv.ok 10 cfgHalf metaA 2 100 iters101 []).log =
      [rowAt key101] :=
  ⟨ok_noFailure, by decide, by decide,
   (C18_file_skipped_or_created_once FileEnv.ok 10 cfgHalf metaA 100 iters101).1 (by decide),
   (C18_file_skipped_or_created_once FileEnv.ok 10 cfgHalf metaA 101 iters101).2 (by decide)
     ok_noFailure (by
       intro i
       rcases i with _ | _ | _ | _ | i <;> first | decide | simp [iters101, iterRows]),
   by decide, by decide, by decide⟩

/-! ## The generations of a reachable repository -/

theorem rowsAbove_cons_le (maxKey : Int) (row : SDataRow) (l : List SDataRow)
    (h : row.key ≤ maxKey) : rowsAbove maxKey (row :: l) = rowsAbove maxKey l := by
  simp [rowsAbove, List.dropWhile_cons, h]

theorem rowsAbove_cons_gt (maxKey : Int) (row : SDataRow) (l : List SDataRow)
    (h : maxKey < row.key) : rowsAbove maxKey (row :: l) = row :: l := by
  simp [rowsAbove, List.dropWhile_cons, not_le.mpr h]

theorem rowsAbove_rowsAbove (b1 b2 : Int) (h : b1 ≤ b2) (l : List SDataRow) :
    rowsAbove b2 (rowsAbove b1 l) = rowsAbove b2 l := by
  induction l with
  | nil => rfl
  | cons x xs ih =>
    by_cases hx : x.key ≤ b1
    · rw [rowsAbove_cons_le b1 x xs hx, rowsAbove_cons_le b2 x xs (by omega), ih]
    · rw [rowsAbove_cons_gt b1 x xs (by omega)]

theorem iterAbove_none (maxKey : Int) : iterAbove maxKey none = none := rfl

theorem iterAbove_iterAbove (b1 b2 : Int) (h : b1 ≤ b2) (pIter : Option SSkipListIterator) :
    iterAbove b2 (iterAbove b1 pIter) = iterAbove b2 pIter := by
  cases pIter with
  | none => rfl
  | some it =>
    have h1 : ∀ b (x : SSkipListIterator),
        iterAbove b (some x) = some ⟨x.started, rowsAbove b x.rest⟩ := by
      intro b x
      simp only [iterAbove, iterDrop, iterRows, drop_rowsUpTo]
    rw [h1, h1, h1]
    simp only [rowsAbove_rowsAbove b1 b2 h]

end Tsdb
